import Mathlib

/-!
Verification development for the sharded-training data-distribution and
sharding-propagation subsystem of the repository: the DTensor placement
model (local shape / global offset computation, tensor splitting), the
sharding propagator (caching, strategy selection, legacy rule path), and
the FSDP orchestration entry points (policy validation, catch-all reshard,
no_sync flag handling).

The placement-model functions (compute_local_shape,
compute_local_shape_and_global_offset, _split_tensor,
_to_replicate_tensor) are not part of the available source tree (only
their tests under test/distributed/_tensor/test_utils.py are), so they
are modelled from the specification text and cross-checked against the
concrete expectations of those tests.  The sharding propagator
(torch/distributed/_tensor/sharding_prop.py), the composable fully_shard
entry point (torch/distributed/_composable/fully_shard.py) and the FSDP
runtime pieces (torch/distributed/fsdp/fully_sharded_data_parallel.py)
are embedded from source.
-/

/-! ## Placement model -/

/-- Placement variants: Replicate, Shard(dim), and _StridedShard(dim, split_factor),
mirroring torch.distributed.tensor.placement_types as described by the spec
(one placement per device-mesh dimension). -/
inductive Placement where
  | replicate : Placement
  | shard (dim : Nat) : Placement
  | stridedShard (dim : Nat) (splitFactor : Nat) : Placement
deriving DecidableEq, Repr

/-- True for Shard and _StridedShard placements (both partition a logical
tensor dimension across a mesh dimension), false for Replicate. -/
def Placement.isShard : Placement → Bool
  | .replicate => false
  | .shard _ => true
  | .stridedShard _ _ => true

/-- Logical tensor dimension targeted by a Shard/_StridedShard placement. -/
def Placement.shardDim : Placement → Option Nat
  | .replicate => none
  | .shard d => some d
  | .stridedShard d _ => some d

/-- Modelled from the spec: size of the local shard on one logical dimension
when the current size n is divided over a mesh dimension of numChunks ranks:
ranks whose coordinate is below n % numChunks get the ceiling share
(n / numChunks + 1) and every other rank gets the floor share (n / numChunks).
Zero-size shards are permitted. -/
def shardSizeOnDim (n numChunks c : Nat) : Nat :=
  if c < n % numChunks then n / numChunks + 1 else n / numChunks

/-- Modelled from the spec: starting offset of coordinate c's shard on one
logical dimension, i.e. the total size owned by all lower coordinates
(coordinate times the lower-coordinate shard size, accumulated over the
uneven remainder). -/
def shardOffsetOnDim (n numChunks c : Nat) : Nat :=
  c * (n / numChunks) + min c (n % numChunks)

/-- One scan step of the local-shape computation: placement on a mesh
dimension together with that mesh dimension's size and the rank's
coordinate along it. -/
def meshSteps (placements : List Placement) (mesh coord : List Nat) :
    List (Placement × Nat × Nat) :=
  placements.zip (mesh.zip coord)

/-- Scan loop of compute_local_shape: process each mesh dimension in order,
updating the sharded logical dimension's current size. -/
def localShapeScan : List (Placement × Nat × Nat) → List Nat → List Nat
  | [], shape => shape
  | (p, n, c) :: rest, shape =>
    match p.shardDim with
    | none => localShapeScan rest shape
    | some d => localShapeScan rest (shape.set d (shardSizeOnDim (shape.getD d 0) n c))

/-- Modelled from the spec: compute_local_shape(global_shape, mesh, placements)
for the rank at the given mesh coordinate.  For each mesh dimension in order,
a Shard/_StridedShard placement divides the current size along its logical
dimension by that mesh dimension's size (remainder to the lowest
coordinates); Replicate leaves the shape unchanged. -/
def compute_local_shape (globalShape : List Nat) (mesh : List Nat)
    (placements : List Placement) (coord : List Nat) : List Nat :=
  localShapeScan (meshSteps placements mesh coord) globalShape

/-! ## compute_local_shape_and_global_offset -/

/-- Failure modes of compute_local_shape_and_global_offset.  The
notImplemented variant models the NotImplementedError that the spec
requires when a plain Shard targets a logical dimension whose strided
segment has already ended.  The other variants model the combinations the
spec gives no meaning to: a strided segment never closed by a plain Shard
on the same logical dimension, or a strided group whose chunk count does
not divide the current dimension size (the spec defines strided sharding
only through equal contiguous blocks). -/
inductive MetaComputeError where
  | notImplemented (msg : String) : MetaComputeError
  | danglingStridedPart (dim : Nat) : MetaComputeError
  | unevenStridedPart (dim : Nat) : MetaComputeError
deriving DecidableEq, Repr

/-- Message of the NotImplementedError required by the spec; it mentions
the phrase about the strided part having ended. -/
def stridedEndMessage : String :=
  "Strided sharding does not allow Shard() to appear after " ++
    "the strided part has ended"

/-- Reduction of monadic bind on a successful Except value. -/
theorem exceptBind_ok {ε α β : Type} (v : α) (f : α → Except ε β) :
    (Except.ok v >>= f) = f v := rfl

/-- Reduction of monadic bind on a failed Except value. -/
theorem exceptBind_error {ε α β : Type} (e : ε) (f : α → Except ε β) :
    ((Except.error e : Except ε α) >>= f) = Except.error e := rfl

/-- Modelled from the spec: single scan over the placement list that finds
the first plain Shard targeting a logical dimension whose strided segment
has ended.  The state tracks the logical dimensions with an open strided
segment (seen) and those whose segment was closed by a plain Shard on the
same logical dimension (ended). -/
def shardAfterStridedEndScan :
    List Placement → List Nat → List Nat → Option Nat
  | [], _, _ => none
  | p :: rest, seen, ended =>
    match p with
    | .replicate => shardAfterStridedEndScan rest seen ended
    | .stridedShard d _ => shardAfterStridedEndScan rest (d :: seen) ended
    | .shard d =>
      if ended.contains d then some d
      else if seen.contains d then shardAfterStridedEndScan rest seen (d :: ended)
      else shardAfterStridedEndScan rest seen ended

/-- First logical dimension (if any) on which a plain Shard appears after
that dimension's strided segment has ended. -/
def firstShardAfterStridedEnd (placements : List Placement) : Option Nat :=
  shardAfterStridedEndScan placements [] []

/-- Subsequence of scan steps that shard one fixed logical dimension d:
for each such mesh dimension, whether the placement is strided, the mesh
dimension's size, and the rank's coordinate along it. -/
def dimShardSteps (placements : List Placement) (mesh coord : List Nat)
    (d : Nat) : List (Bool × Nat × Nat) :=
  (meshSteps placements mesh coord).filterMap fun step =>
    match step with
    | (.replicate, _, _) => none
    | (.shard d', n, c) => if d' = d then some (false, n, c) else none
    | (.stridedShard d' _, n, c) => if d' = d then some (true, n, c) else none

/-- Mixed-radix shard index of a strided group, derived from the spec's
interleaving semantics: the closing plain Shard (last entry) is the most
significant digit and the first strided mesh dimension the least
significant, so that for the FSDP+TP pattern
[_StridedShard(0, split_factor=tp), Shard(0)] over a (dp, tp) mesh the
shard index is tp_coordinate * dp_size + dp_coordinate. -/
def stridedShardIndex : List (Nat × Nat) → Nat
  | [] => 0
  | (a, c) :: rest => stridedShardIndex rest * a + c

/-- Processes the strided group of one logical dimension: the remaining
scan steps must be strided steps closed by exactly one plain Shard step
with nothing after it, and the group's total chunk count must divide the
current size; the local shard is then the contiguous block selected by
the group's mixed-radix shard index. -/
def stridedGroupCompute (d : Nat) (n : Nat) (acc : List (Nat × Nat)) :
    List (Bool × Nat × Nat) → Except MetaComputeError (Nat × Nat)
  | [] => .error (.danglingStridedPart d)
  | (true, m, c) :: rest => stridedGroupCompute d n (acc ++ [(m, c)]) rest
  | (false, m, c) :: rest =>
    match rest with
    | _ :: _ => .error (.danglingStridedPart d)
    | [] =>
      let group := acc ++ [(m, c)]
      let total := (group.map Prod.fst).prod
      if n % total = 0 then
        .ok (n / total, stridedShardIndex group * (n / total))
      else
        .error (.unevenStridedPart d)

/-- Computes (local size, global offset) of one logical dimension d of
current size n from its shard steps: plain Shard steps refine the current
chunk contiguously (remainder to the lowest coordinates, offsets
accumulated), and a strided segment, once begun, must form a closed
strided group. -/
def dimShardCompute (d : Nat) (n : Nat) :
    List (Bool × Nat × Nat) → Except MetaComputeError (Nat × Nat)
  | [] => .ok (n, 0)
  | (false, m, c) :: rest => do
    let (sz, off) ← dimShardCompute d (shardSizeOnDim n m c) rest
    .ok (sz, shardOffsetOnDim n m c + off)
  | (true, m, c) :: rest => stridedGroupCompute d n [(m, c)] rest

/-- Modelled from the spec: compute_local_shape_and_global_offset
(global_shape, mesh, placements) for the rank at the given mesh
coordinate.  Raises the NotImplementedError mentioning that the strided
part has ended whenever a plain Shard targets a logical dimension whose
strided segment already ended; otherwise computes, per logical dimension,
the local size and accumulated global offset.  Combinations the spec
leaves undefined (unclosed strided segments, strided groups that do not
divide the dimension evenly) are rejected with distinct errors; split
factors of _StridedShard placements are implied by the group structure
(the spec fixes them to the number of further splits) and do not enter
the offset formula. -/
def collectDims (f : Nat → Except MetaComputeError (Nat × Nat)) :
    List Nat → Except MetaComputeError (List (Nat × Nat))
  | [] => .ok []
  | d :: rest => do
    let v ← f d
    let vs ← collectDims f rest
    .ok (v :: vs)

def compute_local_shape_and_global_offset (globalShape : List Nat)
    (mesh : List Nat) (placements : List Placement) (coord : List Nat) :
    Except MetaComputeError (List Nat × List Nat) :=
  match firstShardAfterStridedEnd placements with
  | some _ => .error (.notImplemented stridedEndMessage)
  | none => do
    let results ← collectDims
      (fun d => dimShardCompute d (globalShape.getD d 0)
        (dimShardSteps placements mesh coord d))
      (List.range globalShape.length)
    .ok (results.map Prod.fst, results.map Prod.snd)

/-! ## Per-dimension characterization of compute_local_shape -/

/-- Shard steps of one fixed logical dimension d among a list of scan
steps: the strided flag, mesh dimension size and rank coordinate of every
step whose placement shards d. -/
def stepsFilter (steps : List (Placement × Nat × Nat)) (d : Nat) :
    List (Bool × Nat × Nat) :=
  steps.filterMap fun step =>
    match step with
    | (.replicate, _, _) => none
    | (.shard d', n, c) => if d' = d then some (false, n, c) else none
    | (.stridedShard d' _, n, c) => if d' = d then some (true, n, c) else none

/-- Folding the per-dimension size rule over the shard steps of one
logical dimension. -/
def dimSizeFold (n : Nat) : List (Bool × Nat × Nat) → Nat
  | [] => n
  | (_, m, c) :: rest => dimSizeFold (shardSizeOnDim n m c) rest

theorem dimShardSteps_eq_stepsFilter (placements : List Placement)
    (mesh coord : List Nat) (d : Nat) :
    dimShardSteps placements mesh coord d =
      stepsFilter (meshSteps placements mesh coord) d := rfl

theorem localShapeScan_length (steps : List (Placement × Nat × Nat))
    (shape : List Nat) : (localShapeScan steps shape).length = shape.length := by
  induction steps generalizing shape with
  | nil => rfl
  | cons step rest ih =>
    obtain ⟨p, n, c⟩ := step
    cases p with
    | replicate => simpa [localShapeScan, Placement.shardDim] using ih shape
    | shard d => simp [localShapeScan, Placement.shardDim, ih, List.length_set]
    | stridedShard d f => simp [localShapeScan, Placement.shardDim, ih, List.length_set]

theorem localShapeScan_getD (steps : List (Placement × Nat × Nat))
    (shape : List Nat) (d : Nat) (hd : d < shape.length) :
    (localShapeScan steps shape).getD d 0 =
      dimSizeFold (shape.getD d 0) (stepsFilter steps d) := by
  induction steps generalizing shape with
  | nil => rfl
  | cons step rest ih =>
    obtain ⟨p, n, c⟩ := step
    cases p with
    | replicate =>
      simpa [localShapeScan, Placement.shardDim, stepsFilter] using ih shape hd
    | shard d' =>
      by_cases hdd : d' = d
      · subst hdd
        rw [localShapeScan]
        simp only [Placement.shardDim]
        rw [ih _ (by simpa using hd)]
        simp [stepsFilter, dimSizeFold, List.getD_eq_getElem?_getD,
          List.getElem?_set_eq_of_lt _ hd]
      · rw [localShapeScan]
        simp only [Placement.shardDim]
        rw [ih _ (by simpa using hd)]
        simp [stepsFilter, hdd, List.getD_eq_getElem?_getD,
          List.getElem?_set_ne hdd]
    | stridedShard d' f =>
      by_cases hdd : d' = d
      · subst hdd
        rw [localShapeScan]
        simp only [Placement.shardDim]
        rw [ih _ (by simpa using hd)]
        simp [stepsFilter, dimSizeFold, List.getD_eq_getElem?_getD,
          List.getElem?_set_eq_of_lt _ hd]
      · rw [localShapeScan]
        simp only [Placement.shardDim]
        rw [ih _ (by simpa using hd)]
        simp [stepsFilter, hdd, List.getD_eq_getElem?_getD,
          List.getElem?_set_ne hdd]

/-- C4: compute_local_shape processes mesh dimensions in order; on each
Shard(d)/StridedShard(d, _) placement over a mesh dimension of size m, a
rank whose coordinate is below current_size_d % m gets the ceiling share
and every other rank the floor share along logical dimension d; Replicate
placements leave the size unchanged; zero-size local shards are returned
(the function is total, not an error) when the shard count exceeds the
dimension size. -/
theorem compute_local_shape_uneven_rule (globalShape mesh : List Nat)
    (placements : List Placement) (coord : List Nat) (d : Nat)
    (hd : d < globalShape.length) :
    (compute_local_shape globalShape mesh placements coord).getD d 0 =
      dimSizeFold (globalShape.getD d 0) (dimShardSteps placements mesh coord d) ∧
    (compute_local_shape globalShape mesh placements coord).length =
      globalShape.length ∧
    (∀ n m c, 0 < m → c < n % m → shardSizeOnDim n m c = (n + m - 1) / m) ∧
    (∀ n m c, n % m ≤ c → shardSizeOnDim n m c = n / m) ∧
    (∀ n m, 0 < m → n < m → shardSizeOnDim n m (m - 1) = 0) ∧
    (∀ (gs : List Nat) (n c : Nat) (mesh' coord' : List Nat)
        (pl : List Placement),
      compute_local_shape gs (n :: mesh') (.replicate :: pl) (c :: coord') =
        compute_local_shape gs mesh' pl coord') := by
  refine ⟨?_, ?_, ?_, ?_, ?_, ?_⟩
  · simpa [dimShardSteps_eq_stepsFilter] using
      localShapeScan_getD (meshSteps placements mesh coord) globalShape d hd
  · exact localShapeScan_length _ _
  · intro n m c hm hc
    have hr : 0 < n % m := by omega
    have hrm : n % m < m := Nat.mod_lt _ hm
    have key : n + m - 1 = (n % m + m - 1) + m * (n / m) := by
      have := Nat.div_add_mod n m
      omega
    have hone : (n % m + m - 1) / m = 1 := by
      apply Nat.div_eq_of_lt_le <;> omega
    simp only [shardSizeOnDim, if_pos hc, key, Nat.add_mul_div_left _ _ hm, hone]
    omega
  · intro n m c hc
    simp [shardSizeOnDim, Nat.not_lt.mpr hc]
  · intro n m hm hn
    have h1 : n % m = n := Nat.mod_eq_of_lt hn
    have h2 : n / m = 0 := Nat.div_eq_of_lt hn
    simp [shardSizeOnDim, h1, h2]
    omega
  · intro gs n c mesh' coord' pl
    rfl

/-- Witness for C4 at the concrete case of
test_compute_local_shape_2d_uneven: a 7 by 7 tensor over a 4 by 2 mesh. -/
theorem compute_local_shape_uneven_rule_witness :
    0 < ([7, 7] : List Nat).length ∧
      (compute_local_shape [7, 7] [4, 2] [.replicate, .shard 0] [0, 1]).getD 0 0 =
        dimSizeFold (([7, 7] : List Nat).getD 0 0)
          (dimShardSteps [.replicate, .shard 0] [4, 2] [0, 1] 0) :=
  ⟨by decide,
    (compute_local_shape_uneven_rule [7, 7] [4, 2] [.replicate, .shard 0] [0, 1] 0
      (by decide)).1⟩

/-! ## Characterization of the strided-part-ended check (C2) -/


/-- Declarative form of the illegal pattern: some StridedShard(d) is
followed by a plain Shard(d) (ending the strided segment for d) and then
by another plain Shard(d). -/
def hasShardAfterStridedEnd (pl : List Placement) : Prop :=
  ∃ (d f i j k : Nat), i < j ∧ j < k ∧
    pl[i]? = some (Placement.stridedShard d f) ∧
    pl[j]? = some (Placement.shard d) ∧
    pl[k]? = some (Placement.shard d)

/-- The single-pass scan detects exactly the declarative illegal pattern,
for any initial seen/ended state interpreted as membership facts. -/
theorem scan_isSome_iff (pl : List Placement) (seen ended : List Nat) :
    (shardAfterStridedEndScan pl seen ended).isSome ↔
      ((∃ (d k : Nat), pl[k]? = some (Placement.shard d) ∧ d ∈ ended) ∨
       (∃ (d j k : Nat), j < k ∧ pl[j]? = some (Placement.shard d) ∧
         pl[k]? = some (Placement.shard d) ∧ d ∈ seen) ∨
       (∃ (d f i j k : Nat), i < j ∧ j < k ∧
         pl[i]? = some (Placement.stridedShard d f) ∧
         pl[j]? = some (Placement.shard d) ∧
         pl[k]? = some (Placement.shard d))) := by
  induction pl generalizing seen ended with
  | nil => simp [shardAfterStridedEndScan]
  | cons p rest ih =>
    cases p with
    | replicate =>
      rw [shardAfterStridedEndScan, ih]
      constructor
      · rintro (⟨d, k, hk, hd⟩ | ⟨d, j, k, hjk, hj, hk, hd⟩ |
          ⟨d, f, i, j, k, hij, hjk, hi, hj, hk⟩)
        · exact Or.inl ⟨d, k + 1, by simpa using hk, hd⟩
        · exact Or.inr (Or.inl ⟨d, j + 1, k + 1, by omega, by simpa using hj,
            by simpa using hk, hd⟩)
        · exact Or.inr (Or.inr ⟨d, f, i + 1, j + 1, k + 1, by omega, by omega,
            by simpa using hi, by simpa using hj, by simpa using hk⟩)
      · rintro (⟨d, k, hk, hd⟩ | ⟨d, j, k, hjk, hj, hk, hd⟩ |
          ⟨d, f, i, j, k, hij, hjk, hi, hj, hk⟩)
        · cases k with
          | zero => simp at hk
          | succ k => exact Or.inl ⟨d, k, by simpa using hk, hd⟩
        · cases k with
          | zero => omega
          | succ k =>
            cases j with
            | zero => simp at hj
            | succ j => exact Or.inr (Or.inl ⟨d, j, k, by omega,
                by simpa using hj, by simpa using hk, hd⟩)
        · cases k with
          | zero => omega
          | succ k =>
            cases j with
            | zero => omega
            | succ j =>
              cases i with
              | zero => simp at hi
              | succ i => exact Or.inr (Or.inr ⟨d, f, i, j, k, by omega, by omega,
                  by simpa using hi, by simpa using hj, by simpa using hk⟩)
    | stridedShard d0 f0 =>
      rw [shardAfterStridedEndScan, ih]
      constructor
      · rintro (⟨d, k, hk, hd⟩ | ⟨d, j, k, hjk, hj, hk, hd⟩ |
          ⟨d, f, i, j, k, hij, hjk, hi, hj, hk⟩)
        · exact Or.inl ⟨d, k + 1, by simpa using hk, hd⟩
        · rcases List.mem_cons.mp hd with hd0 | hd
          · subst hd0
            exact Or.inr (Or.inr ⟨d, f0, 0, j + 1, k + 1, by omega, by omega,
              by simp, by simpa using hj, by simpa using hk⟩)
          · exact Or.inr (Or.inl ⟨d, j + 1, k + 1, by omega, by simpa using hj,
              by simpa using hk, hd⟩)
        · exact Or.inr (Or.inr ⟨d, f, i + 1, j + 1, k + 1, by omega, by omega,
            by simpa using hi, by simpa using hj, by simpa using hk⟩)
      · rintro (⟨d, k, hk, hd⟩ | ⟨d, j, k, hjk, hj, hk, hd⟩ |
          ⟨d, f, i, j, k, hij, hjk, hi, hj, hk⟩)
        · cases k with
          | zero => simp at hk
          | succ k => exact Or.inl ⟨d, k, by simpa using hk, hd⟩
        · cases k with
          | zero => omega
          | succ k =>
            cases j with
            | zero => simp at hj
            | succ j => exact Or.inr (Or.inl ⟨d, j, k, by omega,
                by simpa using hj, by simpa using hk, List.mem_cons_of_mem _ hd⟩)
        · cases k with
          | zero => omega
          | succ k =>
            cases j with
            | zero => omega
            | succ j =>
              cases i with
              | zero =>
                simp only [List.getElem?_cons_zero, Option.some.injEq] at hi
                obtain ⟨hd0, hf0⟩ := Placement.stridedShard.inj hi.symm
                subst hd0
                exact Or.inr (Or.inl ⟨d, j, k, by omega, by simpa using hj,
                  by simpa using hk, List.mem_cons_self _ _⟩)
              | succ i => exact Or.inr (Or.inr ⟨d, f, i, j, k, by omega, by omega,
                  by simpa using hi, by simpa using hj, by simpa using hk⟩)
    | shard d0 =>
      rw [shardAfterStridedEndScan]
      by_cases hended : ended.contains d0 = true
      · rw [if_pos hended]
        simp only [Option.isSome_some, true_iff]
        exact Or.inl ⟨d0, 0, by simp, by simpa using hended⟩
      · rw [if_neg hended]
        have hd0ended : d0 ∉ ended := by simpa using hended
        by_cases hseen : seen.contains d0 = true
        · rw [if_pos hseen, ih]
          have hd0seen : d0 ∈ seen := by simpa using hseen
          constructor
          · rintro (⟨d, k, hk, hd⟩ | ⟨d, j, k, hjk, hj, hk, hd⟩ |
              ⟨d, f, i, j, k, hij, hjk, hi, hj, hk⟩)
            · rcases List.mem_cons.mp hd with hdd | hd
              · subst hdd
                exact Or.inr (Or.inl ⟨d, 0, k + 1, by omega, by simp,
                  by simpa using hk, hd0seen⟩)
              · exact Or.inl ⟨d, k + 1, by simpa using hk, hd⟩
            · exact Or.inr (Or.inl ⟨d, j + 1, k + 1, by omega, by simpa using hj,
                by simpa using hk, hd⟩)
            · exact Or.inr (Or.inr ⟨d, f, i + 1, j + 1, k + 1, by omega, by omega,
                by simpa using hi, by simpa using hj, by simpa using hk⟩)
          · rintro (⟨d, k, hk, hd⟩ | ⟨d, j, k, hjk, hj, hk, hd⟩ |
              ⟨d, f, i, j, k, hij, hjk, hi, hj, hk⟩)
            · cases k with
              | zero =>
                simp only [List.getElem?_cons_zero, Option.some.injEq] at hk
                have hdd := Placement.shard.inj hk
                subst hdd
                exact absurd hd hd0ended
              | succ k => exact Or.inl ⟨d, k, by simpa using hk,
                  List.mem_cons_of_mem _ hd⟩
            · cases k with
              | zero => omega
              | succ k =>
                cases j with
                | zero =>
                  simp only [List.getElem?_cons_zero, Option.some.injEq] at hj
                  have hdd := Placement.shard.inj hj
                  subst hdd
                  exact Or.inl ⟨d0, k, by simpa using hk, List.mem_cons_self _ _⟩
                | succ j => exact Or.inr (Or.inl ⟨d, j, k, by omega,
                    by simpa using hj, by simpa using hk, hd⟩)
            · cases k with
              | zero => omega
              | succ k =>
                cases j with
                | zero => omega
                | succ j =>
                  cases i with
                  | zero => simp at hi
                  | succ i => exact Or.inr (Or.inr ⟨d, f, i, j, k, by omega,
                      by omega, by simpa using hi, by simpa using hj,
                      by simpa using hk⟩)
        · rw [if_neg hseen, ih]
          have hd0seen : d0 ∉ seen := by simpa using hseen
          constructor
          · rintro (⟨d, k, hk, hd⟩ | ⟨d, j, k, hjk, hj, hk, hd⟩ |
              ⟨d, f, i, j, k, hij, hjk, hi, hj, hk⟩)
            · exact Or.inl ⟨d, k + 1, by simpa using hk, hd⟩
            · exact Or.inr (Or.inl ⟨d, j + 1, k + 1, by omega, by simpa using hj,
                by simpa using hk, hd⟩)
            · exact Or.inr (Or.inr ⟨d, f, i + 1, j + 1, k + 1, by omega, by omega,
                by simpa using hi, by simpa using hj, by simpa using hk⟩)
          · rintro (⟨d, k, hk, hd⟩ | ⟨d, j, k, hjk, hj, hk, hd⟩ |
              ⟨d, f, i, j, k, hij, hjk, hi, hj, hk⟩)
            · cases k with
              | zero =>
                simp only [List.getElem?_cons_zero, Option.some.injEq] at hk
                have hdd := Placement.shard.inj hk
                subst hdd
                exact absurd hd hd0ended
              | succ k => exact Or.inl ⟨d, k, by simpa using hk, hd⟩
            · cases k with
              | zero => omega
              | succ k =>
                cases j with
                | zero =>
                  simp only [List.getElem?_cons_zero, Option.some.injEq] at hj
                  have hdd := Placement.shard.inj hj
                  subst hdd
                  exact absurd hd hd0seen
                | succ j => exact Or.inr (Or.inl ⟨d, j, k, by omega,
                    by simpa using hj, by simpa using hk, hd⟩)
            · cases k with
              | zero => omega
              | succ k =>
                cases j with
                | zero => omega
                | succ j =>
                  cases i with
                  | zero => simp at hi
                  | succ i => exact Or.inr (Or.inr ⟨d, f, i, j, k, by omega,
                      by omega, by simpa using hi, by simpa using hj,
                      by simpa using hk⟩)

theorem firstShardAfterStridedEnd_isSome_iff (pl : List Placement) :
    (firstShardAfterStridedEnd pl).isSome ↔ hasShardAfterStridedEnd pl := by
  rw [firstShardAfterStridedEnd, scan_isSome_iff]
  simp [hasShardAfterStridedEnd]

theorem stridedGroupCompute_ne_notImplemented (seq : List (Bool × Nat × Nat))
    (d n : Nat) (acc : List (Nat × Nat)) (msg : String) :
    stridedGroupCompute d n acc seq ≠ .error (.notImplemented msg) := by
  induction seq generalizing acc with
  | nil => simp [stridedGroupCompute]
  | cons step rest ih =>
    obtain ⟨b, m, c⟩ := step
    cases b with
    | true => simpa [stridedGroupCompute] using ih _
    | false =>
      cases rest with
      | cons x xs => simp [stridedGroupCompute]
      | nil =>
        rw [stridedGroupCompute]
        split <;> simp

theorem dimShardCompute_ne_notImplemented (seq : List (Bool × Nat × Nat))
    (d n : Nat) (msg : String) :
    dimShardCompute d n seq ≠ .error (.notImplemented msg) := by
  induction seq generalizing n with
  | nil => simp [dimShardCompute]
  | cons step rest ih =>
    obtain ⟨b, m, c⟩ := step
    cases b with
    | true => exact stridedGroupCompute_ne_notImplemented rest d n [(m, c)] msg
    | false =>
      rw [dimShardCompute]
      rcases hres : dimShardCompute d (shardSizeOnDim n m c) rest with e | v
      · simp only [hres, exceptBind_error]
        intro hcontra
        exact ih _ (hres.trans (by injection hcontra with h; rw [h]))
      · obtain ⟨sz, off⟩ := v
        simp [hres, exceptBind_ok]

theorem collectDims_ne_notImplemented (ds : List Nat)
    (f : Nat → Except MetaComputeError (Nat × Nat))
    (hf : ∀ d msg, f d ≠ .error (.notImplemented msg)) (msg : String) :
    collectDims f ds ≠ .error (.notImplemented msg) := by
  induction ds with
  | nil => simp [collectDims]
  | cons d rest ih =>
    rw [collectDims]
    rcases hd : f d with e | v
    · simp only [hd, exceptBind_error]
      intro hcontra
      exact hf d msg (hd.trans (by injection hcontra with h; rw [h]))
    · rcases hrest : collectDims f rest with e2 | v2
      · simp only [hd, hrest, exceptBind_ok, exceptBind_error]
        intro hcontra
        exact ih (hrest.trans (by injection hcontra with h; rw [h]))
      · simp [hd, hrest, exceptBind_ok]

/-- C2: compute_local_shape_and_global_offset results in the
NotImplementedError whose message mentions "the strided part has ended"
exactly for the placement lists in which a plain Shard on a logical
dimension d appears after the StridedShard segment for d has ended (a
non-strided Shard(d) already appeared); for such lists it never returns a
(shape, offset) pair, and for all other lists (in particular when the
later Shard targets a different logical dimension) that error is never
raised. -/
theorem compute_local_shape_and_global_offset_strided_end
    (globalShape mesh : List Nat) (placements : List Placement)
    (coord : List Nat) :
    (hasShardAfterStridedEnd placements ↔
      compute_local_shape_and_global_offset globalShape mesh placements coord =
        .error (.notImplemented stridedEndMessage)) ∧
    (hasShardAfterStridedEnd placements →
      ∀ shape off,
        compute_local_shape_and_global_offset globalShape mesh placements coord ≠
          .ok (shape, off)) ∧
    (∃ pre suf : String,
      stridedEndMessage = pre ++ ("the strided part has ended" ++ suf)) := by
  have hmain : hasShardAfterStridedEnd placements ↔
      compute_local_shape_and_global_offset globalShape mesh placements coord =
        .error (.notImplemented stridedEndMessage) := by
    constructor
    · intro h
      have hsome : (firstShardAfterStridedEnd placements).isSome :=
        (firstShardAfterStridedEnd_isSome_iff placements).mpr h
      rw [compute_local_shape_and_global_offset]
      rcases hfs : firstShardAfterStridedEnd placements with _ | d
      · rw [hfs] at hsome
        simp at hsome
      · rfl
    · intro h
      by_contra hno
      have hnone : firstShardAfterStridedEnd placements = none := by
        rcases hfs : firstShardAfterStridedEnd placements with _ | d
        · rfl
        · exact absurd ((firstShardAfterStridedEnd_isSome_iff placements).mp
            (by rw [hfs]; rfl)) hno
      rw [compute_local_shape_and_global_offset, hnone] at h
      revert h
      rcases hcol : collectDims
          (fun d => dimShardCompute d (globalShape.getD d 0)
            (dimShardSteps placements mesh coord d))
          (List.range globalShape.length) with e | v
      · simp only [hcol, exceptBind_error]
        intro h
        injection h with h2
        exact collectDims_ne_notImplemented _ _
          (fun d msg => dimShardCompute_ne_notImplemented _ d _ msg) _
          (by rw [hcol, h2])
      · simp [hcol, exceptBind_ok]
  refine ⟨hmain, ?_, ?_⟩
  · intro h shape off hok
    rw [hmain.mp h] at hok
    exact Except.noConfusion hok
  · exact ⟨"Strided sharding does not allow Shard() to appear after ", "", by
      simp [stridedEndMessage]⟩

/-- Witness for C2 at the illegal placement list of
test_strided_sharding_assumption_in_meta_compute on the 3-dimensional
mesh: [_StridedShard(0, 2), Shard(0), Shard(0)]. -/
theorem compute_local_shape_and_global_offset_strided_end_witness :
    hasShardAfterStridedEnd
      [.stridedShard 0 2, .shard 0, .shard 0] ∧
    compute_local_shape_and_global_offset [16, 16] [2, 2, 2]
        [.stridedShard 0 2, .shard 0, .shard 0] [1, 0, 1] =
      .error (.notImplemented stridedEndMessage) := by
  have hpat : hasShardAfterStridedEnd
      [Placement.stridedShard 0 2, Placement.shard 0, Placement.shard 0] :=
    ⟨0, 2, 0, 1, 2, by omega, by omega, rfl, rfl, rfl⟩
  exact ⟨hpat,
    (compute_local_shape_and_global_offset_strided_end [16, 16] [2, 2, 2]
      [.stridedShard 0 2, .shard 0, .shard 0] [1, 0, 1]).1.mp hpat⟩

/-! ## Tensor splitting and gathering (_split_tensor / _to_replicate_tensor) -/

/-- Ceiling division on naturals. -/
def ceilDiv (a b : Nat) : Nat := (a + b - 1) / b

/-- Contiguous block number b of length s inside a list. -/
def listBlock {α : Type} (l : List α) (s b : Nat) : List α := (l.drop (b * s)).take s

/-- Modelled from the spec: _split_tensor of a Shard/_StridedShard
placement, with the tensor abstracted as the list of its slices along the
placement's target dimension.  The tensor is padded so that
numChunks * splitFactor equal contiguous blocks exist; chunk i is the
concatenation of every numChunks-th block starting at block i (split
factor 1 gives the contiguous chunks of plain Shard).  The per-chunk
padding sizes the source returns alongside are materialized inside the
returned chunks rather than modelled separately. -/
def _split_tensor {α : Type} (x : List α) (numChunks splitFactor : Nat)
    (pad : α) : List (List α) :=
  let s := ceilDiv x.length (numChunks * splitFactor)
  let padded := x ++ List.replicate (numChunks * splitFactor * s - x.length) pad
  (List.range numChunks).map fun i =>
    ((List.range splitFactor).map fun j =>
      listBlock padded s (i + j * numChunks)).flatten

/-- Modelled from the spec: _to_replicate_tensor, the inverse of the
split: given every rank's chunk gathered in mesh order, un-interleave the
strided blocks back into logical order and truncate the padding to the
logical length. -/
def _to_replicate_tensor {α : Type} (chunks : List (List α))
    (numChunks splitFactor logicalLen : Nat) : List α :=
  let s := ceilDiv logicalLen (numChunks * splitFactor)
  (((List.range (numChunks * splitFactor)).map fun b =>
    listBlock (chunks.getD (b % numChunks) []) s (b / numChunks)).flatten).take
    logicalLen

/-- Padding to a whole number of blocks only ever extends a list. -/
theorem le_mul_ceilDiv (len N : Nat) (hN : 0 < N) : len ≤ N * ceilDiv len N := by
  have h := Nat.div_add_mod (len + N - 1) N
  have h2 : (len + N - 1) % N < N := Nat.mod_lt _ hN
  unfold ceilDiv
  omega

/-- Blocks taken inside a long-enough list have full length. -/
theorem listBlock_length {α : Type} (l : List α) (s b : Nat)
    (h : (b + 1) * s ≤ l.length) : (listBlock l s b).length = s := by
  have hsm : (b + 1) * s = b * s + s := Nat.succ_mul b s
  simp [listBlock, List.length_take, List.length_drop]
  omega

/-- Shifting a block index by one equals dropping one block first. -/
theorem listBlock_succ_drop {α : Type} (l : List α) (s b : Nat) :
    listBlock l s (b + 1) = listBlock (l.drop s) s b := by
  have hsm : (b + 1) * s = b * s + s := Nat.succ_mul b s
  simp [listBlock, List.drop_drop]
  congr 2
  omega

/-- Concatenating all N blocks of a list of length N * s rebuilds it. -/
theorem flatten_range_listBlock {α : Type} (N : Nat) :
    ∀ (l : List α) (s : Nat), l.length = N * s →
      ((List.range N).map (fun b => listBlock l s b)).flatten = l := by
  induction N with
  | zero =>
    intro l s hl
    simp at hl
    simp [List.range_zero, hl]
  | succ N ih =>
    intro l s hl
    rw [List.range_succ_eq_map]
    simp only [List.map_cons, List.map_map, List.flatten_cons]
    have hblocks : (List.range N).map ((fun b => listBlock l s b) ∘ Nat.succ) =
        (List.range N).map (fun b => listBlock (l.drop s) s b) := by
      apply List.map_congr_left
      intro b _
      simp only [Function.comp_apply]
      exact listBlock_succ_drop l s b
    rw [hblocks, ih (l.drop s) s (by
      have hsm : (N + 1) * s = N * s + s := Nat.succ_mul N s
      simp [List.length_drop]
      omega)]
    show listBlock l s 0 ++ l.drop s = l
    simp only [listBlock, Nat.zero_mul, List.drop_zero]
    exact List.take_append_drop s l

/-- Block extraction out of a concatenation of uniform-length lists
returns the corresponding list. -/
theorem listBlock_flatten_uniform {α : Type} :
    ∀ (LS : List (List α)) (s j : Nat), (∀ l ∈ LS, l.length = s) →
      j < LS.length → listBlock LS.flatten s j = LS.getD j [] := by
  intro LS
  induction LS with
  | nil => intro s j _ hj; simp at hj
  | cons l rest ih =>
    intro s j hlen hj
    cases j with
    | zero =>
      have hl : l.length = s := hlen l (List.mem_cons_self _ _)
      simp only [listBlock, List.flatten_cons, Nat.zero_mul, List.drop_zero,
        List.getD_cons_zero]
      exact List.take_left' hl
    | succ j =>
      have hl : l.length = s := hlen l (List.mem_cons_self _ _)
      rw [List.flatten_cons, listBlock_succ_drop, List.drop_left' hl,
        ih s j (fun m hm => hlen m (List.mem_cons_of_mem _ hm))
          (by simp only [List.length_cons] at hj; omega)]
      simp

/-- Indexing a mapped range evaluates the function. -/
theorem getD_map_range {α : Type} (f : Nat → α) (n i : Nat) (d : α)
    (hi : i < n) : ((List.range n).map f).getD i d = f i := by
  rw [List.getD_eq_getElem?_getD, List.getElem?_map, List.getElem?_range hi]
  rfl

/-- Core round-trip: gathering the chunks of a strided split in mesh
order and un-interleaving reproduces the original list, for every chunk
count and split factor. -/
theorem split_roundtrip_core {α : Type} (x : List α) (pad : α) (n k : Nat)
    (hn : 0 < n) (hk : 0 < k) :
    _to_replicate_tensor (_split_tensor x n k pad) n k x.length = x := by
  set N := n * k with hN
  set s := ceilDiv x.length N with hs
  have hNpos : 0 < N := Nat.mul_pos hn hk
  have hle : x.length ≤ N * s := le_mul_ceilDiv x.length N hNpos
  set padded := x ++ List.replicate (N * s - x.length) pad with hpadded
  have hplen : padded.length = N * s := by
    simp [hpadded, List.length_append, List.length_replicate]
    omega
  have hblocklen : ∀ b, b < N → (listBlock padded s b).length = s := by
    intro b hb
    apply listBlock_length
    rw [hplen]
    exact Nat.mul_le_mul_right s hb
  have hchunk : ∀ b, b < N →
      listBlock ((_split_tensor x n k pad).getD (b % n) []) s (b / n) =
        listBlock padded s b := by
    intro b hb
    have hbn : b % n < n := Nat.mod_lt _ hn
    have hbk : b / n < k := by
      rw [Nat.div_lt_iff_lt_mul hn]
      rw [hN] at hb
      have hcomm : k * n = n * k := Nat.mul_comm k n
      omega
    rw [_split_tensor]
    rw [show ceilDiv x.length (n * k) = s by rw [hs, hN]]
    rw [show x ++ List.replicate (n * k * s - x.length) pad = padded by
      rw [hpadded, hN]]
    rw [getD_map_range _ _ _ _ hbn]
    rw [listBlock_flatten_uniform _ s (b / n) ?_ ?_]
    · rw [getD_map_range _ _ _ _ hbk]
      rw [Nat.mod_add_div']
    · intro l hl
      simp only [List.mem_map, List.mem_range] at hl
      obtain ⟨j, hj, rfl⟩ := hl
      apply hblocklen
      rw [hN]
      have h1 : b % n + 1 ≤ n := hbn
      calc b % n + j * n < n + j * n := by omega
        _ ≤ n + (k - 1) * n := by
            have : j ≤ k - 1 := by omega
            have := Nat.mul_le_mul_right n this
            omega
        _ = k * n := by
            have : k - 1 + 1 = k := by omega
            calc n + (k - 1) * n = (k - 1 + 1) * n := by
                  rw [Nat.succ_mul]
                  omega
              _ = k * n := by rw [this]
        _ = n * k := Nat.mul_comm _ _
    · simp only [List.length_map, List.length_range]
      exact hbk
  rw [_to_replicate_tensor]
  rw [show ceilDiv x.length (n * k) = s by rw [hs, hN]]
  have hmap : (List.range (n * k)).map
      (fun b => listBlock ((_split_tensor x n k pad).getD (b % n) []) s (b / n)) =
      (List.range (n * k)).map (fun b => listBlock padded s b) := by
    apply List.map_congr_left
    intro b hb
    rw [List.mem_range] at hb
    exact hchunk b (by rw [hN]; exact hb)
  rw [hmap]
  rw [show (n * k) = N from hN.symm]
  rw [flatten_range_listBlock N padded s hplen]
  rw [hpadded]
  exact List.take_left' rfl

/-- Split factor of a shard-like placement: plain Shard splits
contiguously (factor 1), _StridedShard carries its split_factor. -/
def Placement.shardSplitFactor : Placement → Nat
  | .replicate => 0
  | .shard _ => 1
  | .stridedShard _ k => k

/-- C3: for every tensor x, chunk count n, and placement p that is
Shard(d) or _StridedShard(d, k), gathering the chunks produced by
p._split_tensor(x, n) back in mesh order through p._to_replicate_tensor
returns a tensor equal to x exactly, at every split factor. -/
theorem split_to_replicate_roundtrip {α : Type} (x : List α) (pad : α)
    (p : Placement) (n : Nat) (_hp : p.isShard = true) (hn : 0 < n)
    (hk : 0 < p.shardSplitFactor) :
    _to_replicate_tensor (_split_tensor x n p.shardSplitFactor pad) n
      p.shardSplitFactor x.length = x :=
  split_roundtrip_core x pad n p.shardSplitFactor hn hk

/-- Concrete strided split of test_1d_mesh_strided_sharding: arange(8)
over 4 ranks at split factor 2 gives the interleaved shards
[0,4 | 1,5 | 2,6 | 3,7]. -/
theorem split_tensor_strided_example : _split_tensor [0, 1, 2, 3, 4, 5, 6, 7] 4 2 0 =
    [[0, 4], [1, 5], [2, 6], [3, 7]] := by decide

/-- Concrete contiguous split of test_1d_mesh_strided_sharding: split
factor 1 behaves as plain Shard. -/
theorem split_tensor_contiguous_example : _split_tensor [0, 1, 2, 3, 4, 5, 6, 7] 4 1 0 =
    [[0, 1], [2, 3], [4, 5], [6, 7]] := by decide

/-- Witness for C3 at the concrete strided case of
test_1d_mesh_strided_sharding: arange(8), 4 ranks, split factor 2. -/
theorem split_to_replicate_roundtrip_witness :
    (Placement.stridedShard 0 2).isShard = true ∧ (0 : Nat) < 4 ∧
      0 < (Placement.stridedShard 0 2).shardSplitFactor ∧
      _to_replicate_tensor
        (_split_tensor [0, 1, 2, 3, 4, 5, 6, 7] 4
          (Placement.stridedShard 0 2).shardSplitFactor 0) 4
        (Placement.stridedShard 0 2).shardSplitFactor 8 =
        [0, 1, 2, 3, 4, 5, 6, 7] :=
  ⟨rfl, by decide, by decide,
    split_to_replicate_roundtrip [0, 1, 2, 3, 4, 5, 6, 7] 0
      (Placement.stridedShard 0 2) 4 rfl (by decide) (by decide)⟩

/-! ## Sharding propagator (torch/distributed/_tensor/sharding_prop.py) -/

/-- Operator handle: an opaque identity plus the schema facts the
propagator consults (whether the return type is a tuple of tensors and
how many returns the op schema lists). -/
structure OpOverload where
  id : Nat
  numReturns : Nat
  returnsTupleTensors : Bool
deriving DecidableEq, Repr

/-- Tensor metadata (shape, stride, dtype) attached to output specs. -/
structure TensorMeta where
  shape : List Nat
  stride : List Nat
  dtype : Nat
deriving DecidableEq, Repr

/-- DTensorSpec: mesh handle, placements and optional tensor metadata. -/
structure DTensorSpec where
  mesh : Nat
  placements : List Placement
  tensor_meta : Option TensorMeta
deriving DecidableEq, Repr

/-- One positional or keyword argument of an OpSchema: a DTensorSpec, a
list or tuple of DTensorSpecs, or any other value (opaque). -/
inductive ArgSpec where
  | spec (s : DTensorSpec) : ArgSpec
  | specList (l : List DTensorSpec) (isTuple : Bool) : ArgSpec
  | value (v : Nat) : ArgSpec
deriving DecidableEq, Repr

/-- OpSchema: operator, positional and keyword argument schemas, and the
has_symints flag marking symbolic-shape arguments. -/
structure OpSchema where
  op : OpOverload
  args_schema : List ArgSpec
  kwargs_schema : List (String × ArgSpec)
  has_symints : Bool
deriving DecidableEq, Repr

/-- DTensorSpec positional arguments of an argument list, in order. -/
def specArgs (l : List ArgSpec) : List DTensorSpec :=
  l.filterMap fun a =>
    match a with
    | .spec d => some d
    | _ => none

/-- Modelled from the spec: OpSchema.args_spec, the positional arguments
that are DTensorSpecs, in order (op_schema.py is not under src/). -/
def OpSchema.args_spec (s : OpSchema) : List DTensorSpec :=
  specArgs s.args_schema

/-- Modelled from the spec: OpSchema.return_type_tuple_tensors, read off
the operator handle. -/
def OpSchema.return_type_tuple_tensors (s : OpSchema) : Bool :=
  s.op.returnsTupleTensors

/-- Output spec of an OutputSharding: none, a single DTensorSpec, or one
optional spec per output. -/
inductive OutputSpecType where
  | noSpec : OutputSpecType
  | single (s : DTensorSpec) : OutputSpecType
  | multi (ss : List (Option DTensorSpec)) (isTuple : Bool) : OutputSpecType
deriving DecidableEq, Repr

/-- OutputSharding: propagation result with optional output spec, schema
suggestions, failure reason and the needs_redistribute flag. -/
structure OutputSharding where
  output_spec : OutputSpecType
  schema_suggestions : Option (List OpSchema)
  failed_reason : Option String
  needs_redistribute : Bool
deriving DecidableEq, Repr

/-- PlacementStrategy: output spec, optional per-input expected specs and
optional redistribute cost matrix (costs abstracted to integers). -/
structure PlacementStrategy where
  output_spec : DTensorSpec
  input_specs : Option (List DTensorSpec)
  redistribute_cost : Option (List (List Int))
deriving DecidableEq, Repr

/-- OpStrategy: list of candidate placement strategies. -/
structure OpStrategy where
  strategies : List PlacementStrategy
deriving DecidableEq, Repr

/-- TupleStrategy: one OpStrategy per tensor-list element.  The source
asserts every child is an OpStrategy; the model enforces it by typing. -/
structure TupleStrategy where
  childs : List OpStrategy
deriving DecidableEq, Repr

/-- StrategyType: either a single OpStrategy or a TupleStrategy. -/
inductive StrategyType where
  | op (s : OpStrategy) : StrategyType
  | tuple (t : TupleStrategy) : StrategyType
deriving DecidableEq, Repr

/-- Argument of the strategy schema handed to a strategy function: the
spec_to_strategy image of an ArgSpec. -/
inductive StratArg where
  | strategy (s : StrategyType) : StratArg
  | value (v : Nat) : StratArg
deriving DecidableEq, Repr

/-- Schema handed to strategy functions: original op with arguments
replaced by their strategy wrappers. -/
structure StrategySchema where
  op : OpOverload
  args_schema : List StratArg
  kwargs_schema : List (String × StratArg)
deriving DecidableEq, Repr

/-- Result of tracing the operator on fake tensors in
_propagate_tensor_meta: no tensor output, a single TensorMeta, or a
tuple/list of them. -/
inductive TensorMetaResult where
  | noneMeta : TensorMetaResult
  | single (m : TensorMeta) : TensorMetaResult
  | multi (ms : List TensorMeta) (isTuple : Bool) : TensorMetaResult
deriving DecidableEq, Repr

/-- Python exceptions surfaced by the propagator paths. -/
inductive PropError where
  | notImplementedError (msg : String) : PropError
  | runtimeError (msg : String) : PropError
  | valueError (msg : String) : PropError
  | assertionError (msg : String) : PropError
  | indexError : PropError
deriving DecidableEq, Repr

/-- ShardingPropagator state: per-operator rule functions, strategy
functions, and schema info (op_to_schema_info is kept opaque; propagate
reads has_symints off the OpSchema).  The fake-tensor tracing of
_propagate_tensor_meta is abstracted as an oracle from schemas to output
tensor metadata. -/
structure ShardingPropagator where
  op_to_rules : OpOverload → Option (OpSchema → OutputSharding)
  op_strategy_funcs : OpOverload → Option (Nat → StrategySchema → StrategyType)
  op_to_schema_info : OpOverload → Option Nat
  fake_meta : OpSchema → TensorMetaResult

/-- Reserved operator ids of the skip list (aten._local_scalar_dense,
aten.equal, aten.is_same_size): operators whose output has no tensor
sharding to propagate. -/
def skip_prop_ids : List Nat := [0, 1, 2]

/-- Wraps one output spec entry per output position with the traced
TensorMeta at the same position (IndexError when the op produced fewer
outputs than the output spec lists). -/
def wrapMultiSpecs (ms : List TensorMeta) :
    List (Option DTensorSpec) → Nat → Except PropError (List (Option DTensorSpec))
  | [], _ => .ok []
  | some sp :: rest, i =>
    match ms[i]? with
    | none => .error .indexError
    | some m => do
      let r ← wrapMultiSpecs ms rest (i + 1)
      .ok (some { sp with tensor_meta := some m } :: r)
  | none :: rest, i => do
    let r ← wrapMultiSpecs ms rest (i + 1)
    .ok (none :: r)

/-- Translation of ShardingPropagator._wrap_output_spec_tensor_meta:
attaches the traced output tensor metadata to the produced output spec.
In the list branch the source's length check is dead code (its condition
collapses to the isinstance test), so only the isinstance test is
modelled there. -/
def _wrap_output_spec_tensor_meta (_op : OpOverload)
    (output_spec : OutputSpecType) (meta : TensorMetaResult) :
    Except PropError OutputSpecType :=
  match output_spec with
  | .noSpec => .ok .noSpec
  | .single s =>
    match meta with
    | .single m => .ok (.single { s with tensor_meta := some m })
    | .noneMeta => .error (.valueError
        "ShardingPropagator error: output does not have an associated TensorMeta")
    | .multi _ _ => .error (.valueError
        "output_spec has 1 output which does not equal the number of op outputs")
  | .multi specs isTuple =>
    match meta with
    | .multi ms _ => do
      let r ← wrapMultiSpecs ms specs 0
      .ok (.multi r isTuple)
    | _ => .error (.valueError
        "output_spec has outputs which do not equal the number of op outputs")

/-- Translation of the spec_to_strategy closure: a DTensorSpec becomes a
single-candidate OpStrategy, a nonempty spec list becomes a
TupleStrategy of such wrappers (an empty list raises IndexError at the
spec[0] probe), and any other value passes through. -/
def spec_to_strategy : ArgSpec → Except PropError StratArg
  | .spec d => .ok (.strategy (.op ⟨[⟨d, none, none⟩]⟩))
  | .specList [] _ => .error .indexError
  | .specList (d :: rest) _ =>
    .ok (.strategy (.tuple ⟨(d :: rest).map fun s => ⟨[⟨s, none, none⟩]⟩⟩))
  | .value v => .ok (.value v)

/-- Maps spec_to_strategy across the positional arguments. -/
def argsToStrategy : List ArgSpec → Except PropError (List StratArg)
  | [] => .ok []
  | a :: rest => do
    let s ← spec_to_strategy a
    let r ← argsToStrategy rest
    .ok (s :: r)

/-- Maps spec_to_strategy across the keyword arguments. -/
def kwargsToStrategy : List (String × ArgSpec) →
    Except PropError (List (String × StratArg))
  | [] => .ok []
  | (k, a) :: rest => do
    let s ← spec_to_strategy a
    let r ← kwargsToStrategy rest
    .ok ((k, s) :: r)

/-- Translation of the mesh-finding loop at the head of the strategy
path: the mesh of the first DTensorSpec argument, probing the first
element of list arguments (IndexError on an empty list). -/
def findMesh : List ArgSpec → Except PropError (Option Nat)
  | [] => .ok none
  | .spec d :: _ => .ok (some d.mesh)
  | .specList [] _ :: _ => .error .indexError
  | .specList (d :: _) _ :: _ => .ok (some d.mesh)
  | .value _ :: rest => findMesh rest

/-- Total redistribute cost of one candidate: the sum over all its cost
rows (sum of chain.from_iterable). -/
def sumCosts (c : List (List Int)) : Int := (c.map fun l => l.sum).sum

/-- Collects each candidate's total cost, asserting the cost is set. -/
def collectCosts : List PlacementStrategy → Except PropError (List Int)
  | [] => .ok []
  | st :: rest =>
    match st.redistribute_cost with
    | none => .error (.assertionError "must set redistribute cost each strategy!")
    | some c => do
      let cs ← collectCosts rest
      .ok (sumCosts c :: cs)

/-- Default placement strategy used only as the out-of-range fallback of
list indexing inside _select_strategy (never reached on the index of a
minimal element). -/
def defaultStrategy : PlacementStrategy := ⟨⟨0, [], none⟩, none, none⟩

/-- Minimum of a nonempty collection given as head and tail, the way the
Python built-in min evaluates it. -/
def listMin (c : Int) (cs : List Int) : Int := cs.foldl min c

/-- Translation of ShardingPropagator._select_strategy: a sole candidate
is returned directly; otherwise every candidate must carry a
redistribute cost and the first candidate of minimal summed cost is
selected (list.index of the minimum); min of an empty sequence raises. -/
def _select_strategy (strategy : OpStrategy) :
    Except PropError PlacementStrategy :=
  if strategy.strategies.length = 1 then
    .ok (strategy.strategies.getD 0 defaultStrategy)
  else do
    let costs ← collectCosts strategy.strategies
    match costs with
    | [] => .error (.valueError "min() arg is an empty sequence")
    | c :: cs =>
      .ok (strategy.strategies.getD ((c :: cs).indexOf (listMin c cs))
        defaultStrategy)

/-- Expected spec of input position idx under the selected strategy: the
strategy's per-input spec when input_specs is given, else its output
spec. -/
def desiredInputSpec (output_strategy : PlacementStrategy) (idx : Nat) :
    Except PropError DTensorSpec :=
  match output_strategy.input_specs with
  | none => .ok output_strategy.output_spec
  | some l =>
    match l[idx]? with
    | some s => .ok s
    | none => .error .indexError

/-- Translation of the expected-input loop of the single-strategy path:
collects the expected input specs and whether any actual input's
placements differ from the expected ones. -/
def expectedSpecsLoop (output_strategy : PlacementStrategy) :
    List DTensorSpec → Nat → Except PropError (List DTensorSpec × Bool)
  | [], _ => .ok ([], false)
  | a :: rest, idx => do
    let d ← desiredInputSpec output_strategy idx
    let (exp, needs) ← expectedSpecsLoop output_strategy rest (idx + 1)
    .ok (d :: exp, needs || decide (a.placements ≠ d.placements))

/-- Modelled from the spec: OpSchema._inplace_rewrap_schema_suggestion
(op_schema.py is not under src/): the suggestion's spec arguments are
spliced, in order, into the original schema's positional argument
structure, and the original keyword arguments are restored. -/
def rewrapArgsLoop : List ArgSpec → List DTensorSpec →
    Except PropError (List ArgSpec)
  | [], _ => .ok []
  | .spec _ :: rest, d :: ds => do
    let r ← rewrapArgsLoop rest ds
    .ok (.spec d :: r)
  | .spec _ :: _, [] => .error .indexError
  | .specList l isTuple :: rest, ds => do
    let r ← rewrapArgsLoop rest ds
    .ok (.specList l isTuple :: r)
  | .value v :: rest, ds => do
    let r ← rewrapArgsLoop rest ds
    .ok (.value v :: r)

/-- Modelled from the spec: rewraps a suggestion schema over the
original op_schema (see rewrapArgsLoop). -/
def _inplace_rewrap_schema_suggestion (self origin : OpSchema) :
    Except PropError OpSchema := do
  let args ← rewrapArgsLoop origin.args_schema self.args_spec
  .ok ⟨origin.op, args, origin.kwargs_schema, origin.has_symints⟩

/-- Translation of the single-OpStrategy branch of
propagate_op_sharding_non_cached: select the candidate, flag
needs_redistribute iff some actual input's placements differ from the
expected ones, build at most one suggestion schema (rewrapped over the
original), broadcast the output spec over tuple returns, and attach the
output tensor metadata. -/
def singleStrategyPath (op_schema : OpSchema) (S : OpStrategy)
    (meta : TensorMetaResult) : Except PropError OutputSharding := do
  let output_strategy ← _select_strategy S
  let (expected, needs) ← expectedSpecsLoop output_strategy op_schema.args_spec 0
  let suggestion ←
    if needs then do
      let reshard : OpSchema :=
        ⟨op_schema.op, expected.map ArgSpec.spec, [], op_schema.has_symints⟩
      let wrapped ← _inplace_rewrap_schema_suggestion reshard op_schema
      pure (some [wrapped])
    else
      pure none
  let output_spec : OutputSpecType :=
    if op_schema.return_type_tuple_tensors then
      .multi (List.replicate op_schema.op.numReturns
        (some output_strategy.output_spec)) true
    else
      .single output_strategy.output_spec
  let wrappedSpec ← _wrap_output_spec_tensor_meta op_schema.op output_spec meta
  .ok ⟨wrappedSpec, suggestion, none, needs⟩

/-- Selects every child strategy of a TupleStrategy and keeps its output
spec. -/
def collectSelected : List OpStrategy → Except PropError (List DTensorSpec)
  | [] => .ok []
  | S :: rest => do
    let st ← _select_strategy S
    let r ← collectSelected rest
    .ok (st.output_spec :: r)

/-- Per-element comparison of a tensor-list argument against the
per-child selected output specs (IndexError when the child list is
shorter than the argument list). -/
def tupleListLoop (outSpecs : List DTensorSpec) :
    List DTensorSpec → Nat → Except PropError (List DTensorSpec × Bool)
  | [], _ => .ok ([], false)
  | a :: rest, idx =>
    match outSpecs[idx]? with
    | none => .error .indexError
    | some o => do
      let (exp, needs) ← tupleListLoop outSpecs rest (idx + 1)
      .ok (o :: exp, needs || decide (a.placements ≠ o.placements))

/-- Translation of the suggestion-rebuilding loop of the TupleStrategy
branch: tensor-list arguments are compared elementwise against the
per-child output specs, single-spec arguments against the first child's
spec, and other values pass through. -/
def tupleSuggestionLoop (outSpecs : List DTensorSpec) :
    List ArgSpec → Except PropError (List ArgSpec × Bool)
  | [] => .ok ([], false)
  | .specList [] _ :: _ => .error .indexError
  | .specList (d :: ds) isTuple :: rest => do
    let (exp, needs1) ← tupleListLoop outSpecs (d :: ds) 0
    let (args, needs2) ← tupleSuggestionLoop outSpecs rest
    .ok (.specList exp isTuple :: args, needs2 || needs1)
  | .spec a :: rest =>
    match outSpecs[0]? with
    | none => .error .indexError
    | some o => do
      let (args, needs2) ← tupleSuggestionLoop outSpecs rest
      .ok (.spec o :: args, needs2 || decide (a.placements ≠ o.placements))
  | .value v :: rest => do
    let (args, needs2) ← tupleSuggestionLoop outSpecs rest
    .ok (.value v :: args, needs2)

/-- Translation of the TupleStrategy branch of
propagate_op_sharding_non_cached: select each child's strategy, rebuild
suggestion arguments (the suggestion is not rewrapped on this branch,
matching the source), emit the tuple output spec only when the traced
metadata is present, and attach the metadata. -/
def tupleStrategyPath (op_schema : OpSchema) (T : TupleStrategy)
    (meta : TensorMetaResult) : Except PropError OutputSharding := do
  let outSpecs ← collectSelected T.childs
  let (sugArgs, needs) ← tupleSuggestionLoop outSpecs op_schema.args_schema
  let suggestion :=
    if needs then
      some [(⟨op_schema.op, sugArgs, op_schema.kwargs_schema,
        op_schema.has_symints⟩ : OpSchema)]
    else
      none
  let base : OutputSpecType :=
    match meta with
    | .noneMeta => .noSpec
    | _ => .multi (outSpecs.map some) true
  let wrappedSpec ← _wrap_output_spec_tensor_meta op_schema.op base meta
  .ok ⟨wrappedSpec, suggestion, none, needs⟩

/-- Translation of the legacy rule branch of
propagate_op_sharding_non_cached: invoke the rule; when it yields no
output spec, either re-invoke it on the first schema suggestion (adopting
the re-run's output spec and forcing needs_redistribute) or, with no
suggestions, raise only when a failure reason is present; finally attach
the output tensor metadata.  The returned count is the number of rule
invocations performed. -/
def rulePath (op_schema : OpSchema) (rule : OpSchema → OutputSharding)
    (meta : TensorMetaResult) : Except PropError (OutputSharding × Nat) := do
  let output_sharding := rule op_schema
  let (updated, count) ←
    match output_sharding.output_spec with
    | .noSpec =>
      match output_sharding.schema_suggestions with
      | none =>
        match output_sharding.failed_reason with
        | some r => .error (.runtimeError
            ("Sharding propagation failed on op! Failed reason: " ++ r))
        | none => .ok (output_sharding, 1)
      | some [] => .error .indexError
      | some (s0 :: _) =>
        let propagation_res := rule s0
        .ok ({ output_sharding with
          output_spec := propagation_res.output_spec,
          needs_redistribute := true }, 2)
    | _ => .ok (output_sharding, 1)
  let wrappedSpec ←
    _wrap_output_spec_tensor_meta op_schema.op updated.output_spec meta
  .ok ({ updated with output_spec := wrappedSpec }, count)

/-- Translation of ShardingPropagator.propagate_op_sharding_non_cached.
Alongside the OutputSharding it reports how many times the registered
strategy or rule function was invoked during the call (the
instrumentation the spec's caching property refers to).  Rule functions
are modelled as total; the fake-tensor metadata trace is the
propagator's oracle. -/
def propagate_op_sharding_non_cached (P : ShardingPropagator)
    (op_schema : OpSchema) : Except PropError (OutputSharding × Nat) :=
  if op_schema.op.id ∈ skip_prop_ids then
    .ok (⟨.noSpec, some [op_schema], none, false⟩, 0)
  else
    let meta := P.fake_meta op_schema
    match P.op_strategy_funcs op_schema.op with
    | some strategy_func => do
      let meshOpt ← findMesh op_schema.args_schema
      let mesh ←
        match meshOpt with
        | some m => pure m
        | none => .error (.assertionError "Cannot find mesh for op")
      let args ← argsToStrategy op_schema.args_schema
      let kwargs ← kwargsToStrategy op_schema.kwargs_schema
      let strategy_schema : StrategySchema := ⟨op_schema.op, args, kwargs⟩
      match strategy_func mesh strategy_schema with
      | .op S => do
        let out ← singleStrategyPath op_schema S meta
        .ok (out, 1)
      | .tuple T => do
        let out ← tupleStrategyPath op_schema T meta
        .ok (out, 1)
    | none =>
      match P.op_to_rules op_schema.op with
      | some rule => rulePath op_schema rule meta
      | none => .error (.notImplementedError
          "Operator does not have a sharding strategy registered.")

/-- Memoization cache of propagate_op_sharding (the lru_cache installed
in __init__), keyed by the full OpSchema. -/
structure PropCache where
  entries : List (OpSchema × OutputSharding)
deriving DecidableEq, Repr

/-- Translation of the cached propagate_op_sharding: serve an equal
schema from the cache (zero function invocations), otherwise compute and
store. -/
def propagate_op_sharding (P : ShardingPropagator) (cache : PropCache)
    (op_schema : OpSchema) :
    Except PropError (OutputSharding × PropCache × Nat) :=
  match List.lookup op_schema cache.entries with
  | some out => .ok (out, cache, 0)
  | none => do
    let (out, k) ← propagate_op_sharding_non_cached P op_schema
    .ok (out, ⟨(op_schema, out) :: cache.entries⟩, k)

/-- OpInfo as consumed by propagate (its output_sharding field is the
returned value rather than a mutated slot). -/
structure OpInfo where
  schema : OpSchema
deriving DecidableEq, Repr

/-- Translation of ShardingPropagator.propagate: schemas flagged
has_symints bypass the cache and always run the non-cached path; all
other schemas go through the memoized propagate_op_sharding. -/
def ShardingPropagator.propagate (P : ShardingPropagator)
    (cache : PropCache) (info : OpInfo) :
    Except PropError (OutputSharding × PropCache × Nat) :=
  if info.schema.has_symints then do
    let (out, k) ← propagate_op_sharding_non_cached P info.schema
    .ok (out, cache, k)
  else
    propagate_op_sharding P cache info.schema

/-- C5: propagate serves a second call with an identical
(operator, argument-schema) pair from the memoized cache: the second
call performs zero invocations of the registered strategy/rule function
and returns an OutputSharding equal to the first call's, with the cache
unchanged; whereas a schema flagged has_symints always takes the
non-cached path, leaving the cache both unconsulted and unmodified. -/
theorem propagate_cache_behavior (P : ShardingPropagator) (cache : PropCache)
    (info : OpInfo) :
    (info.schema.has_symints = false →
      ∀ out cache' k,
        ShardingPropagator.propagate P cache info = .ok (out, cache', k) →
        ShardingPropagator.propagate P cache' info = .ok (out, cache', 0)) ∧
    (info.schema.has_symints = true →
      ShardingPropagator.propagate P cache info =
        (do
          let (out, k) ← propagate_op_sharding_non_cached P info.schema
          Except.ok (out, cache, k))) := by
  constructor
  · intro hsym out cache' k hrun
    rw [ShardingPropagator.propagate, hsym] at hrun
    simp only [Bool.false_eq_true, if_false] at hrun
    rw [ShardingPropagator.propagate, hsym]
    simp only [Bool.false_eq_true, if_false]
    rw [propagate_op_sharding] at hrun
    rcases hlook : List.lookup info.schema cache.entries with _ | cached
    · rw [hlook] at hrun
      rcases hnc : propagate_op_sharding_non_cached P info.schema with e | v
      · rw [hnc] at hrun
        exact absurd hrun (by simp [exceptBind_error])
      · obtain ⟨out0, k0⟩ := v
        rw [hnc, exceptBind_ok] at hrun
        have heq : (out0,
            (⟨(info.schema, out0) :: cache.entries⟩ : PropCache), k0) =
            (out, cache', k) := by injection hrun
        obtain ⟨h1, h2, h3⟩ : out0 = out ∧
            (⟨(info.schema, out0) :: cache.entries⟩ : PropCache) = cache' ∧
            k0 = k := by simpa [Prod.ext_iff] using heq
        subst h1
        subst h2
        rw [propagate_op_sharding]
        simp [List.lookup]
    · rw [hlook] at hrun
      have heq : (cached, cache, 0) = (out, cache', k) := by injection hrun
      obtain ⟨h1, h2, h3⟩ : cached = out ∧ cache = cache' ∧ 0 = k := by
        simpa [Prod.ext_iff] using heq
      subst h1
      subst h2
      rw [propagate_op_sharding, hlook]
  · intro hsym
    rw [ShardingPropagator.propagate, hsym]
    simp

/-- Concrete DTensorSpec used by the cache-behavior witness. -/
def exampleSpec : DTensorSpec := ⟨7, [Placement.shard 0], none⟩

/-- Concrete operator used by the cache-behavior witness. -/
def exampleOp : OpOverload := ⟨10, 1, false⟩

/-- Concrete propagator with one registered strategy function. -/
def exampleProp : ShardingPropagator :=
  ⟨fun _ => none,
   fun op =>
     if op = exampleOp then
       some (fun _ _ => .op ⟨[⟨exampleSpec, none, none⟩]⟩)
     else none,
   fun _ => none,
   fun _ => .single ⟨[4], [1], 0⟩⟩

/-- Concrete schema used by the cache-behavior witness. -/
def exampleSchema : OpSchema := ⟨exampleOp, [.spec exampleSpec], [], false⟩

/-- OutputSharding that the example run produces. -/
def exampleOut : OutputSharding :=
  ⟨.single ⟨7, [Placement.shard 0], some ⟨[4], [1], 0⟩⟩, none, none, false⟩

/-- Cache state after the first example propagate call. -/
def exampleCache1 : PropCache := ⟨[(exampleSchema, exampleOut)]⟩

/-- Witness for C5: the first call on an empty cache runs the strategy
function once; the second identical call performs zero invocations and
returns the equal OutputSharding. -/
theorem propagate_cache_behavior_witness :
    exampleSchema.has_symints = false ∧
    ShardingPropagator.propagate exampleProp ⟨[]⟩ ⟨exampleSchema⟩ =
      .ok (exampleOut, exampleCache1, 1) ∧
    ShardingPropagator.propagate exampleProp exampleCache1 ⟨exampleSchema⟩ =
      .ok (exampleOut, exampleCache1, 0) :=
  ⟨rfl, rfl,
    (propagate_cache_behavior exampleProp ⟨[]⟩ ⟨exampleSchema⟩).1 rfl
      exampleOut exampleCache1 1 rfl⟩

/-- Python's min is bounded by its first argument. -/
theorem listMin_le_init (c : Int) (cs : List Int) : listMin c cs ≤ c := by
  induction cs generalizing c with
  | nil => simp [listMin]
  | cons a rest ih =>
    have h := ih (min c a)
    simp only [listMin, List.foldl_cons] at h ⊢
    exact le_trans h (min_le_left _ _)

/-- Python's min is bounded by every collection element. -/
theorem listMin_le_mem (c : Int) (cs : List Int) (a : Int) (ha : a ∈ cs) :
    listMin c cs ≤ a := by
  induction cs generalizing c with
  | nil => simp at ha
  | cons b rest ih =>
    rcases List.mem_cons.mp ha with rfl | ha
    · have h := listMin_le_init (min c a) rest
      simp only [listMin, List.foldl_cons] at h ⊢
      exact le_trans h (min_le_right _ _)
    · simp only [listMin, List.foldl_cons]
      exact ih (min c b) ha

/-- Python's min is attained by the first argument or an element. -/
theorem listMin_mem (c : Int) (cs : List Int) :
    listMin c cs = c ∨ listMin c cs ∈ cs := by
  induction cs generalizing c with
  | nil => simp [listMin]
  | cons b rest ih =>
    simp only [listMin, List.foldl_cons]
    rcases ih (min c b) with h | h
    · rcases le_total c b with hcb | hbc
      · left
        rw [listMin] at h
        rw [h, min_eq_left hcb]
      · right
        rw [listMin] at h
        rw [h, min_eq_right hbc]
        exact List.mem_cons_self _ _
    · right
      exact List.mem_cons_of_mem _ h

/-- Positions before list.index differ from the sought element. -/
theorem getD_ne_of_lt_indexOf {α : Type} [DecidableEq α] (a d : α)
    (l : List α) (i : Nat) (hlt : i < l.indexOf a) (hi : i < l.length) :
    l.getD i d ≠ a := by
  induction l generalizing i with
  | nil => simp at hi
  | cons b rest ih =>
    by_cases hba : b = a
    · rw [List.indexOf_cons_eq _ hba] at hlt
      omega
    · rw [List.indexOf_cons_ne _ hba] at hlt
      cases i with
      | zero => simpa using hba
      | succ i => exact ih i (by omega) (by simpa using hi)

/-- Indexing at list.index returns the sought element. -/
theorem getD_indexOf {α : Type} [DecidableEq α] (a d : α) (l : List α)
    (h : a ∈ l) : l.getD (l.indexOf a) d = a := by
  have hlt := List.indexOf_lt_length.mpr h
  rw [List.getD_eq_getElem?_getD, List.getElem?_eq_getElem hlt]
  simp [List.getElem_indexOf]

/-- In-range default indexing returns a member. -/
theorem getD_mem_of_lt {α : Type} (l : List α) (i : Nat) (d : α)
    (hi : i < l.length) : l.getD i d ∈ l := by
  rw [List.getD_eq_getElem?_getD, List.getElem?_eq_getElem hi]
  exact List.getElem_mem hi

/-- Characterization of the cost collection: one summed cost per
candidate, each demanding a present redistribute_cost. -/
theorem collectCosts_spec (sts : List PlacementStrategy) (costs : List Int)
    (h : collectCosts sts = .ok costs) :
    costs.length = sts.length ∧
      ∀ i, i < sts.length →
        ∃ c, (sts.getD i defaultStrategy).redistribute_cost = some c ∧
          costs.getD i 0 = sumCosts c := by
  induction sts generalizing costs with
  | nil =>
    rw [collectCosts] at h
    injection h with h
    subst h
    exact ⟨rfl, by intro i hi; simp at hi⟩
  | cons st rest ih =>
    rw [collectCosts] at h
    rcases hc : st.redistribute_cost with _ | c
    · simp only [hc] at h
      exact Except.noConfusion h
    · simp only [hc] at h
      rcases hrest : collectCosts rest with e | cs
      · simp only [hrest, exceptBind_error] at h
        exact Except.noConfusion h
      · simp only [hrest, exceptBind_ok] at h
        injection h with h
        subst h
        obtain ⟨hlen, hall⟩ := ih cs hrest
        refine ⟨by simp [hlen], ?_⟩
        intro i hi
        cases i with
        | zero => exact ⟨c, by simpa using hc, rfl⟩
        | succ i =>
          obtain ⟨c', hc', hv'⟩ := hall i (by simpa using hi)
          exact ⟨c', by simpa using hc', by simpa using hv'⟩

/-- Characterization of _select_strategy: a sole candidate is returned
directly; otherwise the selected index carries the minimal summed cost
and every earlier index costs strictly more (first on ties). -/
theorem select_strategy_spec (S : OpStrategy) (st : PlacementStrategy)
    (hsel : _select_strategy S = .ok st) :
    (∀ st', S.strategies = [st'] → st = st') ∧
    (S.strategies.length ≠ 1 →
      ∃ costs, collectCosts S.strategies = .ok costs ∧
        costs.length = S.strategies.length ∧
        ∃ idx, idx < S.strategies.length ∧
          st = S.strategies.getD idx defaultStrategy ∧
          (∀ i, i < costs.length → costs.getD idx 0 ≤ costs.getD i 0) ∧
          (∀ i, i < idx → costs.getD idx 0 < costs.getD i 0)) := by
  constructor
  · intro st' hst'
    rw [_select_strategy, hst'] at hsel
    simp at hsel
    exact hsel.symm
  · intro hne
    rw [_select_strategy, if_neg hne] at hsel
    rcases hcc : collectCosts S.strategies with e | costs
    · simp only [hcc, exceptBind_error] at hsel
      exact Except.noConfusion hsel
    · simp only [hcc, exceptBind_ok] at hsel
      rcases costs with _ | ⟨c, cs⟩
      · exact Except.noConfusion hsel
      · injection hsel with hst
        obtain ⟨hlen, _⟩ := collectCosts_spec _ _ hcc
        set m := listMin c cs with hm
        have hmem : m ∈ c :: cs := by
          rcases listMin_mem c cs with h | h
          · rw [hm, h]
            exact List.mem_cons_self _ _
          · exact List.mem_cons_of_mem _ h
        have hminle : ∀ a ∈ c :: cs, m ≤ a := by
          intro a ha
          rcases List.mem_cons.mp ha with ha | ha
          · rw [ha]
            exact listMin_le_init c cs
          · exact listMin_le_mem c cs a ha
        set idx := (c :: cs).indexOf m with hidx
        have hidxlt : idx < (c :: cs).length := List.indexOf_lt_length.mpr hmem
        have hgetidx : (c :: cs).getD idx 0 = m := getD_indexOf m 0 _ hmem
        refine ⟨c :: cs, rfl, hlen, idx, by omega, hst.symm, ?_, ?_⟩
        · intro i hi
          rw [hgetidx]
          exact hminle _ (getD_mem_of_lt _ i 0 hi)
        · intro i hilt
          have hine : (c :: cs).getD i 0 ≠ m :=
            getD_ne_of_lt_indexOf m 0 _ i (by omega) (by omega)
          have hle : m ≤ (c :: cs).getD i 0 :=
            hminle _ (getD_mem_of_lt _ i 0 (by omega))
          rw [hgetidx]
          omega

/-- Default DTensorSpec used by list indexing in statements. -/
def defaultSpec : DTensorSpec := ⟨0, [], none⟩

/-- Spec extraction of a pure spec argument list. -/
theorem specArgs_map_spec (l : List DTensorSpec) :
    specArgs (l.map ArgSpec.spec) = l := by
  induction l with
  | nil => rfl
  | cons d rest ih => simp [specArgs, List.filterMap_cons] at ih ⊢; exact ih

/-- Rewrapping splices the suggestion specs, in order, into the spec
slots of the original argument structure. -/
theorem rewrapArgsLoop_spec (args : List ArgSpec) (ds : List DTensorSpec)
    (args' : List ArgSpec) (h : rewrapArgsLoop args ds = .ok args') :
    (specArgs args).length ≤ ds.length ∧
      specArgs args' = ds.take (specArgs args).length := by
  induction args generalizing ds args' with
  | nil =>
    rw [rewrapArgsLoop] at h
    injection h with h
    subst h
    simp [specArgs]
  | cons a rest ih =>
    cases a with
    | spec s0 =>
      cases ds with
      | nil =>
        rw [rewrapArgsLoop] at h
        exact absurd h (by simp)
      | cons d ds' =>
        rw [rewrapArgsLoop] at h
        rcases hr : rewrapArgsLoop rest ds' with e | r
        · simp only [hr, exceptBind_error] at h
          exact Except.noConfusion h
        · simp only [hr, exceptBind_ok] at h
          injection h with h
          subst h
          obtain ⟨h1, h2⟩ := ih ds' r hr
          constructor
          · simp only [specArgs, List.filterMap_cons, List.length_cons]
            simp only [specArgs] at h1
            simpa using h1
          · simp only [specArgs, List.filterMap_cons] at h2 ⊢
            simp [h2, List.take_cons]
    | specList l isTuple =>
      rw [rewrapArgsLoop] at h
      rcases hr : rewrapArgsLoop rest ds with e | r
      · simp only [hr, exceptBind_error] at h
        exact Except.noConfusion h
      · simp only [hr, exceptBind_ok] at h
        injection h with h
        subst h
        obtain ⟨h1, h2⟩ := ih ds r hr
        constructor
        · simpa [specArgs, List.filterMap_cons] using h1
        · simpa [specArgs, List.filterMap_cons] using h2
    | value v =>
      rw [rewrapArgsLoop] at h
      rcases hr : rewrapArgsLoop rest ds with e | r
      · simp only [hr, exceptBind_error] at h
        exact Except.noConfusion h
      · simp only [hr, exceptBind_ok] at h
        injection h with h
        subst h
        obtain ⟨h1, h2⟩ := ih ds r hr
        constructor
        · simpa [specArgs, List.filterMap_cons] using h1
        · simpa [specArgs, List.filterMap_cons] using h2

/-- Characterization of the expected-input loop: one expected spec per
input, needs_redistribute exactly when some zipped pair differs in
placements, and each expected spec is the strategy's desired one. -/
theorem expectedSpecsLoop_spec (st : PlacementStrategy) :
    ∀ (args : List DTensorSpec) (idx : Nat) (exp : List DTensorSpec)
      (needs : Bool),
      expectedSpecsLoop st args idx = .ok (exp, needs) →
      exp.length = args.length ∧
      needs = (args.zip exp).any
        (fun p => decide (p.1.placements ≠ p.2.placements)) ∧
      ∀ i, i < args.length →
        desiredInputSpec st (idx + i) = .ok (exp.getD i defaultSpec) := by
  intro args
  induction args with
  | nil =>
    intro idx exp needs h
    rw [expectedSpecsLoop] at h
    injection h with h
    obtain ⟨h1, h2⟩ : exp = [] ∧ needs = false := by
      constructor
      · exact (congrArg Prod.fst h).symm
      · exact (congrArg Prod.snd h).symm
    subst h1
    subst h2
    exact ⟨rfl, rfl, by intro i hi; simp at hi⟩
  | cons a rest ih =>
    intro idx exp needs h
    rw [expectedSpecsLoop] at h
    rcases hd : desiredInputSpec st idx with e | d
    · simp only [hd, exceptBind_error] at h
      exact Except.noConfusion h
    · simp only [hd, exceptBind_ok] at h
      rcases hloop : expectedSpecsLoop st rest (idx + 1) with e | v
      · simp only [hloop, exceptBind_error] at h
        exact Except.noConfusion h
      · obtain ⟨exp', needs'⟩ := v
        simp only [hloop, exceptBind_ok] at h
        injection h with h
        obtain ⟨h1, h2⟩ : d :: exp' = exp ∧
            (needs' || decide (a.placements ≠ d.placements)) = needs := by
          constructor
          · exact congrArg Prod.fst h
          · exact congrArg Prod.snd h
        subst h1
        subst h2
        obtain ⟨hl, hn, hall⟩ := ih (idx + 1) exp' needs' hloop
        refine ⟨by simp [hl], ?_, ?_⟩
        · simp only [List.zip_cons_cons, List.any_cons, hn]
          exact Bool.or_comm _ _
        · intro i hi
          cases i with
          | zero => simpa using hd
          | succ i =>
            have := hall i (by simpa using hi)
            simpa [Nat.add_assoc, Nat.add_comm 1 i] using this

/-- List.any over a zip as an existential over indices. -/
theorem zip_any_iff {α β : Type} (l1 : List α) (l2 : List β)
    (f : α × β → Bool) (d1 : α) (d2 : β) (hlen : l2.length = l1.length) :
    (l1.zip l2).any f = true ↔
      ∃ i, i < l1.length ∧ f (l1.getD i d1, l2.getD i d2) = true := by
  induction l1 generalizing l2 with
  | nil => simp
  | cons a rest ih =>
    cases l2 with
    | nil => simp at hlen
    | cons b rest2 =>
      simp only [List.zip_cons_cons, List.any_cons, Bool.or_eq_true]
      constructor
      · rintro (hf | hany)
        · exact ⟨0, by simp, by simpa using hf⟩
        · obtain ⟨i, hi, hf⟩ := (ih rest2 (by simpa using hlen)).mp hany
          exact ⟨i + 1, by simpa using hi, by simpa using hf⟩
      · rintro ⟨i, hi, hf⟩
        cases i with
        | zero => exact Or.inl (by simpa using hf)
        | succ i =>
          exact Or.inr ((ih rest2 (by simpa using hlen)).mpr
            ⟨i, by simpa using hi, by simpa using hf⟩)

/-- Reduction of monadic bind after pure. -/
theorem exceptBind_pure {ε α β : Type} (v : α) (f : α → Except ε β) :
    ((pure v : Except ε α) >>= f) = f v := rfl

/-- C6: on the strategy-function path with a single OpStrategy, the
call succeeds with one strategy-function invocation; the candidate of
minimal summed redistribute cost is selected (first on ties, sole
candidate directly); needs_redistribute is set exactly when some actual
input's placements differ from the selected strategy's expected input
placements, in which case exactly one suggestion schema carrying the
expected input specs is attached, and otherwise no suggestion is
attached. -/
theorem single_op_strategy_selection (P : ShardingPropagator)
    (op_schema : OpSchema) (f : Nat → StrategySchema → StrategyType)
    (mesh : Nat) (args : List StratArg) (kwargs : List (String × StratArg))
    (S : OpStrategy) (st : PlacementStrategy)
    (expected : List DTensorSpec) (needs : Bool)
    (sharding : OutputSharding) (count : Nat)
    (hskip : op_schema.op.id ∉ skip_prop_ids)
    (hfun : P.op_strategy_funcs op_schema.op = some f)
    (hmesh : findMesh op_schema.args_schema = .ok (some mesh))
    (hargsS : argsToStrategy op_schema.args_schema = .ok args)
    (hkwS : kwargsToStrategy op_schema.kwargs_schema = .ok kwargs)
    (hstrat : f mesh ⟨op_schema.op, args, kwargs⟩ = .op S)
    (hsel : _select_strategy S = .ok st)
    (hloop : expectedSpecsLoop st op_schema.args_spec 0 = .ok (expected, needs))
    (hrun : propagate_op_sharding_non_cached P op_schema =
      .ok (sharding, count)) :
    count = 1 ∧
    sharding.needs_redistribute = needs ∧
    (needs = true ↔ ∃ i, i < op_schema.args_spec.length ∧
      (op_schema.args_spec.getD i defaultSpec).placements ≠
        (expected.getD i defaultSpec).placements) ∧
    (needs = true → ∃ sug,
      _inplace_rewrap_schema_suggestion
          ⟨op_schema.op, expected.map ArgSpec.spec, [],
            op_schema.has_symints⟩ op_schema = .ok sug ∧
        sharding.schema_suggestions = some [sug] ∧
        sug.args_spec = expected) ∧
    (needs = false → sharding.schema_suggestions = none) ∧
    (∀ i, i < op_schema.args_spec.length →
      desiredInputSpec st i = .ok (expected.getD i defaultSpec)) ∧
    (∀ st', S.strategies = [st'] → st = st') ∧
    (S.strategies.length ≠ 1 →
      ∃ costs, collectCosts S.strategies = .ok costs ∧
        costs.length = S.strategies.length ∧
        ∃ idx, idx < S.strategies.length ∧
          st = S.strategies.getD idx defaultStrategy ∧
          (∀ i, i < costs.length → costs.getD idx 0 ≤ costs.getD i 0) ∧
          (∀ i, i < idx → costs.getD idx 0 < costs.getD i 0)) := by
  rw [propagate_op_sharding_non_cached, if_neg hskip] at hrun
  simp only [hfun, hmesh, hargsS, hkwS, exceptBind_ok, exceptBind_pure] at hrun
  rw [hstrat] at hrun
  rcases hsingle : singleStrategyPath op_schema S (P.fake_meta op_schema)
    with e | out
  · simp only [hsingle, exceptBind_error] at hrun
    exact Except.noConfusion hrun
  · simp only [hsingle, exceptBind_ok] at hrun
    have heq : (out, 1) = (sharding, count) := by injection hrun
    obtain ⟨hout, hcount⟩ : out = sharding ∧ 1 = count := by
      simpa [Prod.ext_iff] using heq
    subst hout
    obtain ⟨hexplen, hneedseq, halldes⟩ :=
      expectedSpecsLoop_spec st op_schema.args_spec 0 expected needs hloop
    rw [singleStrategyPath] at hsingle
    simp only [hsel, hloop, exceptBind_ok] at hsingle
    obtain ⟨hsel1, hsel2⟩ := select_strategy_spec S st hsel
    refine ⟨hcount.symm, ?_, ?_, ?_, ?_, ?_, hsel1, hsel2⟩
    · rcases hneeds : needs with _ | _
      · simp only [hneeds] at hsingle
        rcases hwrap : _wrap_output_spec_tensor_meta op_schema.op
            (if op_schema.return_type_tuple_tensors = true then
              OutputSpecType.multi
                (List.replicate op_schema.op.numReturns
                  (some st.output_spec)) true
            else OutputSpecType.single st.output_spec)
            (P.fake_meta op_schema) with e | w
        · simp only [hwrap, exceptBind_error] at hsingle
          exact Except.noConfusion hsingle
        · simp only [hwrap, exceptBind_ok] at hsingle
          injection hsingle with h
          rw [h.symm]
      · simp only [hneeds] at hsingle
        rcases hrw : _inplace_rewrap_schema_suggestion
            ⟨op_schema.op, expected.map ArgSpec.spec, [],
              op_schema.has_symints⟩ op_schema with e | sug
        · simp only [hrw, exceptBind_error] at hsingle
          exact Except.noConfusion hsingle
        · simp only [hrw, exceptBind_ok] at hsingle
          rcases hwrap : _wrap_output_spec_tensor_meta op_schema.op
              (if op_schema.return_type_tuple_tensors = true then
                OutputSpecType.multi
                  (List.replicate op_schema.op.numReturns
                    (some st.output_spec)) true
              else OutputSpecType.single st.output_spec)
              (P.fake_meta op_schema) with e | w
          · simp only [hwrap, exceptBind_error] at hsingle
            exact Except.noConfusion hsingle
          · simp only [hwrap, exceptBind_ok] at hsingle
            injection hsingle with h
            rw [h.symm]
    · rw [hneedseq]
      have := zip_any_iff op_schema.args_spec expected
        (fun p => decide (p.1.placements ≠ p.2.placements))
        defaultSpec defaultSpec hexplen
      simp only [decide_eq_true_eq] at this
      exact this
    · intro hneeds
      simp only [hneeds] at hsingle
      rcases hrw : _inplace_rewrap_schema_suggestion
          ⟨op_schema.op, expected.map ArgSpec.spec, [],
            op_schema.has_symints⟩ op_schema with e | sug
      · simp only [hrw, exceptBind_error] at hsingle
        exact Except.noConfusion hsingle
      · simp only [hrw, exceptBind_ok] at hsingle
        rcases hwrap : _wrap_output_spec_tensor_meta op_schema.op
            (if op_schema.return_type_tuple_tensors = true then
              OutputSpecType.multi
                (List.replicate op_schema.op.numReturns
                  (some st.output_spec)) true
            else OutputSpecType.single st.output_spec)
            (P.fake_meta op_schema) with e | w
        · simp only [hwrap, exceptBind_error] at hsingle
          exact Except.noConfusion hsingle
        · simp only [hwrap, exceptBind_ok] at hsingle
          injection hsingle with h
          refine ⟨sug, rfl, ?_, ?_⟩
          · rw [h.symm]
          · rw [_inplace_rewrap_schema_suggestion] at hrw
            have hselfargs : OpSchema.args_spec
                ⟨op_schema.op, expected.map ArgSpec.spec, [],
                  op_schema.has_symints⟩ = expected := by
              simp [OpSchema.args_spec, specArgs_map_spec]
            rw [hselfargs] at hrw
            rcases hrl : rewrapArgsLoop op_schema.args_schema expected
              with e | args2
            · simp only [hrl, exceptBind_error] at hrw
              exact Except.noConfusion hrw
            · simp only [hrl, exceptBind_ok] at hrw
              injection hrw with hrw
              obtain ⟨_, htake⟩ := rewrapArgsLoop_spec _ _ _ hrl
              have hlen2 : (specArgs op_schema.args_schema).length =
                  expected.length := hexplen.symm
              rw [hrw.symm]
              show specArgs args2 = expected
              rw [htake, hlen2, List.take_length]
    · intro hneeds
      simp only [hneeds] at hsingle
      rcases hwrap : _wrap_output_spec_tensor_meta op_schema.op
          (if op_schema.return_type_tuple_tensors = true then
            OutputSpecType.multi
              (List.replicate op_schema.op.numReturns
                (some st.output_spec)) true
          else OutputSpecType.single st.output_spec)
          (P.fake_meta op_schema) with e | w
      · simp only [hwrap, exceptBind_error] at hsingle
        exact Except.noConfusion hsingle
      · simp only [hwrap, exceptBind_ok] at hsingle
        injection hsingle with h
        rw [h.symm]
    · intro i hi
      simpa using halldes i hi

/-- Actual input spec of the C6 witness. -/
def c6Spec0 : DTensorSpec := ⟨3, [Placement.shard 0], none⟩

/-- Expected input spec of the C6 witness. -/
def c6SpecR : DTensorSpec := ⟨3, [Placement.replicate], none⟩

/-- Operator of the C6 witness. -/
def c6Op : OpOverload := ⟨11, 1, false⟩

/-- Two-candidate strategy of the C6 witness (costs 5 and 3). -/
def c6S : OpStrategy := ⟨[⟨c6Spec0, some [c6Spec0], some [[5]]⟩,
                          ⟨c6SpecR, some [c6SpecR], some [[3]]⟩]⟩

/-- Propagator of the C6 witness. -/
def c6P : ShardingPropagator :=
  ⟨fun _ => none,
   fun op => if op = c6Op then some (fun _ _ => .op c6S) else none,
   fun _ => none, fun _ => .single ⟨[2], [1], 0⟩⟩

/-- Schema of the C6 witness. -/
def c6Schema : OpSchema := ⟨c6Op, [.spec c6Spec0], [], false⟩

/-- OutputSharding produced by the C6 witness run. -/
def c6RunOut : OutputSharding :=
  ⟨.single ⟨3, [Placement.replicate], some ⟨[2], [1], 0⟩⟩,
   some [⟨c6Op, [.spec c6SpecR], [], false⟩], none, true⟩

/-- Witness for C6: a two-candidate strategy with costs 5 and 3 over one
input whose placements differ from the selected expected spec. -/
theorem single_op_strategy_selection_witness :
    c6Schema.op.id ∉ skip_prop_ids ∧
    propagate_op_sharding_non_cached c6P c6Schema = .ok (c6RunOut, 1) ∧
    c6RunOut.needs_redistribute = true := by
  refine ⟨by decide, rfl, ?_⟩
  have h := single_op_strategy_selection c6P c6Schema (fun _ _ => .op c6S) 3
    [.strategy (.op ⟨[⟨c6Spec0, none, none⟩]⟩)] [] c6S
    ⟨c6SpecR, some [c6SpecR], some [[3]]⟩ [c6SpecR] true c6RunOut 1
    (by decide) rfl rfl rfl rfl rfl rfl rfl rfl
  exact h.2.1

/-- C7 (amended): on the legacy rule path, a rule result without output
spec but with suggestions causes one re-invocation on the first
suggestion, whose output spec is adopted with needs_redistribute forced
true; without suggestions the call raises an error carrying the failure
reason when one is present, and otherwise returns the rule's
OutputSharding unchanged without raising. -/
theorem rule_path_behavior (P : ShardingPropagator) (op_schema : OpSchema)
    (rule : OpSchema → OutputSharding)
    (hskip : op_schema.op.id ∉ skip_prop_ids)
    (hnofun : P.op_strategy_funcs op_schema.op = none)
    (hrule : P.op_to_rules op_schema.op = some rule) :
    (∀ s0 rest, (rule op_schema).output_spec = .noSpec →
      (rule op_schema).schema_suggestions = some (s0 :: rest) →
      ∀ sharding count,
        propagate_op_sharding_non_cached P op_schema = .ok (sharding, count) →
        count = 2 ∧ sharding.needs_redistribute = true ∧
        sharding.schema_suggestions = some (s0 :: rest) ∧
        ∃ w, _wrap_output_spec_tensor_meta op_schema.op
            (rule s0).output_spec (P.fake_meta op_schema) = .ok w ∧
          sharding.output_spec = w) ∧
    (∀ r, (rule op_schema).output_spec = .noSpec →
      (rule op_schema).schema_suggestions = none →
      (rule op_schema).failed_reason = some r →
      propagate_op_sharding_non_cached P op_schema = .error (.runtimeError
        ("Sharding propagation failed on op! Failed reason: " ++ r))) ∧
    ((rule op_schema).output_spec = .noSpec →
      (rule op_schema).schema_suggestions = none →
      (rule op_schema).failed_reason = none →
      propagate_op_sharding_non_cached P op_schema =
        .ok (rule op_schema, 1)) := by
  have hnc : propagate_op_sharding_non_cached P op_schema =
      rulePath op_schema rule (P.fake_meta op_schema) := by
    rw [propagate_op_sharding_non_cached, if_neg hskip]
    simp only [hnofun, hrule]
  refine ⟨?_, ?_, ?_⟩
  · intro s0 rest hspec hsug sharding count hrun
    rw [hnc, rulePath] at hrun
    simp only [hspec, hsug] at hrun
    rcases hwrap : _wrap_output_spec_tensor_meta op_schema.op
        (rule s0).output_spec (P.fake_meta op_schema) with e | w
    · simp only [hwrap, exceptBind_error, exceptBind_ok] at hrun
      exact Except.noConfusion hrun
    · simp only [hwrap, exceptBind_ok] at hrun
      obtain ⟨hsh, hcnt⟩ : sharding =
          (⟨w, some (s0 :: rest), (rule op_schema).failed_reason, true⟩ :
            OutputSharding) ∧ count = 2 := by
        injection hrun with h
        exact ⟨(congrArg Prod.fst h).symm, (congrArg Prod.snd h).symm⟩
      subst hsh
      exact ⟨hcnt, rfl, rfl, w, rfl, rfl⟩
  · intro r hspec hsug hfail
    rw [hnc, rulePath]
    simp only [hspec, hsug, hfail, exceptBind_error]
  · intro hspec hsug hfail
    rw [hnc, rulePath]
    have hwrap : _wrap_output_spec_tensor_meta op_schema.op
        (rule op_schema).output_spec (P.fake_meta op_schema) = .ok .noSpec := by
      rw [hspec]
      rfl
    simp only [hspec, hsug, hfail, exceptBind_ok, hwrap]
    rcases hr : rule op_schema with ⟨spec, sug, fr, needs⟩
    rw [hr] at hspec hsug hfail
    simp only at hspec hsug hfail
    subst hspec
    subst hsug
    subst hfail
    rfl

/-- Operator of the C7 scenarios. -/
def c7Op : OpOverload := ⟨12, 1, false⟩

/-- Schema of the C7 scenarios. -/
def c7Schema : OpSchema := ⟨c7Op, [], [], false⟩

/-- Propagator whose rule returns the all-empty OutputSharding. -/
def c7EmptyRuleProp : ShardingPropagator :=
  ⟨fun op => if op = c7Op then
      some (fun _ => ⟨.noSpec, none, none, false⟩)
    else none,
   fun _ => none, fun _ => none, fun _ => .noneMeta⟩

/-- Counterexample for C7 as stated: a rule returning neither an output
spec nor schema suggestions nor a failure reason makes
propagate_op_sharding_non_cached return normally instead of raising. -/
theorem rule_path_no_raise_counterexample :
    propagate_op_sharding_non_cached c7EmptyRuleProp c7Schema =
      .ok (⟨.noSpec, none, none, false⟩, 1) := rfl

/-- Suggestion schema returned by the C7 witness rule. -/
def c7SugSchema : OpSchema := ⟨c7Op, [.value 1], [], false⟩

/-- Rule returning a suggestion first, then a concrete spec. -/
def c7Rule : OpSchema → OutputSharding := fun s =>
  if s = c7SugSchema then
    ⟨.single ⟨5, [Placement.replicate], none⟩, none, none, false⟩
  else
    ⟨.noSpec, some [c7SugSchema], none, false⟩

/-- Propagator registering the C7 witness rule. -/
def c7RuleProp : ShardingPropagator :=
  ⟨fun op => if op = c7Op then some c7Rule else none,
   fun _ => none, fun _ => none, fun _ => .single ⟨[3], [1], 0⟩⟩

/-- OutputSharding produced by the C7 witness run. -/
def c7Out : OutputSharding :=
  ⟨.single ⟨5, [Placement.replicate], some ⟨[3], [1], 0⟩⟩,
   some [c7SugSchema], none, true⟩

/-- Witness for C7: a rule whose first result has only a suggestion; the
re-run's output spec is adopted and needs_redistribute is true. -/
theorem rule_path_behavior_witness :
    c7Schema.op.id ∉ skip_prop_ids ∧
    propagate_op_sharding_non_cached c7RuleProp c7Schema = .ok (c7Out, 2) ∧
    c7Out.needs_redistribute = true := by
  refine ⟨by decide, rfl, ?_⟩
  have h := (rule_path_behavior c7RuleProp c7Schema c7Rule (by decide) rfl
    rfl).1 c7SugSchema [] rfl rfl c7Out 2 rfl
  exact h.2.1

/-! ## Composable fully_shard (torch/distributed/_composable/fully_shard.py) -/

/-- Value passed for the policy keyword: either an instance of the
recognized auto-wrap policy type _FSDPPolicy, or any other object. -/
inductive PolicyArg where
  | fsdpPolicy (id : Nat) : PolicyArg
  | nonPolicy (id : Nat) : PolicyArg
deriving DecidableEq, Repr

/-- Observable steps of fully_shard, in source order: the API-usage log,
then the wrapping and state-initialization calls. -/
inductive FullyShardEffect where
  | logApiUsage : FullyShardEffect
  | initIgnoredModuleStates : FullyShardEffect
  | initDeviceHandle : FullyShardEffect
  | annotateModulesForDynamo : FullyShardEffect
  | initProcessGroupState : FullyShardEffect
  | autoWrap : FullyShardEffect
  | initCoreState : FullyShardEffect
  | initRuntimeState : FullyShardEffect
  | initPrefetchingState : FullyShardEffect
  | initBufferState : FullyShardEffect
  | initParamHandle : FullyShardEffect
  | initStateDictState : FullyShardEffect
  | registerStateDictHooks : FullyShardEffect
  | registerPreForwardHooks : FullyShardEffect
  | registerPostForwardHooks : FullyShardEffect
  | registerRootPreForwardHook : FullyShardEffect
  | insertModuleState : FullyShardEffect
deriving DecidableEq, Repr

/-- Python exceptions of the FSDP entry points. -/
inductive FsdpError where
  | valueError (msg : String) : FsdpError
  | runtimeError (msg : String) : FsdpError
  | assertionError (msg : String) : FsdpError
deriving DecidableEq, Repr

/-- Wrapping and state-initialization effects of fully_shard after the
policy check, in source order; _auto_wrap runs only when a policy was
passed. -/
def fullyShardInitEffects (withPolicy : Bool) : List FullyShardEffect :=
  [.initIgnoredModuleStates, .initDeviceHandle, .annotateModulesForDynamo,
    .initProcessGroupState] ++
  (if withPolicy then [.autoWrap] else []) ++
  [.initCoreState, .initRuntimeState, .initPrefetchingState,
    .initBufferState, .initParamHandle, .initStateDictState,
    .registerStateDictHooks, .registerPreForwardHooks,
    .registerPostForwardHooks, .registerRootPreForwardHook,
    .insertModuleState]

/-- Translation of the control flow of fully_shard(module, policy=...):
after the API-usage log, a policy that is neither None nor an
_FSDPPolicy instance raises ValueError before any wrapping or state
initialization; otherwise all initialization steps run in order.  The
individual initialization helpers live outside the available sources and
are abstracted as effect tokens. -/
def fully_shard (policy : Option PolicyArg) :
    List FullyShardEffect × Option FsdpError :=
  match policy with
  | some (.nonPolicy _) =>
    ([.logApiUsage], some (.valueError "Expects an _FSDPPolicy but got"))
  | some (.fsdpPolicy _) =>
    (.logApiUsage :: fullyShardInitEffects true, none)
  | none =>
    (.logApiUsage :: fullyShardInitEffects false, none)

/-- C8: fully_shard raises ValueError for every policy value that is not
None and not an _FSDPPolicy instance, before any wrapping or state
initialization takes effect (only the API-usage log precedes the check);
for None or a valid policy instance no such error is raised. -/
theorem fully_shard_policy_check :
    (∀ id, fully_shard (some (.nonPolicy id)) =
      ([.logApiUsage], some (.valueError "Expects an _FSDPPolicy but got"))) ∧
    (∀ id, (fully_shard (some (.nonPolicy id))).1.all
      (fun e => decide (e = .logApiUsage)) = true) ∧
    (fully_shard none).2 = none ∧
    (∀ id, (fully_shard (some (.fsdpPolicy id))).2 = none) ∧
    (∀ id, FullyShardEffect.autoWrap ∈
      (fully_shard (some (.fsdpPolicy id))).1) := by
  refine ⟨fun id => rfl, fun id => rfl, rfl, fun id => rfl, fun id => ?_⟩
  simp [fully_shard, fullyShardInitEffects]

/-! ## Root post-backward wait (fully_sharded_data_parallel.py) -/

/-- Handle of one managed FSDP module. -/
structure FsdpModule where
  id : Nat
deriving DecidableEq, Repr

/-- Log entries emitted during _wait_for_post_backward. -/
inductive BackwardLogEntry where
  | resharded (m : FsdpModule) : BackwardLogEntry
  | reshardFailure (m : FsdpModule) (msg : String) : BackwardLogEntry
  | finalizedParams (m : FsdpModule) : BackwardLogEntry
deriving DecidableEq, Repr

/-- Translation of the local _catch_all_reshard closure: attempt the
reshard of the module's handles (abstracted as an oracle); on an
exception, first log the assertion-style failure report naming the
module (p_assert with raise_assertion_error=False prints without
raising), then re-raise the exception. -/
def catch_all_reshard (reshard : FsdpModule → Except String Unit)
    (m : FsdpModule) : List BackwardLogEntry × Option String :=
  match reshard m with
  | .ok _ => ([.resharded m], none)
  | .error e => ([.reshardFailure m e], some e)

/-- Translation of the cleanup loop of _wait_for_post_backward: for every
managed FSDP module, in order and including the root itself, run the
catch-all reshard and then finalize parameters; an exception raised in
the catch-all reshard aborts the loop and propagates. -/
def wait_for_post_backward_loop (reshard : FsdpModule → Except String Unit) :
    List FsdpModule → List BackwardLogEntry × Option String
  | [] => ([], none)
  | m :: rest =>
    match catch_all_reshard reshard m with
    | (log, none) =>
      (log ++ [.finalizedParams m] ++
        (wait_for_post_backward_loop reshard rest).1,
       (wait_for_post_backward_loop reshard rest).2)
    | (log, some e) => (log, some e)

/-- Translation of the managed-module traversal: fsdp_modules(self)
yields the root first (nn.Module.modules starts at self), then the
nested FSDP modules in traversal order. -/
def fsdp_modules (root : FsdpModule) (descendants : List FsdpModule) :
    List FsdpModule :=
  root :: descendants

/-- Translation of FullyShardedDataParallel._wait_for_post_backward's
cleanup phase over the managed modules (stream synchronization is
outside the model). -/
def wait_for_post_backward (reshard : FsdpModule → Except String Unit)
    (root : FsdpModule) (descendants : List FsdpModule) :
    List BackwardLogEntry × Option String :=
  wait_for_post_backward_loop reshard (fsdp_modules root descendants)

/-- When every reshard succeeds, the loop finishes normally and every
module got its catch-all reshard. -/
theorem wait_loop_all_ok (reshard : FsdpModule → Except String Unit)
    (ms : List FsdpModule) (hok : ∀ m ∈ ms, reshard m = .ok ()) :
    (wait_for_post_backward_loop reshard ms).2 = none ∧
      ∀ m ∈ ms, BackwardLogEntry.resharded m ∈
        (wait_for_post_backward_loop reshard ms).1 := by
  induction ms with
  | nil => exact ⟨rfl, by intro m hm; simp at hm⟩
  | cons m0 rest ih =>
    have hm0 : reshard m0 = .ok () := hok m0 (List.mem_cons_self _ _)
    obtain ⟨h1, h2⟩ := ih (fun m hm => hok m (List.mem_cons_of_mem _ hm))
    rw [wait_for_post_backward_loop]
    simp only [catch_all_reshard, hm0]
    constructor
    · simpa using h1
    · intro m hm
      rcases List.mem_cons.mp hm with hmm | hm
      · rw [hmm]
        simp
      · simp only [List.mem_append]
        exact Or.inr (h2 m hm)

/-- The first failing reshard aborts the loop: its failure report is
logged with the module's context and the exception propagates. -/
theorem wait_loop_first_fail (reshard : FsdpModule → Except String Unit)
    (pre : List FsdpModule) (m : FsdpModule) (post : List FsdpModule)
    (e : String) (hpre : ∀ m' ∈ pre, reshard m' = .ok ())
    (hm : reshard m = .error e) :
    (wait_for_post_backward_loop reshard (pre ++ m :: post)).2 = some e ∧
      BackwardLogEntry.reshardFailure m e ∈
        (wait_for_post_backward_loop reshard (pre ++ m :: post)).1 := by
  induction pre with
  | nil =>
    rw [List.nil_append, wait_for_post_backward_loop]
    simp only [catch_all_reshard, hm]
    simp
  | cons p rest ih =>
    have hp : reshard p = .ok () := hpre p (List.mem_cons_self _ _)
    obtain ⟨h1, h2⟩ := ih (fun m' hm' => hpre m' (List.mem_cons_of_mem _ hm'))
    rw [List.cons_append, wait_for_post_backward_loop]
    simp only [catch_all_reshard, hp]
    rcases hloop : wait_for_post_backward_loop reshard (rest ++ m :: post)
      with ⟨logRest, err⟩
    rw [hloop] at h1 h2
    exact ⟨by simpa using h1, by simp [h2]⟩

/-- C9: during the root's _wait_for_post_backward, the catch-all reshard
pass covers every managed FSDP module including the root itself; an
exception raised inside a catch-all reshard is first logged as an
assertion-style failure report naming the failing module and then
re-raised, so the function never returns normally after such an
exception. -/
theorem wait_for_post_backward_catch_all
    (reshard : FsdpModule → Except String Unit) (root : FsdpModule)
    (descendants : List FsdpModule) :
    ((∀ m ∈ fsdp_modules root descendants, reshard m = .ok ()) →
      (wait_for_post_backward reshard root descendants).2 = none ∧
      ∀ m ∈ fsdp_modules root descendants,
        BackwardLogEntry.resharded m ∈
          (wait_for_post_backward reshard root descendants).1) ∧
    (∀ pre m post e,
      fsdp_modules root descendants = pre ++ m :: post →
      (∀ p ∈ pre, reshard p = .ok ()) →
      reshard m = .error e →
      (wait_for_post_backward reshard root descendants).2 = some e ∧
      BackwardLogEntry.reshardFailure m e ∈
        (wait_for_post_backward reshard root descendants).1) ∧
    root ∈ fsdp_modules root descendants := by
  refine ⟨?_, ?_, List.mem_cons_self _ _⟩
  · intro hok
    exact wait_loop_all_ok reshard _ hok
  · intro pre m post e hsplit hpre hm
    rw [wait_for_post_backward, hsplit]
    exact wait_loop_first_fail reshard pre m post e hpre hm

/-- Witness for C9 at a concrete two-module tree whose non-root module's
reshard throws: the failure is logged for that module and re-raised. -/
theorem wait_for_post_backward_catch_all_witness :
    (fsdp_modules ⟨0⟩ [⟨1⟩] = [⟨0⟩] ++ (⟨1⟩ : FsdpModule) :: []) ∧
    (wait_for_post_backward
        (fun m => if m.id = 1 then .error "boom" else .ok ()) ⟨0⟩ [⟨1⟩]).2 =
      some "boom" ∧
    BackwardLogEntry.reshardFailure ⟨1⟩ "boom" ∈
      (wait_for_post_backward
        (fun m => if m.id = 1 then .error "boom" else .ok ()) ⟨0⟩ [⟨1⟩]).1 := by
  refine ⟨rfl, ?_, ?_⟩
  · exact ((wait_for_post_backward_catch_all
      (fun m => if m.id = 1 then .error "boom" else .ok ()) ⟨0⟩ [⟨1⟩]).2.1
      [⟨0⟩] ⟨1⟩ [] "boom" rfl (by intro p hp; fin_cases hp; rfl) rfl).1
  · exact ((wait_for_post_backward_catch_all
      (fun m => if m.id = 1 then .error "boom" else .ok ()) ⟨0⟩ [⟨1⟩]).2.1
      [⟨0⟩] ⟨1⟩ [] "boom" rfl (by intro p hp; fin_cases hp; rfl) rfl).2

/-! ## no_sync (fully_sharded_data_parallel.py:1118-1155) -/

/-- FSDP training states. -/
inductive TrainingState where
  | idle : TrainingState
  | forward : TrainingState
  | backwardPre : TrainingState
  | backwardPost : TrainingState
  | summonFullParams : TrainingState
deriving DecidableEq, Repr

/-- State visible to no_sync: the (module id, _sync_gradients) pairs of
every FSDP module in self.modules() order, whether lazy init resolved
this instance as root, and its training state. -/
structure NoSyncState where
  modules : List (Nat × Bool)
  isRoot : Bool
  trainingState : TrainingState
deriving DecidableEq, Repr

/-- Translation of the entry of no_sync: after _lazy_init, a non-root
instance raises RuntimeError; a root not in IDLE raises ValueError via
_assert_state; otherwise the old (module, flag) pairs are saved in order
and every _sync_gradients flag is set to False. -/
def no_sync_enter (st : NoSyncState) :
    Except FsdpError (NoSyncState × List (Nat × Bool)) :=
  if st.isRoot = false then
    .error (.runtimeError
      "no_sync() on inner FSDP instances is not supported. Please call no_sync() on root FSDP module.")
  else if st.trainingState ≠ .idle then
    .error (.valueError "expected to be in states IDLE")
  else
    .ok ({ st with modules := st.modules.map fun p => (p.1, false) },
      st.modules)

/-- Translation of the finally block of no_sync: walk the saved flags in
order; a flag found True mid-context trips the assertion (aborting the
remaining restores), otherwise each module's flag is restored to its
saved value. -/
def restoreFlags : List (Nat × Bool) → List (Nat × Bool) →
    Except FsdpError (List (Nat × Bool))
  | cur, [] => .ok cur
  | cur, (m, oldFlag) :: rest =>
    if (List.lookup m cur).getD false then
      .error (.assertionError
        "_sync_gradients was incorrectly set to True while in the no_sync() context manager")
    else
      restoreFlags (cur.map fun p => if p.1 = m then (p.1, oldFlag) else p)
        rest

/-- Translation of the no_sync context manager around an arbitrary body:
enter, run the body (which may itself end with an exception), then run
the finally block; a body exception is re-raised after the restores. -/
def no_sync_run (st : NoSyncState)
    (body : NoSyncState → NoSyncState × Option FsdpError) :
    Except FsdpError (NoSyncState × Option FsdpError) := do
  let (stIn, old) ← no_sync_enter st
  let restored ← restoreFlags (body stIn).1.modules old
  .ok ({ (body stIn).1 with modules := restored }, (body stIn).2)

/-- Association lookup skips a prefix without the key. -/
theorem lookup_append_not_mem (m : Nat) (l1 l2 : List (Nat × Bool))
    (hm : m ∉ l1.map Prod.fst) :
    List.lookup m (l1 ++ l2) = List.lookup m l2 := by
  induction l1 with
  | nil => rfl
  | cons p rest ih =>
    obtain ⟨k, v⟩ := p
    have hk : m ≠ k := by
      intro h
      exact hm (by simp [h])
    rw [List.cons_append, List.lookup]
    simp only [beq_eq_false_iff_ne.mpr hk]
    exact ih (fun h => hm (List.mem_cons_of_mem _ h))

/-- Updating an absent key leaves an association list unchanged. -/
theorem map_update_absent (m : Nat) (x : Bool) (l : List (Nat × Bool))
    (hm : m ∉ l.map Prod.fst) :
    (l.map fun p => if p.1 = m then (p.1, x) else p) = l := by
  induction l with
  | nil => rfl
  | cons p rest ih =>
    obtain ⟨k, v⟩ := p
    have hk : k ≠ m := by
      intro h
      exact hm (by simp [h])
    simp only [List.map_cons, if_neg hk]
    rw [ih (fun h => hm (List.mem_cons_of_mem _ h))]

/-- Restoring over all-False flags succeeds and reproduces exactly the
saved flags, for distinct module ids. -/
theorem restoreFlags_exact : ∀ (old done : List (Nat × Bool)),
    ((done ++ old).map Prod.fst).Nodup →
    restoreFlags (done ++ old.map fun p => (p.1, false)) old =
      .ok (done ++ old) := by
  intro old
  induction old with
  | nil =>
    intro done _
    simp [restoreFlags]
  | cons p rest ih =>
    intro done hnodup
    obtain ⟨m, f⟩ := p
    have hnodup' : (done.map Prod.fst ++ m :: rest.map Prod.fst).Nodup := by
      simpa using hnodup
    have hmdone : m ∉ done.map Prod.fst := by
      intro h
      exact (List.nodup_append.mp hnodup').2.2 h (by simp)
    have hmrest : m ∉ rest.map Prod.fst := by
      intro h
      exact (List.nodup_cons.mp (List.nodup_append.mp hnodup').2.1).1 h
    rw [restoreFlags]
    have hlook : List.lookup m
        (done ++ ((m, f) :: rest).map fun p => (p.1, false)) = some false := by
      rw [lookup_append_not_mem m done _ hmdone]
      simp [List.lookup]
    simp only [hlook, Option.getD_some, Bool.false_eq_true, if_false]
    have hids : (rest.map fun p : Nat × Bool => (p.1, false)).map Prod.fst =
        rest.map Prod.fst := by
      simp [List.map_map, Function.comp]
    have hset : ((done ++ ((m, f) :: rest).map fun p => (p.1, false)).map
        fun p => if p.1 = m then (p.1, f) else p) =
        (done ++ [(m, f)]) ++ rest.map fun p => (p.1, false) := by
      rw [List.map_append, map_update_absent m f done hmdone,
        List.map_cons, List.map_cons]
      rw [map_update_absent m f _ (by rw [hids]; exact hmrest)]
      simp
    rw [hset]
    have hfinal := ih (done ++ [(m, f)]) (by
      have heq : (done ++ [(m, f)]) ++ rest = done ++ (m, f) :: rest := by
        simp
      rw [heq]
      exact hnodup)
    rw [hfinal]
    simp

/-- C10: no_sync raises RuntimeError when entered on a non-root FSDP
instance (after lazy init resolves rootness); on entry every nested FSDP
module's _sync_gradients flag is set to False; and on every exit of the
context, normal or via an exception raised in the body, each module's
flag is restored to exactly its pre-entry value (given the flags remain
False within the context, as the source asserts), with a body exception
re-raised after the restore. -/
theorem no_sync_contract (st : NoSyncState)
    (body : NoSyncState → NoSyncState × Option FsdpError) :
    (st.isRoot = false → no_sync_run st body = .error (.runtimeError
      "no_sync() on inner FSDP instances is not supported. Please call no_sync() on root FSDP module.")) ∧
    (st.isRoot = true → st.trainingState = .idle →
      (∀ p ∈ (st.modules.map fun p => (p.1, false)), p.2 = false) ∧
      (∀ stB exc,
        body { st with modules := st.modules.map fun p => (p.1, false) } =
          (stB, exc) →
        stB.modules = st.modules.map (fun p => (p.1, false)) →
        (st.modules.map Prod.fst).Nodup →
        no_sync_run st body = .ok ({ stB with modules := st.modules }, exc))) := by
  constructor
  · intro hroot
    rw [no_sync_run, no_sync_enter, if_pos hroot]
    rfl
  · intro hroot hidle
    constructor
    · intro p hp
      rcases List.mem_map.mp hp with ⟨q, _, hq⟩
      rw [← hq]
    · intro stB exc hbody hflags hnodup
      rw [no_sync_run, no_sync_enter]
      rw [if_neg (by rw [hroot]; simp)]
      rw [if_neg (by rw [hidle]; simp)]
      rw [exceptBind_ok]
      simp only [hbody, hflags]
      have hrestore := restoreFlags_exact st.modules [] (by simpa using hnodup)
      simp only [List.nil_append] at hrestore
      rw [hrestore, exceptBind_ok]

/-- Witness for C10: a two-module root in IDLE whose body ends with an
exception while leaving the flags False; both flags are restored to
their saved values (True and False) and the exception propagates. -/
theorem no_sync_contract_witness :
    (⟨[(0, true), (1, false)], true, .idle⟩ : NoSyncState).isRoot = true ∧
    no_sync_run ⟨[(0, true), (1, false)], true, .idle⟩
        (fun s => (s, some (.runtimeError "body failed"))) =
      .ok (⟨[(0, true), (1, false)], true, .idle⟩,
        some (.runtimeError "body failed")) := by
  refine ⟨rfl, ?_⟩
  exact (no_sync_contract ⟨[(0, true), (1, false)], true, .idle⟩
      (fun s => (s, some (.runtimeError "body failed")))).2 rfl rfl |>.2
    ⟨[(0, false), (1, false)], true, .idle⟩
    (some (.runtimeError "body failed")) rfl rfl (by decide)

/-! ### Per-dimension tiling machinery -/

theorem shardOffsetOnDim_zero (n m : Nat) : shardOffsetOnDim n m 0 = 0 := by
  simp [shardOffsetOnDim]

theorem shardOffsetOnDim_succ (n m c : Nat) (_hc : c < m) :
    shardOffsetOnDim n m (c + 1) =
      shardOffsetOnDim n m c + shardSizeOnDim n m c := by
  rw [shardOffsetOnDim, shardOffsetOnDim, shardSizeOnDim]
  by_cases h : c < n % m
  · rw [if_pos h]
    have h1 : min c (n % m) = c := by omega
    have h2 : min (c + 1) (n % m) = c + 1 := by omega
    rw [h1, h2]
    ring
  · rw [if_neg h]
    have h1 : min c (n % m) = n % m := by omega
    have h2 : min (c + 1) (n % m) = n % m := by omega
    rw [h1, h2]
    ring

theorem shardOffsetOnDim_top (n m : Nat) (hm : 0 < m) :
    shardOffsetOnDim n m m = n := by
  rw [shardOffsetOnDim]
  have h1 : min m (n % m) = n % m := by
    have := Nat.mod_lt n hm
    omega
  rw [h1]
  have := Nat.div_add_mod n m
  have hcomm : m * (n / m) = n / m * m := Nat.mul_comm _ _
  omega

theorem shardOffsetOnDim_mono (n m : Nat) (c c' : Nat) (hcc : c ≤ c')
    (hc' : c' ≤ m) : shardOffsetOnDim n m c ≤ shardOffsetOnDim n m c' := by
  induction c' with
  | zero =>
    have hc0 : c = 0 := Nat.le_zero.mp hcc
    rw [hc0]
  | succ k ih =>
    rcases Nat.lt_or_ge c (k + 1) with h | h
    · have hk : c ≤ k := by omega
      have := ih hk (by omega)
      rw [shardOffsetOnDim_succ n m k (by omega)]
      omega
    · have hck : c = k + 1 := by omega
      rw [hck]

theorem plain_cover (n m : Nat) (hm : 0 < m) (x : Nat) (hx : x < n) :
    ∃ c, c < m ∧ shardOffsetOnDim n m c ≤ x ∧
      x < shardOffsetOnDim n m c + shardSizeOnDim n m c := by
  have key : ∀ k, k ≤ m → x < shardOffsetOnDim n m k →
      ∃ c, c < k ∧ shardOffsetOnDim n m c ≤ x ∧
        x < shardOffsetOnDim n m c + shardSizeOnDim n m c := by
    intro k
    induction k with
    | zero =>
      intro _ hxo
      rw [shardOffsetOnDim_zero] at hxo
      omega
    | succ j ih =>
      intro hj hxo
      rcases Nat.lt_or_ge x (shardOffsetOnDim n m j) with h | h
      · obtain ⟨c, hc, h1, h2⟩ := ih (by omega) h
        exact ⟨c, by omega, h1, h2⟩
      · refine ⟨j, by omega, h, ?_⟩
        rw [shardOffsetOnDim_succ n m j (by omega)] at hxo
        omega
  apply key m (le_refl m)
  rw [shardOffsetOnDim_top n m hm]
  exact hx

theorem plain_disjoint (n m : Nat) (c c' : Nat) (hc : c < m) (hc' : c' < m)
    (hne : c ≠ c') :
    shardOffsetOnDim n m c + shardSizeOnDim n m c ≤ shardOffsetOnDim n m c' ∨
    shardOffsetOnDim n m c' + shardSizeOnDim n m c' ≤ shardOffsetOnDim n m c := by
  rcases Nat.lt_or_ge c c' with h | h
  · left
    rw [← shardOffsetOnDim_succ n m c (by omega)]
    exact shardOffsetOnDim_mono n m (c + 1) c' (by omega) (by omega)
  · right
    rw [← shardOffsetOnDim_succ n m c' (by omega)]
    exact shardOffsetOnDim_mono n m (c' + 1) c (by omega) (by omega)

theorem shardOffset_add_size_le (n m c : Nat) (hc : c < m) :
    shardOffsetOnDim n m c + shardSizeOnDim n m c ≤ n := by
  rw [← shardOffsetOnDim_succ n m c hc]
  have := shardOffsetOnDim_mono n m (c + 1) m (by omega) (le_refl m)
  rw [shardOffsetOnDim_top n m (by omega)] at this
  exact this

theorem stridedShardIndex_lt (g : List (Nat × Nat))
    (hv : ∀ p ∈ g, p.2 < p.1) :
    stridedShardIndex g < (g.map Prod.fst).prod := by
  induction g with
  | nil => simp [stridedShardIndex]
  | cons p rest ih =>
    obtain ⟨a, c⟩ := p
    have hca : c < a := hv (a, c) (List.mem_cons_self _ _)
    have hr := ih (fun q hq => hv q (List.mem_cons_of_mem _ hq))
    rw [stridedShardIndex, List.map_cons, List.prod_cons]
    calc stridedShardIndex rest * a + c
        < stridedShardIndex rest * a + a := by omega
      _ = (stridedShardIndex rest + 1) * a := by ring
      _ ≤ (rest.map Prod.fst).prod * a :=
          Nat.mul_le_mul_right a (by omega)
      _ = a * (rest.map Prod.fst).prod := Nat.mul_comm _ _

theorem stridedShardIndex_inj (g g' : List (Nat × Nat))
    (hsz : g.map Prod.fst = g'.map Prod.fst)
    (hv : ∀ p ∈ g, p.2 < p.1) (hv' : ∀ p ∈ g', p.2 < p.1)
    (hne : g.map Prod.snd ≠ g'.map Prod.snd) :
    stridedShardIndex g ≠ stridedShardIndex g' := by
  induction g generalizing g' with
  | nil =>
    cases g' with
    | nil => simp at hne
    | cons q rest' => simp at hsz
  | cons p rest ih =>
    cases g' with
    | nil => simp at hsz
    | cons q rest' =>
      obtain ⟨a, c⟩ := p
      obtain ⟨a', c'⟩ := q
      simp only [List.map_cons, List.cons.injEq] at hsz
      obtain ⟨haa, hrest⟩ := hsz
      subst haa
      have hca : c < a := hv (a, c) (List.mem_cons_self _ _)
      have hca' : c' < a := hv' (a, c') (List.mem_cons_self _ _)
      rw [stridedShardIndex, stridedShardIndex]
      by_cases hcc : c = c'
      · subst hcc
        have htails : rest.map Prod.snd ≠ rest'.map Prod.snd := by
          intro h
          exact hne (by simp [h])
        have hidx := ih rest' hrest
          (fun q hq => hv q (List.mem_cons_of_mem _ hq))
          (fun q hq => hv' q (List.mem_cons_of_mem _ hq)) htails
        intro h
        apply hidx
        have ha : 0 < a := by omega
        have := Nat.add_right_cancel h
        exact Nat.eq_of_mul_eq_mul_right ha this
      · intro h
        apply hcc
        have h1 : (stridedShardIndex rest * a + c) % a = c % a := by
          have he : stridedShardIndex rest * a + c = c + stridedShardIndex rest * a := by ring
          rw [he, Nat.add_mul_mod_self_right]
        have h2 : (stridedShardIndex rest' * a + c') % a = c' % a := by
          have he : stridedShardIndex rest' * a + c' = c' + stridedShardIndex rest' * a := by ring
          rw [he, Nat.add_mul_mod_self_right]
        have hc1 : c % a = c := Nat.mod_eq_of_lt hca
        have hc2 : c' % a = c' := Nat.mod_eq_of_lt hca'
        rw [h] at h1
        rw [h2, hc2] at h1
        rw [hc1] at h1
        exact h1.symm

theorem stridedShardIndex_surj (sizes : List Nat) (b : Nat)
    (hb : b < sizes.prod) (hpos : ∀ a ∈ sizes, 0 < a) :
    ∃ cs : List Nat, cs.length = sizes.length ∧
      List.Forall₂ (fun c a => c < a) cs sizes ∧
      stridedShardIndex (sizes.zip cs) = b := by
  induction sizes generalizing b with
  | nil =>
    simp only [List.prod_nil] at hb
    exact ⟨[], rfl, List.Forall₂.nil, by
      simp only [List.zip_nil_left, stridedShardIndex]
      omega⟩
  | cons a rest ih =>
    have ha : 0 < a := hpos a (List.mem_cons_self _ _)
    have hquot : b / a < rest.prod := by
      rw [Nat.div_lt_iff_lt_mul ha]
      rw [List.prod_cons] at hb
      have : a * rest.prod = rest.prod * a := Nat.mul_comm _ _
      omega
    obtain ⟨cs, hlen, hforall, hidx⟩ := ih (b / a) hquot
      (fun x hx => hpos x (List.mem_cons_of_mem _ hx))
    refine ⟨b % a :: cs, by simp [hlen], ?_, ?_⟩
    · exact List.Forall₂.cons (Nat.mod_lt _ ha) hforall
    · rw [List.zip_cons_cons, stridedShardIndex, hidx]
      have := Nat.div_add_mod b a
      have h2 : a * (b / a) = (b / a) * a := Nat.mul_comm _ _
      omega

/-- Attaches a per-dimension coordinate assignment to shard specs,
yielding the scan steps of one logical dimension. -/
def attachSteps (specs : List (Bool × Nat)) (cs : List Nat) :
    List (Bool × Nat × Nat) :=
  (specs.zip cs).map fun q => (q.1.1, q.1.2, q.2)

/-- Validity of a per-dimension coordinate assignment: one coordinate per
shard spec, below that mesh dimension's size. -/
def validSub (cs : List Nat) (specs : List (Bool × Nat)) : Prop :=
  List.Forall₂ (fun c bn => c < bn.2) cs specs

/-- All-zero assignment. -/
def zerosFor {α : Type} (l : List α) : List Nat := l.map fun _ => 0

theorem zerosFor_validSub (specs : List (Bool × Nat))
    (hpos : ∀ bn ∈ specs, 0 < bn.2) : validSub (zerosFor specs) specs := by
  induction specs with
  | nil => exact List.Forall₂.nil
  | cons bn rest ih =>
    exact List.Forall₂.cons (hpos bn (List.mem_cons_self _ _))
      (ih fun q hq => hpos q (List.mem_cons_of_mem _ hq))

theorem zerosFor_valid_sizes (sizes : List Nat)
    (hpos : ∀ a ∈ sizes, 0 < a) :
    List.Forall₂ (fun c a => c < a) (zerosFor sizes) sizes := by
  induction sizes with
  | nil => exact List.Forall₂.nil
  | cons a rest ih =>
    exact List.Forall₂.cons (hpos a (List.mem_cons_self _ _))
      (ih fun q hq => hpos q (List.mem_cons_of_mem _ hq))

/-- Splitting a Forall₂ along an append on the right. -/
theorem forall₂_append_split {α β : Type} {R : α → β → Prop} :
    ∀ {l : List α} {l1 l2 : List β}, List.Forall₂ R l (l1 ++ l2) →
      ∃ p q, l = p ++ q ∧ List.Forall₂ R p l1 ∧ List.Forall₂ R q l2 := by
  intro l l1
  induction l1 generalizing l with
  | nil =>
    intro l2 h
    exact ⟨[], l, rfl, List.Forall₂.nil, by simpa using h⟩
  | cons b rest ih =>
    intro l2 h
    rw [List.cons_append] at h
    cases h with
    | cons hab htail =>
      obtain ⟨p, q, rfl, hp, hq⟩ := ih htail
      exact ⟨_ :: p, q, rfl, List.Forall₂.cons hab hp, hq⟩


/-- A Forall₂ against a one-element list forces a one-element list. -/
theorem forall₂_single {α β : Type} {R : α → β → Prop} {l : List α} {b : β}
    (h : List.Forall₂ R l [b]) : ∃ a, l = [a] ∧ R a b := by
  cases h with
  | cons hab htail =>
    cases htail
    exact ⟨_, rfl, hab⟩

/-- Appending two Forall₂s. -/
theorem forall₂_append_mk {α β : Type} {R : α → β → Prop} :
    ∀ {l1 : List α} {l2 : List β} {u1 : List α} {u2 : List β},
      List.Forall₂ R l1 l2 → List.Forall₂ R u1 u2 →
      List.Forall₂ R (l1 ++ u1) (l2 ++ u2) := by
  intro l1 l2 u1 u2 h hu
  induction h with
  | nil => simpa using hu
  | cons hab _ ih => exact List.Forall₂.cons hab ih

/-- Zipping after appending one element to each list. -/
theorem zip_append_single (l1 l2 : List Nat) (a b : Nat)
    (h : l1.length = l2.length) :
    (l1 ++ [a]).zip (l2 ++ [b]) = l1.zip l2 ++ [(a, b)] := by
  rw [List.zip_append h]
  rfl

/-- Members of a size/coordinate zip under a Forall₂ bound have their
coordinate below their size. -/
theorem zip_mem_lt {accSizes accCs : List Nat}
    (h : List.Forall₂ (fun c a => c < a) accCs accSizes) :
    ∀ p ∈ accSizes.zip accCs, p.2 < p.1 := by
  induction h with
  | nil =>
    intro p hp
    simp at hp
  | cons hab _ ih =>
    intro p hp
    rw [List.zip_cons_cons] at hp
    rcases List.mem_cons.mp hp with h1 | h1
    · rw [h1]
      exact hab
    · exact ih p h1

theorem exceptIsOk_error {ε α : Type} (e : ε) :
    (Except.error e : Except ε α).isOk = false := rfl

theorem attachSteps_nil (cs : List Nat) : attachSteps [] cs = [] := rfl

theorem attachSteps_cons (b : Bool) (m : Nat) (rest : List (Bool × Nat))
    (c : Nat) (cs : List Nat) :
    attachSteps ((b, m) :: rest) (c :: cs) =
      (b, m, c) :: attachSteps rest cs := rfl

theorem sgc_nil (d n : Nat) (acc : List (Nat × Nat)) :
    stridedGroupCompute d n acc [] =
      .error (.danglingStridedPart d) := rfl

theorem sgc_step_true (d n m c : Nat) (acc : List (Nat × Nat))
    (rest : List (Bool × Nat × Nat)) :
    stridedGroupCompute d n acc ((true, m, c) :: rest) =
      stridedGroupCompute d n (acc ++ [(m, c)]) rest := rfl

theorem sgc_false_cons (d n m c : Nat) (acc : List (Nat × Nat))
    (s : Bool × Nat × Nat) (rest : List (Bool × Nat × Nat)) :
    stridedGroupCompute d n acc ((false, m, c) :: s :: rest) =
      .error (.danglingStridedPart d) := rfl

/-- Evaluation of a closed strided group: chunk count is the product of the
group's mesh sizes, the selected block the group's mixed-radix index. -/
theorem sgc_closed_eval (d n m c : Nat) (accSizes accCs : List Nat)
    (hlen : accSizes.length = accCs.length) :
    stridedGroupCompute d n (accSizes.zip accCs) [(false, m, c)] =
      if n % (accSizes.prod * m) = 0 then
        Except.ok (n / (accSizes.prod * m),
          stridedShardIndex (accSizes.zip accCs ++ [(m, c)]) *
            (n / (accSizes.prod * m)))
      else Except.error (MetaComputeError.unevenStridedPart d) := by
  have hmap : ((accSizes.zip accCs ++ [(m, c)]).map Prod.fst).prod =
      accSizes.prod * m := by
    rw [List.map_append, List.map_fst_zip _ _ (le_of_eq hlen)]
    rw [List.prod_append, List.map_cons, List.map_nil, List.prod_cons,
      List.prod_nil, mul_one]
  show (if n % ((accSizes.zip accCs ++ [(m, c)]).map Prod.fst).prod = 0 then
      Except.ok (n / ((accSizes.zip accCs ++ [(m, c)]).map Prod.fst).prod,
        stridedShardIndex (accSizes.zip accCs ++ [(m, c)]) *
          (n / ((accSizes.zip accCs ++ [(m, c)]).map Prod.fst).prod))
    else Except.error (MetaComputeError.unevenStridedPart d)) = _
  rw [hmap]

/-- Tiling property of a strided group: under positivity and acceptance of
every valid coordinate assignment, the blocks selected by the group cover
the dimension and are pairwise disjoint across distinct assignments. -/
theorem sgc_tiling (d : Nat) (specs : List (Bool × Nat)) :
    ∀ (accSizes : List Nat) (n : Nat),
    (∀ a ∈ accSizes, 0 < a) → (∀ bn ∈ specs, 0 < bn.2) →
    (∀ accCs cs, List.Forall₂ (fun c a => c < a) accCs accSizes →
      validSub cs specs →
      (stridedGroupCompute d n (accSizes.zip accCs)
        (attachSteps specs cs)).isOk = true) →
    (∀ x, x < n → ∃ accCs cs,
      List.Forall₂ (fun c a => c < a) accCs accSizes ∧ validSub cs specs ∧
      ∃ sz off, stridedGroupCompute d n (accSizes.zip accCs)
          (attachSteps specs cs) = .ok (sz, off) ∧ off ≤ x ∧ x < off + sz) ∧
    (∀ accCs cs accCs' cs',
      List.Forall₂ (fun c a => c < a) accCs accSizes → validSub cs specs →
      List.Forall₂ (fun c a => c < a) accCs' accSizes → validSub cs' specs →
      (accCs ≠ accCs' ∨ cs ≠ cs') →
      ∀ sz off sz' off',
        stridedGroupCompute d n (accSizes.zip accCs)
          (attachSteps specs cs) = .ok (sz, off) →
        stridedGroupCompute d n (accSizes.zip accCs')
          (attachSteps specs cs') = .ok (sz', off') →
        off + sz ≤ off' ∨ off' + sz' ≤ off) := by
  induction specs with
  | nil =>
    intro accSizes n hapos _ hacc
    exfalso
    have hz := hacc (zerosFor accSizes) []
      (zerosFor_valid_sizes accSizes hapos) List.Forall₂.nil
    rw [attachSteps_nil, sgc_nil, exceptIsOk_error] at hz
    exact Bool.noConfusion hz
  | cons bn rest ih =>
    obtain ⟨b, m⟩ := bn
    cases b with
    | true =>
      intro accSizes n hapos hpos hacc
      have hmpos : 0 < m := hpos (true, m) (List.mem_cons_self _ _)
      have hposr : ∀ q ∈ rest, 0 < q.2 := fun q hq =>
        hpos q (List.mem_cons_of_mem _ hq)
      have hapos' : ∀ a ∈ accSizes ++ [m], 0 < a := by
        intro a ha
        rcases List.mem_append.mp ha with h | h
        · exact hapos a h
        · simp at h
          omega
      have hacc' : ∀ accCs cs,
          List.Forall₂ (fun c a => c < a) accCs (accSizes ++ [m]) →
          validSub cs rest →
          (stridedGroupCompute d n ((accSizes ++ [m]).zip accCs)
            (attachSteps rest cs)).isOk = true := by
        intro accCs cs hv hvs
        obtain ⟨p, q, rfl, hp, hq⟩ := forall₂_append_split hv
        obtain ⟨chd, rfl, hc⟩ := forall₂_single hq
        have hz := hacc p (chd :: cs) hp (List.Forall₂.cons hc hvs)
        rw [attachSteps_cons, sgc_step_true] at hz
        rwa [zip_append_single accSizes p m chd hp.length_eq.symm]
      obtain ⟨ihcov, ihdis⟩ := ih (accSizes ++ [m]) n hapos' hposr hacc'
      constructor
      · intro x hx
        obtain ⟨accCs, cs, hv, hvs, sz, off, hrun, h1, h2⟩ := ihcov x hx
        obtain ⟨p, q, rfl, hp, hq⟩ := forall₂_append_split hv
        obtain ⟨chd, rfl, hc⟩ := forall₂_single hq
        refine ⟨p, chd :: cs, hp, List.Forall₂.cons hc hvs, sz, off, ?_,
          h1, h2⟩
        rw [attachSteps_cons, sgc_step_true,
          ← zip_append_single accSizes p m chd hp.length_eq.symm]
        exact hrun
      · intro accCs cs accCs' cs' hv hvs hv' hvs' hne sz off sz' off'
          hrun hrun'
        obtain ⟨chd, ctl, hc, hcs, rfl⟩ := List.forall₂_cons_right_iff.mp hvs
        obtain ⟨chd', ctl', hc', hcs', rfl⟩ :=
          List.forall₂_cons_right_iff.mp hvs'
        rw [attachSteps_cons, sgc_step_true,
          ← zip_append_single accSizes accCs m chd hv.length_eq.symm] at hrun
        rw [attachSteps_cons, sgc_step_true,
          ← zip_append_single accSizes accCs' m chd' hv'.length_eq.symm]
          at hrun'
        apply ihdis (accCs ++ [chd]) ctl (accCs' ++ [chd']) ctl'
          (forall₂_append_mk hv (List.Forall₂.cons hc List.Forall₂.nil)) hcs
          (forall₂_append_mk hv' (List.Forall₂.cons hc' List.Forall₂.nil))
          hcs' ?_ sz off sz' off' hrun hrun'
        have hlen12 : accCs.length = accCs'.length :=
          hv.length_eq.trans hv'.length_eq.symm
        rcases hne with h | h
        · left
          intro hcontra
          obtain ⟨h1, _⟩ := List.append_inj hcontra hlen12
          exact h h1
        · by_cases hch : chd = chd'
          · subst hch
            right
            intro hcontra
            apply h
            rw [hcontra]
          · left
            intro hcontra
            obtain ⟨_, h2⟩ := List.append_inj hcontra hlen12
            injection h2 with h3 _
            exact hch h3
    | false =>
      intro accSizes n hapos hpos hacc
      have hmpos : 0 < m := hpos (false, m) (List.mem_cons_self _ _)
      cases rest with
      | cons q rest' =>
        exfalso
        obtain ⟨qb, qm⟩ := q
        have hqm : 0 < qm :=
          hpos (qb, qm) (List.mem_cons_of_mem _ (List.mem_cons_self _ _))
        have hz := hacc (zerosFor accSizes) (0 :: 0 :: zerosFor rest')
          (zerosFor_valid_sizes accSizes hapos)
          (List.Forall₂.cons hmpos (List.Forall₂.cons hqm
            (zerosFor_validSub rest' fun r hr =>
              hpos r (List.mem_cons_of_mem _ (List.mem_cons_of_mem _ hr)))))
        rw [attachSteps_cons, attachSteps_cons, sgc_false_cons,
          exceptIsOk_error] at hz
        exact Bool.noConfusion hz
      | nil =>
        have happod : 0 < accSizes.prod := List.prod_pos hapos
        have hTpos : 0 < accSizes.prod * m := Nat.mul_pos happod hmpos
        have hT : n % (accSizes.prod * m) = 0 := by
          by_contra hmod
          have hz := hacc (zerosFor accSizes) [0]
            (zerosFor_valid_sizes accSizes hapos)
            (List.Forall₂.cons hmpos List.Forall₂.nil)
          rw [attachSteps_cons, attachSteps_nil,
            sgc_closed_eval d n m 0 accSizes (zerosFor accSizes)
              (by simp [zerosFor]),
            if_neg hmod, exceptIsOk_error] at hz
          exact Bool.noConfusion hz
        have hn : n = accSizes.prod * m * (n / (accSizes.prod * m)) := by
          have := Nat.div_add_mod n (accSizes.prod * m)
          omega
        constructor
        · intro x hx
          have hspos : 0 < n / (accSizes.prod * m) := by
            rcases Nat.eq_zero_or_pos (n / (accSizes.prod * m)) with h | h
            · rw [h, Nat.mul_zero] at hn
              omega
            · exact h
          have hxTs : x < accSizes.prod * m * (n / (accSizes.prod * m)) :=
            hn ▸ hx
          have hxTs' : x < (n / (accSizes.prod * m)) * (accSizes.prod * m) :=
            by rw [Nat.mul_comm] at hxTs; exact hxTs
          have hbT : x / (n / (accSizes.prod * m)) < accSizes.prod * m :=
            Nat.div_lt_of_lt_mul hxTs'
          have hbT2 : x / (n / (accSizes.prod * m)) <
              (accSizes ++ [m]).prod := by
            rw [List.prod_append, List.prod_cons, List.prod_nil, mul_one]
            exact hbT
          have hposAll : ∀ a ∈ accSizes ++ [m], 0 < a := by
            intro a ha
            rcases List.mem_append.mp ha with h | h
            · exact hapos a h
            · simp at h
              omega
          obtain ⟨cs', _, hforall', hidx⟩ :=
            stridedShardIndex_surj (accSizes ++ [m])
              (x / (n / (accSizes.prod * m))) hbT2 hposAll
          obtain ⟨p, qq, rfl, hp, hq⟩ := forall₂_append_split hforall'
          obtain ⟨c, rfl, hcm⟩ := forall₂_single hq
          rw [zip_append_single accSizes p m c hp.length_eq.symm] at hidx
          refine ⟨p, [c], hp, List.Forall₂.cons hcm List.Forall₂.nil,
            n / (accSizes.prod * m),
            x / (n / (accSizes.prod * m)) * (n / (accSizes.prod * m)),
            ?_, Nat.div_mul_le_self _ _, ?_⟩
          · rw [attachSteps_cons, attachSteps_nil,
              sgc_closed_eval d n m c accSizes p hp.length_eq.symm,
              if_pos hT, hidx]
          · have h1 := Nat.div_add_mod x (n / (accSizes.prod * m))
            have h2 : x % (n / (accSizes.prod * m)) <
                n / (accSizes.prod * m) := Nat.mod_lt x hspos
            have h3 : (n / (accSizes.prod * m)) *
                (x / (n / (accSizes.prod * m))) =
                (x / (n / (accSizes.prod * m))) *
                (n / (accSizes.prod * m)) := Nat.mul_comm _ _
            omega
        · intro accCs cs accCs' cs' hv hvs hv' hvs' hne sz off sz' off'
            hrun hrun'
          obtain ⟨c, rfl, hcm⟩ := forall₂_single hvs
          obtain ⟨c', rfl, hcm'⟩ := forall₂_single hvs'
          rw [attachSteps_cons, attachSteps_nil,
            sgc_closed_eval d n m c accSizes accCs hv.length_eq.symm,
            if_pos hT, Except.ok.injEq, Prod.mk.injEq] at hrun
          rw [attachSteps_cons, attachSteps_nil,
            sgc_closed_eval d n m c' accSizes accCs' hv'.length_eq.symm,
            if_pos hT, Except.ok.injEq, Prod.mk.injEq] at hrun'
          obtain ⟨hsz, hoff⟩ := hrun
          obtain ⟨hsz', hoff'⟩ := hrun'
          have hm1 : (accSizes.zip accCs ++ [(m, c)]).map Prod.fst =
              accSizes ++ [m] := by
            rw [List.map_append,
              List.map_fst_zip _ _ (le_of_eq hv.length_eq.symm)]
            rfl
          have hm1' : (accSizes.zip accCs' ++ [(m, c')]).map Prod.fst =
              accSizes ++ [m] := by
            rw [List.map_append,
              List.map_fst_zip _ _ (le_of_eq hv'.length_eq.symm)]
            rfl
          have hvm : ∀ p ∈ accSizes.zip accCs ++ [(m, c)], p.2 < p.1 := by
            intro p hp
            rcases List.mem_append.mp hp with h | h
            · exact zip_mem_lt hv p h
            · simp at h
              rw [h]
              exact hcm
          have hvm' : ∀ p ∈ accSizes.zip accCs' ++ [(m, c')], p.2 < p.1 := by
            intro p hp
            rcases List.mem_append.mp hp with h | h
            · exact zip_mem_lt hv' p h
            · simp at h
              rw [h]
              exact hcm'
          have hs1 : (accSizes.zip accCs ++ [(m, c)]).map Prod.snd =
              accCs ++ [c] := by
            rw [List.map_append,
              List.map_snd_zip _ _ (le_of_eq hv.length_eq)]
            rfl
          have hs1' : (accSizes.zip accCs' ++ [(m, c')]).map Prod.snd =
              accCs' ++ [c'] := by
            rw [List.map_append,
              List.map_snd_zip _ _ (le_of_eq hv'.length_eq)]
            rfl
          have hlen12 : accCs.length = accCs'.length :=
            hv.length_eq.trans hv'.length_eq.symm
          have hsne : (accSizes.zip accCs ++ [(m, c)]).map Prod.snd ≠
              (accSizes.zip accCs' ++ [(m, c')]).map Prod.snd := by
            rw [hs1, hs1']
            rcases hne with h | h
            · intro hcontra
              obtain ⟨h1, _⟩ := List.append_inj hcontra hlen12
              exact h h1
            · intro hcontra
              obtain ⟨_, h2⟩ := List.append_inj hcontra hlen12
              injection h2 with h3 _
              exact h (by rw [h3])
          have hidxne := stridedShardIndex_inj
            (accSizes.zip accCs ++ [(m, c)])
            (accSizes.zip accCs' ++ [(m, c')])
            (hm1.trans hm1'.symm) hvm hvm' hsne
          rw [← hsz, ← hoff, ← hsz', ← hoff']
          rcases Nat.lt_or_ge (stridedShardIndex
              (accSizes.zip accCs ++ [(m, c)]))
              (stridedShardIndex (accSizes.zip accCs' ++ [(m, c')]))
            with h | h
          · left
            calc stridedShardIndex (accSizes.zip accCs ++ [(m, c)]) *
                  (n / (accSizes.prod * m)) + n / (accSizes.prod * m)
                = (stridedShardIndex (accSizes.zip accCs ++ [(m, c)]) + 1) *
                  (n / (accSizes.prod * m)) := by ring
              _ ≤ stridedShardIndex (accSizes.zip accCs' ++ [(m, c')]) *
                  (n / (accSizes.prod * m)) :=
                Nat.mul_le_mul_right _ (by omega)
          · have hlt : stridedShardIndex (accSizes.zip accCs' ++ [(m, c')]) <
                stridedShardIndex (accSizes.zip accCs ++ [(m, c)]) := by
              omega
            right
            calc stridedShardIndex (accSizes.zip accCs' ++ [(m, c')]) *
                  (n / (accSizes.prod * m)) + n / (accSizes.prod * m)
                = (stridedShardIndex (accSizes.zip accCs' ++ [(m, c')]) + 1) *
                  (n / (accSizes.prod * m)) := by ring
              _ ≤ stridedShardIndex (accSizes.zip accCs ++ [(m, c)]) *
                  (n / (accSizes.prod * m)) :=
                Nat.mul_le_mul_right _ (by omega)

/-- A block selected by a closed strided group lies within the dimension. -/
theorem sgc_bound (d : Nat) :
    ∀ (steps : List (Bool × Nat × Nat)) (n : Nat) (acc : List (Nat × Nat)),
    (∀ p ∈ acc, p.2 < p.1) → (∀ st ∈ steps, st.2.2 < st.2.1) →
    ∀ sz off, stridedGroupCompute d n acc steps = .ok (sz, off) →
      off + sz ≤ n := by
  intro steps
  induction steps with
  | nil =>
    intro n acc _ _ sz off hrun
    rw [sgc_nil] at hrun
    exact Except.noConfusion hrun
  | cons st rest ih =>
    obtain ⟨b, m, c⟩ := st
    cases b with
    | true =>
      intro n acc hacc hsteps sz off hrun
      rw [sgc_step_true] at hrun
      refine ih n (acc ++ [(m, c)]) ?_
        (fun q hq => hsteps q (List.mem_cons_of_mem _ hq)) sz off hrun
      intro p hp
      rcases List.mem_append.mp hp with h | h
      · exact hacc p h
      · simp at h
        rw [h]
        exact hsteps (true, m, c) (List.mem_cons_self _ _)
    | false =>
      intro n acc hacc hsteps sz off hrun
      cases rest with
      | cons st' rest' =>
        rw [sgc_false_cons] at hrun
        exact Except.noConfusion hrun
      | nil =>
        have hgv : ∀ p ∈ acc ++ [(m, c)], p.2 < p.1 := by
          intro p hp
          rcases List.mem_append.mp hp with h | h
          · exact hacc p h
          · simp at h
            rw [h]
            exact hsteps (false, m, c) (List.mem_cons_self _ _)
        have hlt := stridedShardIndex_lt (acc ++ [(m, c)]) hgv
        rw [show stridedGroupCompute d n acc [(false, m, c)] =
            (if n % ((acc ++ [(m, c)]).map Prod.fst).prod = 0 then
              Except.ok (n / ((acc ++ [(m, c)]).map Prod.fst).prod,
                stridedShardIndex (acc ++ [(m, c)]) *
                  (n / ((acc ++ [(m, c)]).map Prod.fst).prod))
            else Except.error (MetaComputeError.unevenStridedPart d))
          from rfl] at hrun
        by_cases hmod : n % ((acc ++ [(m, c)]).map Prod.fst).prod = 0
        · rw [if_pos hmod, Except.ok.injEq, Prod.mk.injEq] at hrun
          obtain ⟨hsz, hoff⟩ := hrun
          rw [← hsz, ← hoff]
          have hdm := Nat.div_add_mod n ((acc ++ [(m, c)]).map Prod.fst).prod
          calc stridedShardIndex (acc ++ [(m, c)]) *
                (n / ((acc ++ [(m, c)]).map Prod.fst).prod) +
                n / ((acc ++ [(m, c)]).map Prod.fst).prod
              = (stridedShardIndex (acc ++ [(m, c)]) + 1) *
                (n / ((acc ++ [(m, c)]).map Prod.fst).prod) := by ring
            _ ≤ ((acc ++ [(m, c)]).map Prod.fst).prod *
                (n / ((acc ++ [(m, c)]).map Prod.fst).prod) :=
              Nat.mul_le_mul_right _ (by omega)
            _ ≤ n := by omega
        · rw [if_neg hmod] at hrun
          exact Except.noConfusion hrun

theorem dsc_nil (d n : Nat) : dimShardCompute d n [] = .ok (n, 0) := rfl

/-- Evaluation of one plain Shard step of dimShardCompute. -/
theorem dsc_plain_eval (d n m c : Nat) (steps : List (Bool × Nat × Nat)) :
    dimShardCompute d n ((false, m, c) :: steps) =
      match dimShardCompute d (shardSizeOnDim n m c) steps with
      | .ok (sz, off) => .ok (sz, shardOffsetOnDim n m c + off)
      | .error e => .error e := by
  cases h : dimShardCompute d (shardSizeOnDim n m c) steps with
  | ok v =>
    obtain ⟨sz, off⟩ := v
    show (do
      let (sz, off) ← dimShardCompute d (shardSizeOnDim n m c) steps
      Except.ok (sz, shardOffsetOnDim n m c + off)) = _
    rw [h]
    rfl
  | error e =>
    show (do
      let (sz, off) ← dimShardCompute d (shardSizeOnDim n m c) steps
      Except.ok (sz, shardOffsetOnDim n m c + off)) = _
    rw [h]
    rfl

theorem dsc_strided_eval (d n m c : Nat) (steps : List (Bool × Nat × Nat)) :
    dimShardCompute d n ((true, m, c) :: steps) =
      stridedGroupCompute d n [(m, c)] steps := rfl

/-- A slice computed for one logical dimension lies within the dimension. -/
theorem dsc_bound (d : Nat) :
    ∀ (steps : List (Bool × Nat × Nat)) (n : Nat),
    (∀ st ∈ steps, st.2.2 < st.2.1) →
    ∀ sz off, dimShardCompute d n steps = .ok (sz, off) → off + sz ≤ n := by
  intro steps
  induction steps with
  | nil =>
    intro n _ sz off hrun
    rw [dsc_nil, Except.ok.injEq, Prod.mk.injEq] at hrun
    omega
  | cons st rest ih =>
    obtain ⟨b, m, c⟩ := st
    cases b with
    | false =>
      intro n hsteps sz off hrun
      rw [dsc_plain_eval] at hrun
      have hc : c < m := hsteps (false, m, c) (List.mem_cons_self _ _)
      cases hrest : dimShardCompute d (shardSizeOnDim n m c) rest with
      | ok v =>
        obtain ⟨sz0, off0⟩ := v
        rw [hrest] at hrun
        simp only [Except.ok.injEq, Prod.mk.injEq] at hrun
        obtain ⟨hsz, hoff⟩ := hrun
        have hb := ih (shardSizeOnDim n m c)
          (fun q hq => hsteps q (List.mem_cons_of_mem _ hq)) sz0 off0 hrest
        have hbound := shardOffset_add_size_le n m c hc
        rw [← hsz, ← hoff]
        omega
      | error e =>
        rw [hrest] at hrun
        exact Except.noConfusion hrun
    | true =>
      intro n hsteps sz off hrun
      rw [dsc_strided_eval] at hrun
      refine sgc_bound d rest n [(m, c)] ?_
        (fun q hq => hsteps q (List.mem_cons_of_mem _ hq)) sz off hrun
      intro p hp
      simp at hp
      rw [hp]
      exact hsteps (true, m, c) (List.mem_cons_self _ _)

/-- Coordinates of valid attached steps are below their mesh sizes. -/
theorem attachSteps_mem_lt :
    ∀ (specs : List (Bool × Nat)) (cs : List Nat), validSub cs specs →
      ∀ st ∈ attachSteps specs cs, st.2.2 < st.2.1 := by
  intro specs
  induction specs with
  | nil =>
    intro cs _ st hst
    rw [attachSteps_nil] at hst
    simp at hst
  | cons bn rest ih =>
    intro cs h st hst
    obtain ⟨b, m⟩ := bn
    obtain ⟨c, ctl, hc, hcs, rfl⟩ := List.forall₂_cons_right_iff.mp h
    rw [attachSteps_cons] at hst
    rcases List.mem_cons.mp hst with h1 | h1
    · rw [h1]
      exact hc
    · exact ih ctl hcs st h1

/-- Tiling property of one logical dimension: if every valid coordinate
assignment is accepted, the computed slices cover the dimension and
distinct assignments get disjoint slices. -/
theorem dsc_tiling (d : Nat) (specs : List (Bool × Nat)) :
    ∀ n : Nat, (∀ bn ∈ specs, 0 < bn.2) →
    (∀ cs, validSub cs specs →
      (dimShardCompute d n (attachSteps specs cs)).isOk = true) →
    (∀ x, x < n → ∃ cs, validSub cs specs ∧
      ∃ sz off, dimShardCompute d n (attachSteps specs cs) = .ok (sz, off) ∧
        off ≤ x ∧ x < off + sz) ∧
    (∀ cs cs', validSub cs specs → validSub cs' specs → cs ≠ cs' →
      ∀ sz off sz' off',
        dimShardCompute d n (attachSteps specs cs) = .ok (sz, off) →
        dimShardCompute d n (attachSteps specs cs') = .ok (sz', off') →
        off + sz ≤ off' ∨ off' + sz' ≤ off) := by
  induction specs with
  | nil =>
    intro n _ _
    constructor
    · intro x hx
      exact ⟨[], List.Forall₂.nil, n, 0, by rw [attachSteps_nil, dsc_nil],
        by omega, by omega⟩
    · intro cs cs' hv hv' hne
      cases hv
      cases hv'
      exact absurd rfl hne
  | cons bn rest ih =>
    obtain ⟨b, m⟩ := bn
    cases b with
    | false =>
      intro n hpos hacc
      have hmpos : 0 < m := hpos (false, m) (List.mem_cons_self _ _)
      have hposr : ∀ q ∈ rest, 0 < q.2 := fun q hq =>
        hpos q (List.mem_cons_of_mem _ hq)
      have hacc' : ∀ c, c < m → ∀ cs, validSub cs rest →
          (dimShardCompute d (shardSizeOnDim n m c)
            (attachSteps rest cs)).isOk = true := by
        intro c hc cs hvs
        have hz := hacc (c :: cs) (List.Forall₂.cons hc hvs)
        rw [attachSteps_cons, dsc_plain_eval] at hz
        cases hrest : dimShardCompute d (shardSizeOnDim n m c)
            (attachSteps rest cs) with
        | ok v => rfl
        | error e =>
          rw [hrest, exceptIsOk_error] at hz
          exact Bool.noConfusion hz
      constructor
      · intro x hx
        obtain ⟨c, hc, ho1, ho2⟩ := plain_cover n m hmpos x hx
        obtain ⟨ihcov, _⟩ := ih (shardSizeOnDim n m c) hposr (hacc' c hc)
        obtain ⟨cs, hvs, sz, off, hrun, h1, h2⟩ :=
          ihcov (x - shardOffsetOnDim n m c) (by omega)
        refine ⟨c :: cs, List.Forall₂.cons hc hvs, sz,
          shardOffsetOnDim n m c + off, ?_, by omega, by omega⟩
        rw [attachSteps_cons, dsc_plain_eval, hrun]
      · intro cs cs' hvs hvs' hne sz off sz' off' hrun hrun'
        obtain ⟨c, ctl, hc, hcs, rfl⟩ := List.forall₂_cons_right_iff.mp hvs
        obtain ⟨c', ctl', hc', hcs', rfl⟩ :=
          List.forall₂_cons_right_iff.mp hvs'
        rw [attachSteps_cons, dsc_plain_eval] at hrun hrun'
        cases hrest : dimShardCompute d (shardSizeOnDim n m c)
            (attachSteps rest ctl) with
        | error e =>
          rw [hrest] at hrun
          exact Except.noConfusion hrun
        | ok v =>
          obtain ⟨sz0, off0⟩ := v
          rw [hrest] at hrun
          simp only [Except.ok.injEq, Prod.mk.injEq] at hrun
          obtain ⟨hsz, hoff⟩ := hrun
          cases hrest' : dimShardCompute d (shardSizeOnDim n m c')
              (attachSteps rest ctl') with
          | error e =>
            rw [hrest'] at hrun'
            exact Except.noConfusion hrun'
          | ok v' =>
            obtain ⟨sz0', off0'⟩ := v'
            rw [hrest'] at hrun'
            simp only [Except.ok.injEq, Prod.mk.injEq] at hrun'
            obtain ⟨hsz', hoff'⟩ := hrun'
            have hb := dsc_bound d (attachSteps rest ctl)
              (shardSizeOnDim n m c) (attachSteps_mem_lt rest ctl hcs)
              sz0 off0 hrest
            have hb' := dsc_bound d (attachSteps rest ctl')
              (shardSizeOnDim n m c') (attachSteps_mem_lt rest ctl' hcs')
              sz0' off0' hrest'
            by_cases hcc : c = c'
            · subst hcc
              have hne' : ctl ≠ ctl' := by
                intro hcontra
                exact hne (by rw [hcontra])
              obtain ⟨_, ihdis⟩ := ih (shardSizeOnDim n m c) hposr
                (hacc' c hc)
              have := ihdis ctl ctl' hcs hcs' hne' sz0 off0 sz0' off0'
                hrest hrest'
              rw [← hsz, ← hoff, ← hsz', ← hoff']
              omega
            · have hdis := plain_disjoint n m c c' hc hc' hcc
              rw [← hsz, ← hoff, ← hsz', ← hoff']
              omega
    | true =>
      intro n hpos hacc
      have hmpos : 0 < m := hpos (true, m) (List.mem_cons_self _ _)
      have hposr : ∀ q ∈ rest, 0 < q.2 := fun q hq =>
        hpos q (List.mem_cons_of_mem _ hq)
      have hacc' : ∀ accCs cs, List.Forall₂ (fun c a => c < a) accCs [m] →
          validSub cs rest →
          (stridedGroupCompute d n ([m].zip accCs)
            (attachSteps rest cs)).isOk = true := by
        intro accCs cs hv hvs
        obtain ⟨c, rfl, hc⟩ := forall₂_single hv
        have hz := hacc (c :: cs) (List.Forall₂.cons hc hvs)
        rw [attachSteps_cons, dsc_strided_eval] at hz
        exact hz
      obtain ⟨sgcov, sgdis⟩ := sgc_tiling d rest [m] n
        (by intro a ha; simp at ha; omega) hposr hacc'
      constructor
      · intro x hx
        obtain ⟨accCs, cs, hv, hvs, sz, off, hrun, h1, h2⟩ := sgcov x hx
        obtain ⟨c, rfl, hc⟩ := forall₂_single hv
        refine ⟨c :: cs, List.Forall₂.cons hc hvs, sz, off, ?_, h1, h2⟩
        rw [attachSteps_cons, dsc_strided_eval]
        exact hrun
      · intro cs cs' hvs hvs' hne sz off sz' off' hrun hrun'
        obtain ⟨c, ctl, hc, hcs, rfl⟩ := List.forall₂_cons_right_iff.mp hvs
        obtain ⟨c', ctl', hc', hcs', rfl⟩ :=
          List.forall₂_cons_right_iff.mp hvs'
        rw [attachSteps_cons, dsc_strided_eval] at hrun hrun'
        refine sgdis [c] ctl [c'] ctl'
          (List.Forall₂.cons hc List.Forall₂.nil) hcs
          (List.Forall₂.cons hc' List.Forall₂.nil) hcs' ?_
          sz off sz' off' hrun hrun'
        by_cases hcc : c = c'
        · subst hcc
          right
          intro hcontra
          exact hne (by rw [hcontra])
        · left
          intro hcontra
          injection hcontra with h1 _
          exact hcc h1

/-- Shard specs (strided flag, mesh dimension size) that a placement list
induces on one fixed logical dimension d. -/
def dimSpecs (pl : List Placement) (mesh : List Nat) (d : Nat) :
    List (Bool × Nat) :=
  (pl.zip mesh).filterMap fun q =>
    match q.1 with
    | .replicate => none
    | .shard d' => if d' = d then some (false, q.2) else none
    | .stridedShard d' _ => if d' = d then some (true, q.2) else none

/-- Sub-assignment of a rank's mesh coordinate to one fixed logical
dimension d: the coordinates of the mesh dimensions sharding d, in order. -/
def subCoordsOf (pl : List Placement) (coord : List Nat) (d : Nat) :
    List Nat :=
  (pl.zip coord).filterMap fun q =>
    match q.1 with
    | .replicate => none
    | .shard d' => if d' = d then some q.2 else none
    | .stridedShard d' _ => if d' = d then some q.2 else none

theorem dimSpecs_cons_rep (m : Nat) (pr : List Placement) (mr : List Nat)
    (d : Nat) :
    dimSpecs (.replicate :: pr) (m :: mr) d = dimSpecs pr mr d := rfl

theorem dimSpecs_cons_shard (d0 m : Nat) (pr : List Placement)
    (mr : List Nat) (d : Nat) :
    dimSpecs (.shard d0 :: pr) (m :: mr) d =
      if d0 = d then (false, m) :: dimSpecs pr mr d else dimSpecs pr mr d := by
  by_cases h : d0 = d
  · simp [dimSpecs, List.filterMap_cons, h]
  · simp [dimSpecs, List.filterMap_cons, h]

theorem dimSpecs_cons_strided (d0 sf m : Nat) (pr : List Placement)
    (mr : List Nat) (d : Nat) :
    dimSpecs (.stridedShard d0 sf :: pr) (m :: mr) d =
      if d0 = d then (true, m) :: dimSpecs pr mr d else dimSpecs pr mr d := by
  by_cases h : d0 = d
  · simp [dimSpecs, List.filterMap_cons, h]
  · simp [dimSpecs, List.filterMap_cons, h]

theorem subCoordsOf_cons_rep (c : Nat) (pr : List Placement)
    (cr : List Nat) (d : Nat) :
    subCoordsOf (.replicate :: pr) (c :: cr) d = subCoordsOf pr cr d := rfl

theorem subCoordsOf_cons_shard (d0 c : Nat) (pr : List Placement)
    (cr : List Nat) (d : Nat) :
    subCoordsOf (.shard d0 :: pr) (c :: cr) d =
      if d0 = d then c :: subCoordsOf pr cr d else subCoordsOf pr cr d := by
  by_cases h : d0 = d
  · simp [subCoordsOf, List.filterMap_cons, h]
  · simp [subCoordsOf, List.filterMap_cons, h]

theorem subCoordsOf_cons_strided (d0 sf c : Nat) (pr : List Placement)
    (cr : List Nat) (d : Nat) :
    subCoordsOf (.stridedShard d0 sf :: pr) (c :: cr) d =
      if d0 = d then c :: subCoordsOf pr cr d else subCoordsOf pr cr d := by
  by_cases h : d0 = d
  · simp [subCoordsOf, List.filterMap_cons, h]
  · simp [subCoordsOf, List.filterMap_cons, h]

/-- The steps of one logical dimension are the dimension's shard specs with
the rank's sub-assignment attached. -/
theorem dimShardSteps_eq_attach :
    ∀ (pl : List Placement) (mesh coord : List Nat) (d : Nat),
      pl.length = mesh.length → pl.length = coord.length →
      dimShardSteps pl mesh coord d =
        attachSteps (dimSpecs pl mesh d) (subCoordsOf pl coord d) := by
  intro pl
  induction pl with
  | nil =>
    intro mesh coord d _ _
    rfl
  | cons p pr ih =>
    intro mesh coord d hm hc
    cases mesh with
    | nil => exact absurd hm (by simp)
    | cons m mr =>
      cases coord with
      | nil => exact absurd hc (by simp)
      | cons c cr =>
        have hm' : pr.length = mr.length := by simpa using hm
        have hc' : pr.length = cr.length := by simpa using hc
        have ihx := ih mr cr d hm' hc'
        cases p with
        | replicate =>
          rw [dimSpecs_cons_rep, subCoordsOf_cons_rep, ← ihx]
          rfl
        | shard d0 =>
          rw [dimSpecs_cons_shard, subCoordsOf_cons_shard]
          by_cases h : d0 = d
          · rw [if_pos h, if_pos h, attachSteps_cons, ← ihx]
            show List.filterMap _ (_ :: _) = _
            rw [List.filterMap_cons]
            simp [h]
            rfl
          · rw [if_neg h, if_neg h, ← ihx]
            show List.filterMap _ (_ :: _) = _
            rw [List.filterMap_cons]
            simp [h]
            rfl
        | stridedShard d0 sf =>
          rw [dimSpecs_cons_strided, subCoordsOf_cons_strided]
          by_cases h : d0 = d
          · rw [if_pos h, if_pos h, attachSteps_cons, ← ihx]
            show List.filterMap _ (_ :: _) = _
            rw [List.filterMap_cons]
            simp [h]
            rfl
          · rw [if_neg h, if_neg h, ← ihx]
            show List.filterMap _ (_ :: _) = _
            rw [List.filterMap_cons]
            simp [h]
            rfl

/-- A valid mesh coordinate restricts to a valid sub-assignment on every
logical dimension. -/
theorem subCoordsOf_valid :
    ∀ (pl : List Placement) (mesh coord : List Nat) (d : Nat),
      pl.length = mesh.length → pl.length = coord.length →
      List.Forall₂ (fun c m => c < m) coord mesh →
      validSub (subCoordsOf pl coord d) (dimSpecs pl mesh d) := by
  intro pl
  induction pl with
  | nil =>
    intro mesh coord d _ _ _
    exact List.Forall₂.nil
  | cons p pr ih =>
    intro mesh coord d hm hc hf
    cases mesh with
    | nil => exact absurd hm (by simp)
    | cons m mr =>
      cases coord with
      | nil => exact absurd hc (by simp)
      | cons c cr =>
        have hm' : pr.length = mr.length := by simpa using hm
        have hc' : pr.length = cr.length := by simpa using hc
        cases hf with
        | cons hcm hf' =>
          have ihx := ih mr cr d hm' hc' hf'
          cases p with
          | replicate =>
            rw [dimSpecs_cons_rep, subCoordsOf_cons_rep]
            exact ihx
          | shard d0 =>
            rw [dimSpecs_cons_shard, subCoordsOf_cons_shard]
            by_cases h : d0 = d
            · rw [if_pos h, if_pos h]
              exact List.Forall₂.cons hcm ihx
            · rw [if_neg h, if_neg h]
              exact ihx
          | stridedShard d0 sf =>
            rw [dimSpecs_cons_strided, subCoordsOf_cons_strided]
            by_cases h : d0 = d
            · rw [if_pos h, if_pos h]
              exact List.Forall₂.cons hcm ihx
            · rw [if_neg h, if_neg h]
              exact ihx

/-- Mesh positivity carries over to every dimension's shard specs. -/
theorem dimSpecs_pos :
    ∀ (pl : List Placement) (mesh : List Nat) (d : Nat),
      (∀ m ∈ mesh, 0 < m) → ∀ bn ∈ dimSpecs pl mesh d, 0 < bn.2 := by
  intro pl
  induction pl with
  | nil =>
    intro mesh d _ bn hbn
    simp [dimSpecs] at hbn
  | cons p pr ih =>
    intro mesh d hmesh bn hbn
    cases mesh with
    | nil =>
      simp [dimSpecs] at hbn
    | cons m mr =>
      have hmr : ∀ x ∈ mr, 0 < x := fun x hx =>
        hmesh x (List.mem_cons_of_mem _ hx)
      have hm : 0 < m := hmesh m (List.mem_cons_self _ _)
      cases p with
      | replicate =>
        rw [dimSpecs_cons_rep] at hbn
        exact ih mr d hmr bn hbn
      | shard d0 =>
        rw [dimSpecs_cons_shard] at hbn
        by_cases h : d0 = d
        · rw [if_pos h] at hbn
          rcases List.mem_cons.mp hbn with h1 | h1
          · rw [h1]
            exact hm
          · exact ih mr d hmr bn h1
        · rw [if_neg h] at hbn
          exact ih mr d hmr bn hbn
      | stridedShard d0 sf =>
        rw [dimSpecs_cons_strided] at hbn
        by_cases h : d0 = d
        · rw [if_pos h] at hbn
          rcases List.mem_cons.mp hbn with h1 | h1
          · rw [h1]
            exact hm
          · exact ih mr d hmr bn h1
        · rw [if_neg h] at hbn
          exact ih mr d hmr bn hbn

/-- Dimensions beyond every shard target have no shard specs. -/
theorem dimSpecs_out :
    ∀ (pl : List Placement) (mesh : List Nat) (L d : Nat),
      (∀ p ∈ pl, ∀ d', p.shardDim = some d' → d' < L) → L ≤ d →
      dimSpecs pl mesh d = [] := by
  intro pl
  induction pl with
  | nil =>
    intro mesh L d _ _
    simp [dimSpecs]
  | cons p pr ih =>
    intro mesh L d hd hL
    cases mesh with
    | nil =>
      simp [dimSpecs]
    | cons m mr =>
      have hd' : ∀ q ∈ pr, ∀ d', q.shardDim = some d' → d' < L :=
        fun q hq => hd q (List.mem_cons_of_mem _ hq)
      cases p with
      | replicate =>
        rw [dimSpecs_cons_rep]
        exact ih mr L d hd' hL
      | shard d0 =>
        have hlt : d0 < L := hd (.shard d0) (List.mem_cons_self _ _) d0 rfl
        rw [dimSpecs_cons_shard, if_neg (by omega)]
        exact ih mr L d hd' hL
      | stridedShard d0 sf =>
        have hlt : d0 < L :=
          hd (.stridedShard d0 sf) (List.mem_cons_self _ _) d0 rfl
        rw [dimSpecs_cons_strided, if_neg (by omega)]
        exact ih mr L d hd' hL

/-- Builds a full mesh coordinate from one sub-assignment per logical
dimension: replicated mesh dimensions get coordinate 0, and each sharding
mesh dimension consumes the next coordinate of its dimension's list. -/
def buildCoord : List Placement → List Nat → (Nat → List Nat) → List Nat
  | [], _, _ => []
  | _ :: _, [], _ => []
  | p :: pr, _ :: mr, f =>
    match p with
    | .replicate => 0 :: buildCoord pr mr f
    | .shard d =>
      (f d).headD 0 ::
        buildCoord pr mr fun d' => if d' = d then (f d).tail else f d'
    | .stridedShard d _ =>
      (f d).headD 0 ::
        buildCoord pr mr fun d' => if d' = d then (f d).tail else f d'

/-- buildCoord yields a valid mesh coordinate whose sub-assignment on every
logical dimension is exactly the requested one. -/
theorem buildCoord_spec :
    ∀ (pl : List Placement) (mesh : List Nat) (f : Nat → List Nat),
      pl.length = mesh.length → (∀ m ∈ mesh, 0 < m) →
      (∀ d, validSub (f d) (dimSpecs pl mesh d)) →
      List.Forall₂ (fun c m => c < m) (buildCoord pl mesh f) mesh ∧
      ∀ d, subCoordsOf pl (buildCoord pl mesh f) d = f d := by
  intro pl
  induction pl with
  | nil =>
    intro mesh f hlen _ hf
    cases mesh with
    | nil =>
      refine ⟨List.Forall₂.nil, ?_⟩
      intro d
      have h0 := hf d
      have hfd : f d = [] := List.forall₂_nil_right_iff.mp h0
      rw [hfd]
      rfl
    | cons m mr => exact absurd hlen (by simp)
  | cons p pr ih =>
    intro mesh f hlen hmesh hf
    cases mesh with
    | nil => exact absurd hlen (by simp)
    | cons m mr =>
      have hlen' : pr.length = mr.length := by simpa using hlen
      have hmr : ∀ x ∈ mr, 0 < x := fun x hx =>
        hmesh x (List.mem_cons_of_mem _ hx)
      have hm : 0 < m := hmesh m (List.mem_cons_self _ _)
      cases p with
      | replicate =>
        have hf' : ∀ d, validSub (f d) (dimSpecs pr mr d) := by
          intro d
          have := hf d
          rwa [dimSpecs_cons_rep] at this
        obtain ⟨ihv, ihs⟩ := ih mr f hlen' hmr hf'
        refine ⟨List.Forall₂.cons hm ihv, ?_⟩
        intro d
        rw [show buildCoord (.replicate :: pr) (m :: mr) f =
          0 :: buildCoord pr mr f from rfl]
        rw [subCoordsOf_cons_rep]
        exact ihs d
      | shard d0 =>
        have hfd0 := hf d0
        rw [dimSpecs_cons_shard, if_pos rfl] at hfd0
        obtain ⟨c, ctl, hc, hctl, hfd0eq⟩ :=
          List.forall₂_cons_right_iff.mp hfd0
        have hf' : ∀ d, validSub
            ((fun d' => if d' = d0 then (f d0).tail else f d') d)
            (dimSpecs pr mr d) := by
          intro d
          by_cases h : d = d0
          · subst h
            simp only [if_pos rfl]
            rw [hfd0eq]
            exact hctl
          · simp only [if_neg h]
            have := hf d
            rwa [dimSpecs_cons_shard, if_neg (by omega)] at this
        obtain ⟨ihv, ihs⟩ := ih mr _ hlen' hmr hf'
        have hhead : (f d0).headD 0 = c := by rw [hfd0eq]; rfl
        refine ⟨?_, ?_⟩
        · rw [show buildCoord (.shard d0 :: pr) (m :: mr) f =
            (f d0).headD 0 :: buildCoord pr mr
              (fun d' => if d' = d0 then (f d0).tail else f d') from rfl]
          rw [hhead]
          exact List.Forall₂.cons hc ihv
        · intro d
          rw [show buildCoord (.shard d0 :: pr) (m :: mr) f =
            (f d0).headD 0 :: buildCoord pr mr
              (fun d' => if d' = d0 then (f d0).tail else f d') from rfl]
          rw [subCoordsOf_cons_shard]
          by_cases h : d0 = d
          · subst h
            rw [if_pos rfl, hhead, ihs d0]
            simp only [if_pos rfl]
            rw [hfd0eq]
            rfl
          · rw [if_neg h]
            rw [ihs d]
            have hne : ¬ d = d0 := fun hh => h hh.symm
            rw [if_neg hne]
      | stridedShard d0 sf =>
        have hfd0 := hf d0
        rw [dimSpecs_cons_strided, if_pos rfl] at hfd0
        obtain ⟨c, ctl, hc, hctl, hfd0eq⟩ :=
          List.forall₂_cons_right_iff.mp hfd0
        have hf' : ∀ d, validSub
            ((fun d' => if d' = d0 then (f d0).tail else f d') d)
            (dimSpecs pr mr d) := by
          intro d
          by_cases h : d = d0
          · subst h
            simp only [if_pos rfl]
            rw [hfd0eq]
            exact hctl
          · simp only [if_neg h]
            have := hf d
            rwa [dimSpecs_cons_strided, if_neg (by omega)] at this
        obtain ⟨ihv, ihs⟩ := ih mr _ hlen' hmr hf'
        have hhead : (f d0).headD 0 = c := by rw [hfd0eq]; rfl
        refine ⟨?_, ?_⟩
        · rw [show buildCoord (.stridedShard d0 sf :: pr) (m :: mr) f =
            (f d0).headD 0 :: buildCoord pr mr
              (fun d' => if d' = d0 then (f d0).tail else f d') from rfl]
          rw [hhead]
          exact List.Forall₂.cons hc ihv
        · intro d
          rw [show buildCoord (.stridedShard d0 sf :: pr) (m :: mr) f =
            (f d0).headD 0 :: buildCoord pr mr
              (fun d' => if d' = d0 then (f d0).tail else f d') from rfl]
          rw [subCoordsOf_cons_strided]
          by_cases h : d0 = d
          · subst h
            rw [if_pos rfl, hhead, ihs d0]
            simp only [if_pos rfl]
            rw [hfd0eq]
            rfl
          · rw [if_neg h]
            rw [ihs d]
            have hne : ¬ d = d0 := fun hh => h hh.symm
            rw [if_neg hne]

/-- Two mesh coordinates agree on every sharded mesh dimension: on each
position whose placement shards some logical dimension, the coordinates
are equal (they may differ freely on replicated mesh dimensions). -/
def sameShardCoords (pl : List Placement) (c c' : List Nat) : Prop :=
  ∀ j, j < pl.length → (pl.getD j .replicate).shardDim ≠ none →
    c.getD j 0 = c'.getD j 0

/-- Agreement on all sharded mesh dimensions yields equal sub-assignments
on every logical dimension. -/
theorem subCoordsOf_eq_of_same :
    ∀ (pl : List Placement) (c c' : List Nat),
      pl.length = c.length → pl.length = c'.length →
      sameShardCoords pl c c' →
      ∀ d, subCoordsOf pl c d = subCoordsOf pl c' d := by
  intro pl
  induction pl with
  | nil =>
    intro c c' _ _ _ d
    rfl
  | cons p pr ih =>
    intro c c' hc hc' hsame d
    cases c with
    | nil => exact absurd hc (by simp)
    | cons a ar =>
      cases c' with
      | nil => exact absurd hc' (by simp)
      | cons a' ar' =>
        have hc2 : pr.length = ar.length := by simpa using hc
        have hc2' : pr.length = ar'.length := by simpa using hc'
        have hsame' : sameShardCoords pr ar ar' := by
          intro j hj hdim
          have := hsame (j + 1) (by simpa using hj) (by simpa using hdim)
          simpa using this
        have ihx := ih ar ar' hc2 hc2' hsame' d
        cases p with
        | replicate =>
          rw [subCoordsOf_cons_rep, subCoordsOf_cons_rep]
          exact ihx
        | shard d0 =>
          have hhead : a = a' := by
            have := hsame 0 (by simp) (by simp [Placement.shardDim])
            simpa using this
          rw [subCoordsOf_cons_shard, subCoordsOf_cons_shard, hhead, ihx]
        | stridedShard d0 sf =>
          have hhead : a = a' := by
            have := hsame 0 (by simp) (by simp [Placement.shardDim])
            simpa using this
          rw [subCoordsOf_cons_strided, subCoordsOf_cons_strided, hhead, ihx]

/-- If the sub-assignments of two coordinates agree on a logical dimension,
the coordinates agree on every mesh position sharding that dimension. -/
theorem same_coord_of_subCoordsOf_eq :
    ∀ (pl : List Placement) (c c' : List Nat) (d : Nat),
      pl.length = c.length → pl.length = c'.length →
      subCoordsOf pl c d = subCoordsOf pl c' d →
      ∀ j, j < pl.length → (pl.getD j .replicate).shardDim = some d →
        c.getD j 0 = c'.getD j 0 := by
  intro pl
  induction pl with
  | nil =>
    intro c c' d _ _ _ j hj _
    simp at hj
  | cons p pr ih =>
    intro c c' d hc hc' hsub j hj hdim
    cases c with
    | nil => exact absurd hc (by simp)
    | cons a ar =>
      cases c' with
      | nil => exact absurd hc' (by simp)
      | cons a' ar' =>
        have hc2 : pr.length = ar.length := by simpa using hc
        have hc2' : pr.length = ar'.length := by simpa using hc'
        cases j with
        | zero =>
          cases p with
          | replicate => simp [Placement.shardDim] at hdim
          | shard d0 =>
            have hd0 : d0 = d := by simpa [Placement.shardDim] using hdim
            subst hd0
            rw [subCoordsOf_cons_shard, if_pos rfl,
              subCoordsOf_cons_shard, if_pos rfl] at hsub
            injection hsub with h1 _
          | stridedShard d0 sf =>
            have hd0 : d0 = d := by simpa [Placement.shardDim] using hdim
            subst hd0
            rw [subCoordsOf_cons_strided, if_pos rfl,
              subCoordsOf_cons_strided, if_pos rfl] at hsub
            injection hsub with h1 _
        | succ j' =>
          have hj' : j' < pr.length := by simpa using hj
          have hdim' : (pr.getD j' .replicate).shardDim = some d := by
            simpa using hdim
          have hsub' : subCoordsOf pr ar d = subCoordsOf pr ar' d := by
            cases p with
            | replicate =>
              rw [subCoordsOf_cons_rep, subCoordsOf_cons_rep] at hsub
              exact hsub
            | shard d0 =>
              rw [subCoordsOf_cons_shard, subCoordsOf_cons_shard] at hsub
              by_cases h : d0 = d
              · rw [if_pos h, if_pos h] at hsub
                injection hsub
              · rw [if_neg h, if_neg h] at hsub
                exact hsub
            | stridedShard d0 sf =>
              rw [subCoordsOf_cons_strided, subCoordsOf_cons_strided] at hsub
              by_cases h : d0 = d
              · rw [if_pos h, if_pos h] at hsub
                injection hsub
              · rw [if_neg h, if_neg h] at hsub
                exact hsub
          have := ih ar ar' d hc2 hc2' hsub' j' hj' hdim'
          simpa using this

theorem collectDims_cons_eval (f : Nat → Except MetaComputeError (Nat × Nat))
    (d : Nat) (rest : List Nat) :
    collectDims f (d :: rest) =
      match f d with
      | .error e => .error e
      | .ok v =>
        match collectDims f rest with
        | .error e => .error e
        | .ok vs => .ok (v :: vs) := by
  cases hd : f d with
  | error e =>
    show (do
      let v ← f d
      let vs ← collectDims f rest
      Except.ok (v :: vs)) = _
    rw [hd]
    rfl
  | ok v =>
    cases hrest : collectDims f rest with
    | error e =>
      show (do
        let v ← f d
        let vs ← collectDims f rest
        Except.ok (v :: vs)) = _
      rw [hd, hrest]
      rfl
    | ok vs =>
      show (do
        let v ← f d
        let vs ← collectDims f rest
        Except.ok (v :: vs)) = _
      rw [hd, hrest]
      rfl

/-- A successful collectDims run records one successful per-dimension run
for every listed dimension, in order. -/
theorem collectDims_ok_get (f : Nat → Except MetaComputeError (Nat × Nat)) :
    ∀ (ds : List Nat) (rs : List (Nat × Nat)), collectDims f ds = .ok rs →
      rs.length = ds.length ∧
      ∀ i, i < ds.length → f (ds.getD i 0) = .ok (rs.getD i (0, 0)) := by
  intro ds
  induction ds with
  | nil =>
    intro rs h
    rw [show collectDims f [] = .ok [] from rfl, Except.ok.injEq] at h
    subst h
    exact ⟨rfl, by intro i hi; simp at hi⟩
  | cons d rest ih =>
    intro rs h
    rw [collectDims_cons_eval] at h
    cases hd : f d with
    | error e =>
      rw [hd] at h
      exact Except.noConfusion h
    | ok v =>
      rw [hd] at h
      cases hrest : collectDims f rest with
      | error e =>
        rw [hrest] at h
        exact Except.noConfusion h
      | ok vs =>
        rw [hrest] at h
        rw [Except.ok.injEq] at h
        subst h
        obtain ⟨hlen, hget⟩ := ih vs hrest
        refine ⟨by simp [hlen], ?_⟩
        intro i hi
        cases i with
        | zero =>
          simpa using hd
        | succ i' =>
          have hi' : i' < rest.length := by simpa using hi
          simpa using hget i' hi'

/-- collectDims succeeds when every listed dimension's run succeeds. -/
theorem collectDims_isOk (f : Nat → Except MetaComputeError (Nat × Nat)) :
    ∀ ds : List Nat, (∀ d ∈ ds, (f d).isOk = true) →
      ∃ rs, collectDims f ds = .ok rs := by
  intro ds
  induction ds with
  | nil =>
    intro _
    exact ⟨[], rfl⟩
  | cons d rest ih =>
    intro h
    obtain ⟨vs, hvs⟩ := ih fun q hq => h q (List.mem_cons_of_mem _ hq)
    have hd := h d (List.mem_cons_self _ _)
    cases hfd : f d with
    | error e =>
      rw [hfd, exceptIsOk_error] at hd
      exact Bool.noConfusion hd
    | ok v =>
      refine ⟨v :: vs, ?_⟩
      rw [collectDims_cons_eval, hfd, hvs]

/-- collectDims only depends on the function's values on the listed
dimensions. -/
theorem collectDims_congr (f g : Nat → Except MetaComputeError (Nat × Nat)) :
    ∀ ds : List Nat, (∀ d ∈ ds, f d = g d) →
      collectDims f ds = collectDims g ds := by
  intro ds
  induction ds with
  | nil =>
    intro _
    rfl
  | cons d rest ih =>
    intro h
    rw [collectDims_cons_eval, collectDims_cons_eval,
      h d (List.mem_cons_self _ _), ih fun q hq => h q (List.mem_cons_of_mem _ hq)]

theorem getD_range_eq (n i : Nat) (h : i < n) :
    (List.range n).getD i 0 = i := by
  rw [List.getD_eq_getElem?_getD, List.getElem?_range h]
  rfl

/-- Evaluation of compute_local_shape_and_global_offset when no plain Shard
follows an ended strided segment. -/
theorem clsgo_none_eval (gs mesh : List Nat) (pl : List Placement)
    (coord : List Nat) (h : firstShardAfterStridedEnd pl = none) :
    compute_local_shape_and_global_offset gs mesh pl coord =
      match collectDims (fun d => dimShardCompute d (gs.getD d 0)
          (dimShardSteps pl mesh coord d)) (List.range gs.length) with
      | .error e => .error e
      | .ok results => .ok (results.map Prod.fst, results.map Prod.snd) := by
  simp only [compute_local_shape_and_global_offset, h]
  cases hc : collectDims (fun d => dimShardCompute d (gs.getD d 0)
      (dimShardSteps pl mesh coord d)) (List.range gs.length) with
  | error e => rfl
  | ok results => rfl

/-- A successful run decomposes into a successful collectDims run whose
first and second components are the local shape and the global offset. -/
theorem clsgo_run_decompose (gs mesh : List Nat) (pl : List Placement)
    (coord : List Nat) (hnone : firstShardAfterStridedEnd pl = none)
    (szs offs : List Nat)
    (hrun : compute_local_shape_and_global_offset gs mesh pl coord =
      .ok (szs, offs)) :
    ∃ rs : List (Nat × Nat),
      collectDims (fun d => dimShardCompute d (gs.getD d 0)
        (dimShardSteps pl mesh coord d)) (List.range gs.length) = .ok rs ∧
      szs = rs.map Prod.fst ∧ offs = rs.map Prod.snd := by
  rw [clsgo_none_eval gs mesh pl coord hnone] at hrun
  cases hc : collectDims (fun d => dimShardCompute d (gs.getD d 0)
      (dimShardSteps pl mesh coord d)) (List.range gs.length) with
  | error e =>
    rw [hc] at hrun
    exact Except.noConfusion hrun
  | ok rs =>
    rw [hc, Except.ok.injEq, Prod.mk.injEq] at hrun
    exact ⟨rs, rfl, hrun.1.symm, hrun.2.symm⟩

/-- Each dimension's run of a successful collectDims run. -/
theorem clsgo_dim_run (gs mesh : List Nat) (pl : List Placement)
    (coord : List Nat) (rs : List (Nat × Nat))
    (hcollect : collectDims (fun d => dimShardCompute d (gs.getD d 0)
      (dimShardSteps pl mesh coord d)) (List.range gs.length) = .ok rs)
    (d : Nat) (hd : d < gs.length) :
    dimShardCompute d (gs.getD d 0) (dimShardSteps pl mesh coord d) =
      .ok (rs.getD d (0, 0)) := by
  obtain ⟨_, hget⟩ := collectDims_ok_get _ _ _ hcollect
  have := hget d (by rw [List.length_range]; exact hd)
  rwa [getD_range_eq _ _ hd] at this

theorem getD_map_fst (rs : List (Nat × Nat)) (i : Nat) (h : i < rs.length) :
    (rs.map Prod.fst).getD i 0 = (rs.getD i (0, 0)).1 := by
  rw [List.getD_eq_getElem?_getD, List.getElem?_map,
    List.getElem?_eq_getElem h, List.getD_eq_getElem?_getD,
    List.getElem?_eq_getElem h]
  rfl

theorem getD_map_snd (rs : List (Nat × Nat)) (i : Nat) (h : i < rs.length) :
    (rs.map Prod.snd).getD i 0 = (rs.getD i (0, 0)).2 := by
  rw [List.getD_eq_getElem?_getD, List.getElem?_map,
    List.getElem?_eq_getElem h, List.getD_eq_getElem?_getD,
    List.getElem?_eq_getElem h]
  rfl

/-- C1: for every (global_shape, mesh, placements) combination all of whose
valid rank coordinates are accepted by compute_local_shape_and_global_offset,
the computed (local_shape, global_offset) boxes cover every index of the
global tensor, ranks that agree on every sharded mesh dimension's coordinate
receive the identical slice, ranks that differ on some sharded mesh
dimension's coordinate receive disjoint slices, and every slice stays within
the global shape.  (The slices of all ranks form a partition only up to the
replicated mesh dimensions; see the counterexample.) -/
theorem local_shape_offset_partition (gs mesh : List Nat)
    (pl : List Placement) (hlen : pl.length = mesh.length)
    (hmesh : ∀ m ∈ mesh, 0 < m)
    (hdims : ∀ p ∈ pl, ∀ dd, p.shardDim = some dd → dd < gs.length)
    (hacc : ∀ coord, List.Forall₂ (fun c m => c < m) coord mesh →
      (compute_local_shape_and_global_offset gs mesh pl coord).isOk = true) :
    (∀ x : List Nat, x.length = gs.length →
      (∀ i, i < gs.length → x.getD i 0 < gs.getD i 0) →
      ∃ coord szs offs, List.Forall₂ (fun c m => c < m) coord mesh ∧
        compute_local_shape_and_global_offset gs mesh pl coord =
          .ok (szs, offs) ∧
        ∀ i, i < gs.length →
          offs.getD i 0 ≤ x.getD i 0 ∧
          x.getD i 0 < offs.getD i 0 + szs.getD i 0) ∧
    (∀ coord coord' szs offs szs' offs',
      List.Forall₂ (fun c m => c < m) coord mesh →
      List.Forall₂ (fun c m => c < m) coord' mesh →
      compute_local_shape_and_global_offset gs mesh pl coord =
        .ok (szs, offs) →
      compute_local_shape_and_global_offset gs mesh pl coord' =
        .ok (szs', offs') →
      (sameShardCoords pl coord coord' → szs = szs' ∧ offs = offs') ∧
      (¬ sameShardCoords pl coord coord' →
        ∃ i, i < gs.length ∧
          (offs.getD i 0 + szs.getD i 0 ≤ offs'.getD i 0 ∨
           offs'.getD i 0 + szs'.getD i 0 ≤ offs.getD i 0))) ∧
    (∀ coord szs offs,
      List.Forall₂ (fun c m => c < m) coord mesh →
      compute_local_shape_and_global_offset gs mesh pl coord =
        .ok (szs, offs) →
      szs.length = gs.length ∧ offs.length = gs.length ∧
      ∀ i, i < gs.length → offs.getD i 0 + szs.getD i 0 ≤ gs.getD i 0) := by
  have hnone : firstShardAfterStridedEnd pl = none := by
    cases hfs : firstShardAfterStridedEnd pl with
    | none => rfl
    | some dd =>
      have hz := hacc (zerosFor mesh) (zerosFor_valid_sizes mesh hmesh)
      rw [show compute_local_shape_and_global_offset gs mesh pl
            (zerosFor mesh) = .error (.notImplemented stridedEndMessage)
          from by simp only [compute_local_shape_and_global_offset, hfs],
        exceptIsOk_error] at hz
      exact Bool.noConfusion hz
  have hdim_acc : ∀ d, d < gs.length →
      ∀ cs, validSub cs (dimSpecs pl mesh d) →
      (dimShardCompute d (gs.getD d 0)
        (attachSteps (dimSpecs pl mesh d) cs)).isOk = true := by
    intro d hd cs hcs
    have hfv : ∀ d', validSub
        ((fun d' => if d' = d then cs else zerosFor (dimSpecs pl mesh d')) d')
        (dimSpecs pl mesh d') := by
      intro d'
      by_cases h : d' = d
      · subst h
        simp only [if_pos rfl]
        exact hcs
      · simp only [if_neg h]
        exact zerosFor_validSub _ (dimSpecs_pos pl mesh d' hmesh)
    obtain ⟨hcv, hcs_eq⟩ := buildCoord_spec pl mesh _ hlen hmesh hfv
    have hplen : pl.length = (buildCoord pl mesh
        (fun d' => if d' = d then cs else
          zerosFor (dimSpecs pl mesh d'))).length :=
      hlen.trans hcv.length_eq.symm
    have hz := hacc _ hcv
    cases hcomp : compute_local_shape_and_global_offset gs mesh pl
        (buildCoord pl mesh (fun d' => if d' = d then cs else
          zerosFor (dimSpecs pl mesh d'))) with
    | error e =>
      rw [hcomp, exceptIsOk_error] at hz
      exact Bool.noConfusion hz
    | ok v =>
      obtain ⟨szs, offs⟩ := v
      obtain ⟨rs, hcollect, _, _⟩ :=
        clsgo_run_decompose gs mesh pl _ hnone szs offs hcomp
      have hdimrun := clsgo_dim_run gs mesh pl _ rs hcollect d hd
      rw [dimShardSteps_eq_attach pl mesh _ d hlen hplen, hcs_eq d] at hdimrun
      have hfd : (if d = d then cs else zerosFor (dimSpecs pl mesh d)) =
          cs := if_pos rfl
      rw [hfd] at hdimrun
      rw [hdimrun]
      rfl
  refine ⟨?_, ?_, ?_⟩
  · intro x _ hx
    have cover_i := fun i (hi : i < gs.length) =>
      (dsc_tiling i (dimSpecs pl mesh i) (gs.getD i 0)
        (dimSpecs_pos pl mesh i hmesh) (hdim_acc i hi)).1
        (x.getD i 0) (hx i hi)
    choose cs hv sz off hruns hle hlt using cover_i
    have hfv : ∀ d, validSub
        ((fun d => if h : d < gs.length then cs d h else []) d)
        (dimSpecs pl mesh d) := by
      intro d
      by_cases h : d < gs.length
      · simp only [dif_pos h]
        exact hv d h
      · simp only [dif_neg h]
        rw [dimSpecs_out pl mesh gs.length d hdims (by omega)]
        exact List.Forall₂.nil
    obtain ⟨hcv, hcs_eq⟩ := buildCoord_spec pl mesh _ hlen hmesh hfv
    have hplen : pl.length = (buildCoord pl mesh
        (fun d => if h : d < gs.length then cs d h else [])).length :=
      hlen.trans hcv.length_eq.symm
    have hrun_i : ∀ i (hi : i < gs.length),
        dimShardCompute i (gs.getD i 0) (dimShardSteps pl mesh
          (buildCoord pl mesh
            (fun d => if h : d < gs.length then cs d h else [])) i) =
          .ok (sz i hi, off i hi) := by
      intro i hi
      rw [dimShardSteps_eq_attach pl mesh _ i hlen hplen, hcs_eq i]
      have hfd : (if h : i < gs.length then cs i h else []) = cs i hi :=
        dif_pos hi
      rw [hfd]
      exact hruns i hi
    obtain ⟨rs, hcollect⟩ := collectDims_isOk
      (fun d => dimShardCompute d (gs.getD d 0) (dimShardSteps pl mesh
        (buildCoord pl mesh
          (fun d => if h : d < gs.length then cs d h else [])) d))
      (List.range gs.length) (by
      intro dd hdd
      have hddlt : dd < gs.length := List.mem_range.mp hdd
      show (dimShardCompute dd (gs.getD dd 0) (dimShardSteps pl mesh
        (buildCoord pl mesh
          (fun d => if h : d < gs.length then cs d h else [])) dd)).isOk =
        true
      rw [hrun_i dd hddlt]
      rfl)
    have hrslen : rs.length = gs.length := by
      obtain ⟨hl, _⟩ := collectDims_ok_get _ _ _ hcollect
      rw [hl, List.length_range]
    have hcomp : compute_local_shape_and_global_offset gs mesh pl
        (buildCoord pl mesh
          (fun d => if h : d < gs.length then cs d h else [])) =
        .ok (rs.map Prod.fst, rs.map Prod.snd) := by
      rw [clsgo_none_eval gs mesh pl _ hnone, hcollect]
    refine ⟨_, rs.map Prod.fst, rs.map Prod.snd, hcv, hcomp, ?_⟩
    intro i hi
    have hdim := clsgo_dim_run gs mesh pl _ rs hcollect i hi
    have heq : (Except.ok (sz i hi, off i hi) :
        Except MetaComputeError (Nat × Nat)) = .ok (rs.getD i (0, 0)) :=
      (hrun_i i hi).symm.trans hdim
    rw [Except.ok.injEq] at heq
    rw [getD_map_snd rs i (by omega), getD_map_fst rs i (by omega), ← heq]
    exact ⟨hle i hi, hlt i hi⟩
  · intro coord coord' szs offs szs' offs' hcvd hcvd' hrun hrun'
    obtain ⟨rs, hcollect, hszs, hoffs⟩ :=
      clsgo_run_decompose gs mesh pl coord hnone szs offs hrun
    obtain ⟨rs', hcollect', hszs', hoffs'⟩ :=
      clsgo_run_decompose gs mesh pl coord' hnone szs' offs' hrun'
    have hplen : pl.length = coord.length := hlen.trans hcvd.length_eq.symm
    have hplen' : pl.length = coord'.length :=
      hlen.trans hcvd'.length_eq.symm
    have hrslen : rs.length = gs.length := by
      obtain ⟨hl, _⟩ := collectDims_ok_get _ _ _ hcollect
      rw [hl, List.length_range]
    have hrslen' : rs'.length = gs.length := by
      obtain ⟨hl, _⟩ := collectDims_ok_get _ _ _ hcollect'
      rw [hl, List.length_range]
    constructor
    · intro hsame
      have hsub := subCoordsOf_eq_of_same pl coord coord' hplen hplen' hsame
      have hceq := collectDims_congr
        (fun d => dimShardCompute d (gs.getD d 0)
          (dimShardSteps pl mesh coord d))
        (fun d => dimShardCompute d (gs.getD d 0)
          (dimShardSteps pl mesh coord' d))
        (List.range gs.length) (by
          intro dd _
          simp only
          rw [dimShardSteps_eq_attach pl mesh coord dd hlen hplen,
            dimShardSteps_eq_attach pl mesh coord' dd hlen hplen', hsub dd])
      rw [hcollect, hcollect', Except.ok.injEq] at hceq
      subst hceq
      exact ⟨by rw [hszs, hszs'], by rw [hoffs, hoffs']⟩
    · intro hnsame
      simp only [sameShardCoords] at hnsame
      push_neg at hnsame
      obtain ⟨j, hj, hdimne, hcne⟩ := hnsame
      cases hsd : (pl.getD j .replicate).shardDim with
      | none => exact absurd hsd hdimne
      | some dd =>
        have hdd : dd < gs.length :=
          hdims (pl.getD j .replicate) (getD_mem_of_lt pl j .replicate hj)
            dd hsd
        have hsubne : subCoordsOf pl coord dd ≠ subCoordsOf pl coord' dd := by
          intro hcontra
          exact hcne (same_coord_of_subCoordsOf_eq pl coord coord' dd
            hplen hplen' hcontra j hj hsd)
        have hdim := clsgo_dim_run gs mesh pl coord rs hcollect dd hdd
        have hdim' := clsgo_dim_run gs mesh pl coord' rs' hcollect' dd hdd
        rw [dimShardSteps_eq_attach pl mesh coord dd hlen hplen] at hdim
        rw [dimShardSteps_eq_attach pl mesh coord' dd hlen hplen'] at hdim'
        have hdis := (dsc_tiling dd (dimSpecs pl mesh dd) (gs.getD dd 0)
          (dimSpecs_pos pl mesh dd hmesh) (hdim_acc dd hdd)).2
          (subCoordsOf pl coord dd) (subCoordsOf pl coord' dd)
          (subCoordsOf_valid pl mesh coord dd hlen hplen hcvd)
          (subCoordsOf_valid pl mesh coord' dd hlen hplen' hcvd')
          hsubne _ _ _ _ hdim hdim'
        refine ⟨dd, hdd, ?_⟩
        rw [hszs, hoffs, hszs', hoffs',
          getD_map_fst rs dd (by omega), getD_map_snd rs dd (by omega),
          getD_map_fst rs' dd (by omega), getD_map_snd rs' dd (by omega)]
        exact hdis
  · intro coord szs offs hcvd hrun
    obtain ⟨rs, hcollect, hszs, hoffs⟩ :=
      clsgo_run_decompose gs mesh pl coord hnone szs offs hrun
    have hplen : pl.length = coord.length := hlen.trans hcvd.length_eq.symm
    have hrslen : rs.length = gs.length := by
      obtain ⟨hl, _⟩ := collectDims_ok_get _ _ _ hcollect
      rw [hl, List.length_range]
    refine ⟨by rw [hszs, List.length_map, hrslen],
      by rw [hoffs, List.length_map, hrslen], ?_⟩
    intro i hi
    have hdim := clsgo_dim_run gs mesh pl coord rs hcollect i hi
    rw [dimShardSteps_eq_attach pl mesh coord i hlen hplen] at hdim
    have hb := dsc_bound i
      (attachSteps (dimSpecs pl mesh i) (subCoordsOf pl coord i))
      (gs.getD i 0)
      (attachSteps_mem_lt (dimSpecs pl mesh i) (subCoordsOf pl coord i)
        (subCoordsOf_valid pl mesh coord i hlen hplen hcvd))
      _ _ hdim
    rw [hszs, hoffs, getD_map_fst rs i (by omega), getD_map_snd rs i (by omega)]
    exact hb

/-- C1 counterexample: with a Replicate placement over a mesh of size 2,
ranks 0 and 1 are distinct valid coordinates yet both receive the whole
tensor (size 4 at offset 0) as their slice, so the per-rank slices overlap
and do not partition the global tensor as the claim states. -/
theorem partition_replicate_counterexample :
    ([0] : List Nat) ≠ [1] ∧
    List.Forall₂ (fun c m => c < m) [0] [2] ∧
    List.Forall₂ (fun c m => c < m) [1] [2] ∧
    compute_local_shape_and_global_offset [4] [2] [Placement.replicate] [0] =
      Except.ok ([4], [0]) ∧
    compute_local_shape_and_global_offset [4] [2] [Placement.replicate] [1] =
      Except.ok ([4], [0]) := by
  refine ⟨by decide, ?_, ?_, rfl, rfl⟩
  · exact List.Forall₂.cons (by decide) List.Forall₂.nil
  · exact List.Forall₂.cons (by decide) List.Forall₂.nil

/-- Witness for C1: sharding a dimension of size 4 over a mesh of size 2,
every global index (here index 3) falls in the slice of some valid rank. -/
theorem local_shape_offset_partition_witness :
    ∃ coord szs offs, List.Forall₂ (fun c m => c < m) coord [2] ∧
      compute_local_shape_and_global_offset [4] [2] [Placement.shard 0]
        coord = Except.ok (szs, offs) ∧
      ∀ i, i < ([4] : List Nat).length →
        offs.getD i 0 ≤ ([3] : List Nat).getD i 0 ∧
        ([3] : List Nat).getD i 0 < offs.getD i 0 + szs.getD i 0 := by
  have hm : ∀ m ∈ ([2] : List Nat), 0 < m := by decide
  have hd : ∀ p ∈ [Placement.shard 0], ∀ dd,
      p.shardDim = some dd → dd < ([4] : List Nat).length := by
    intro p hp dd hdd
    simp at hp
    subst hp
    rw [show (Placement.shard 0).shardDim = some 0 from rfl] at hdd
    injection hdd with h0
    rw [← h0]
    decide
  have hacc : ∀ coord, List.Forall₂ (fun c m => c < m) coord [2] →
      (compute_local_shape_and_global_offset [4] [2] [Placement.shard 0]
        coord).isOk = true := by
    intro coord hc
    obtain ⟨c, rfl, hcm⟩ := forall₂_single hc
    have hlt : c < 2 := hcm
    rcases c with _ | _ | c
    · rfl
    · rfl
    · omega
  exact (local_shape_offset_partition [4] [2] [Placement.shard 0]
    rfl hm hd hacc).1 [3] rfl (by decide)
